import Mathlib

/-!
# pdpmake: the make driver (`make.c`)

A shallow embedding of `remove_target`, `docmds1`, `docmds`, `touch`, `make1`
and `make` from `make.c`.

* A `struct name *` is an index into the name table `State.names`.
* The linked lists `n_rule`, `r_dep`, `r_cmd` are Lean lists.
* `time_t` is `Int`; the bits of `n_flag` are the fields of `Flags`.
* The file system, the clock and the shell are an abstract world `W`
  reached through the functions of `Env`.
* Everything the program prints, every command it hands to the shell and
  every call of `make` is appended to `State.log`.
* `error(...)`, `exit(status)` and a NULL dereference end the run: `Res.stop`.
* The recursion of `make` is bounded by a fuel argument; `Res.timeout` says
  the bound was reached before the call returned.
* A loop over `n_rule` or `r_dep` walks the list as it stands when the loop
  is entered. The C loops follow the `r_next` and `d_next` pointers as they
  go; the two differ only when a recursive call changes the rules of a name
  whose own loop is still running, that is when the name is reached again from
  one of its prerequisites.
-/

namespace Pdpmake

/-- One rule of a target: `struct rule` (`r_dep`, `r_cmd`); `r_cmd = []` is
the NULL command list. -/
structure Rule where
  r_dep : List Nat
  r_cmd : List String
  deriving DecidableEq, Repr

/-- The bits of `n_flag` that `make.c` reads or writes. -/
structure Flags where
  N_DONE : Bool := false
  N_TARGET : Bool := false
  N_PRECIOUS : Bool := false
  N_DOUBLE : Bool := false
  N_SILENT : Bool := false
  N_IGNORE : Bool := false
  deriving DecidableEq, Repr

/-- An entry of the name table: `struct name`. -/
structure Name where
  n_name : String
  n_rule : List Rule := []
  n_time : Int := 0
  n_flag : Flags := {}
  deriving DecidableEq, Repr

/-- The messages of `error`, `warning` and `printf` in `make.c`; a name is
given by its index. -/
inductive Diag where
  /-- Text "don't know how to make NAME". -/
  | dontKnowHow (np : Nat)
  /-- Text "couldn't execute 'Q'". -/
  | couldntExecute (q : String)
  /-- Text "failed to build 'NAME'". -/
  | failedToBuild (np : Nat)
  /-- Text "'NAME' not built due to errors". -/
  | notBuilt (np : Nat)
  /-- Text "'NAME' removed". -/
  | removed (np : Nat)
  /-- Text "touch NAME failed: ...". -/
  | touchFailed (np : Nat)
  /-- Text "touch NAME" on standard output. -/
  | touchLine (np : Nat)
  /-- Text "make: 'NAME' is up to date" on standard output. -/
  | upToDate (np : Nat)
  deriving DecidableEq, Repr

/-- What the run does that can be seen from outside, in order, together with
two markers of the call structure (`call`, `rebuild`). -/
inductive Event where
  /-- Entry into `make(np, level)`. -/
  | call (np level : Nat)
  /-- The frame `make(np, level)` hands `np` to `make1`: with rule number
  `rp` for a double-colon rule, with `none` for `make1(np, NULL, ...)`. -/
  | rebuild (np : Nat) (rp : Option Nat) (level : Nat)
  /-- The call `puts(q)`: a command line is echoed. -/
  | puts (q : String)
  /-- The call `system(cmd)` while `target = np`, and what it returned. -/
  | system (np : Nat) (cmd : String) (status : Int)
  /-- The call `unlink(name)` and what it returned. -/
  | unlink (np : Nat) (ret : Int)
  /-- The call `utimensat(AT_FDCWD, name, ...)`. -/
  | utimensat (np : Nat) (ret : Int)
  /-- A call of `warning`. -/
  | warning (d : Diag)
  /-- A call of `printf`. -/
  | printf (d : Diag)
  deriving DecidableEq, Repr

/-- The global data `make.c` works on: the name table, the macro store, the
global `target`, the outside world and the log. -/
structure State (W : Type) where
  names : Nat → Name
  macros : String → Option String
  target : Option Nat
  world : W
  log : List Event

/-- The command-line flags (globals of `make.h`) and the functions `make.c`
calls but does not define. -/
structure Env (W : Type) where
  dryrun : Bool
  print : Bool
  precious : Bool
  silent : Bool
  ignore : Bool
  errcont : Bool
  quest : Bool
  dotouch : Bool
  /-- The modification time `stat` reports for a file name, 0 when the file
  is missing. -/
  mtime : W → String → Int
  /-- The call `system(cmd)`: the status and the world afterwards. -/
  system : W → String → Int × W
  /-- The call `time(&t)`: the clock and the world afterwards. -/
  time : W → Int × W
  /-- The call `unlink(name)`. -/
  unlink : W → String → Int × W
  /-- The call `utimensat(AT_FDCWD, name, now, 0)`: return value, whether
  `errno == ENOENT` afterwards, world. -/
  utimensat : W → String → Int × Bool × W
  /-- The call `open(name, O_RDWR | O_CREAT, 0666)`: the descriptor. -/
  openCreat : W → String → Int × W
  /-- The function `expand_macros` under the current macro store. -/
  expand_macros : (String → Option String) → String → String
  /-- The function `splitlib`: the file name and the archive member. -/
  splitlib : String → String × Option String
  /-- The base name with its suffix cut off (`*suffix(base) = 0`). -/
  stem : String → String
  /-- The function `findname`: the table entry of that name, if any. -/
  findname : String → Option Nat
  /-- The search of `dyndep` through the suffix rules: the implicit
  prerequisite found and the commands of the suffix rule. -/
  implicit : W → (Nat → Name) → Nat → Option Nat → Option (Nat × List String)

/-- How a run ends before `make` returns. -/
inductive Stop where
  /-- The call `error(...)`: message, then the process exits. -/
  | error (d : Diag)
  /-- The call `exit(status)`. -/
  | exit (status : Int)
  /-- A NULL pointer is dereferenced. -/
  | crash
  deriving DecidableEq, Repr

/-- The result of running a piece of `make.c` from a state. -/
inductive Res (W : Type) (α : Type) where
  /-- The function returned `a`. -/
  | ok (a : α) (s : State W)
  /-- The process ended in state `s`. -/
  | stop (e : Stop) (s : State W)
  /-- The recursion bound was reached. -/
  | timeout

variable {W : Type}

/-- Sequencing: run `f` on the value and state of a returned result. -/
def Res.bind {α β : Type} (r : Res W α) (f : α → State W → Res W β) : Res W β :=
  match r with
  | .ok a s => f a s
  | .stop e s => .stop e s
  | .timeout => .timeout

/-- The state a run ended in, when it returned or stopped. -/
def Res.final {α : Type} : Res W α → Option (State W)
  | .ok _ s => some s
  | .stop _ s => some s
  | .timeout => none

/-- The value a run returned, `a` if it did not return. -/
def Res.valueD {α : Type} (r : Res W α) (a : α) : α :=
  match r with
  | .ok b _ => b
  | _ => a

/-- The state a run ended in, `s` if the bound was reached. -/
def Res.stateD {α : Type} (r : Res W α) (s : State W) : State W :=
  match r with
  | .ok _ s1 => s1
  | .stop _ s1 => s1
  | .timeout => s

/-- Append one event to the log. -/
def State.emit (s : State W) (e : Event) : State W :=
  { s with log := s.log ++ [e] }

/-- Rewrite the table entry of `np`. -/
def State.modify (s : State W) (np : Nat) (f : Name → Name) : State W :=
  { s with names := Function.update s.names np (f (s.names np)) }

/-- The assignment `np->n_time = t`. -/
def State.setTime (s : State W) (np : Nat) (t : Int) : State W :=
  s.modify np (fun n => { n with n_time := t })

/-- The statement `np->n_flag |= N_DONE`. -/
def State.setDone (s : State W) (np : Nat) : State W :=
  s.modify np (fun n => { n with n_flag := { n.n_flag with N_DONE := true } })

/-- Rule number `i` of `np`, as the table holds it now. -/
def State.ruleAt (s : State W) (np i : Nat) : Rule :=
  ((s.names np).n_rule.get? i).getD ⟨[], []⟩

/-- Overwrite rule number `i` of `np`. -/
def State.setRule (s : State W) (np i : Nat) (r : Rule) : State W :=
  s.modify np (fun n => { n with n_rule := n.n_rule.set i r })

/-- A C truth value as a number. -/
def b2n (b : Bool) : Nat := if b then 1 else 0

/-- The signal numbers of `signal.h`. -/
def SIGINT : Int := 2

/-- The signal numbers of `signal.h`. -/
def SIGQUIT : Int := 3

/-- Modelled from the spec: `set(name, value, override_policy)` of the macro
store (`setmacro` in the source, not among the files); at level 0 the
binding is overwritten, a NULL value is stored as the empty string. -/
def setmacro (name : String) (val : Option String) (s : State W) : State W :=
  { s with macros := Function.update s.macros name (some (val.getD "")) }

/-- Modelled from the spec: the modification-time oracle of section 4.4
(`modtime` in the source, not among the files) stores the time of the file
in `n_time`. -/
def modtime (env : Env W) (np : Nat) (s : State W) : State W :=
  s.setTime np (env.mtime s.world (s.names np).n_name)

/-- Modelled from the spec: `add_rule(target, deps, cmds, double)` of section
4.3 (`addrule` in the source, not among the files) appends a rule and marks
the name as a target. -/
def addrule (np : Nat) (dp : List Nat) (cp : List String) (flag : Bool)
    (s : State W) : State W :=
  s.modify np (fun n =>
    { n with
      n_rule := n.n_rule ++ [⟨dp, cp⟩]
      n_flag := { n.n_flag with N_TARGET := true,
                                N_DOUBLE := n.n_flag.N_DOUBLE || flag } })

/-- Modelled from the spec: the implicit rule resolver of section 4.5
(`dyndep` in the source, not among the files). The search itself is
`Env.implicit`. On success the candidate is probed, and the commands of the
suffix rule are attached: to `np` as a fresh rule whose single prerequisite
is the candidate, or, when a rule number is given (double-colon), to that
rule, with the candidate put in front of its prerequisites (`make.c` takes
it off again, lines 226-231). The candidate is returned. -/
def dyndep (env : Env W) (np : Nat) (infrule : Option Nat) (s : State W) :
    Option Nat × State W :=
  match env.implicit s.world s.names np infrule with
  | none => (none, s)
  | some (pp, cmds) =>
    let s1 := if (s.names pp).n_time = 0 then modtime env pp s else s
    match infrule with
    | some i => (some pp, s1.setRule np i ⟨pp :: (s1.ruleAt np i).r_dep, cmds⟩)
    | none => (some pp, addrule np [pp] cmds false s1)

/-- Modelled from the spec: `$?` is the space-joined list of names
(`xappendword` in the source, not among the files). -/
def xappendword (newer : Option String) (word : String) : Option String :=
  match newer with
  | none => some word
  | some str => some (str ++ " " ++ word)

/-- The function `remove_target` (make.c:8-16). -/
def remove_target (env : Env W) (s : State W) : State W :=
  if !env.dryrun && !env.print && !env.precious then
    match s.target with
    | none => s
    | some t =>
      if !(s.names t).n_flag.N_PRECIOUS then
        let (ret, w) := env.unlink s.world (s.names t).n_name
        let s1 := { s with world := w }.emit (.unlink t ret)
        if ret = 0 then s1.emit (.warning (.removed t)) else s1
      else s
  else s

/-- The loop `for (;;)` of make.c:35-45 over the leading `@`, `-`, `+`. -/
def scanMods : List Char → Nat → Nat → Nat → List Char × Nat × Nat × Nat
  | [], ssilent, signore, sdomake => ([], ssilent, signore, sdomake)
  | c :: q, ssilent, signore, sdomake =>
    if c = '@' then scanMods q 2 signore sdomake
    else if c = '-' then scanMods q ssilent 1 sdomake
    else if c = '+' then scanMods q ssilent signore 2
    else (c :: q, ssilent, signore, sdomake)

/-- What the body of the loop of `docmds1` decides about one command
(make.c:31-52): the text after the modifiers, `ssilent`, `signore`,
`sdomake`. -/
def cmdFlags (env : Env W) (fl : Flags) (command : String) :
    String × Nat × Nat × Nat :=
  let ssilent0 := b2n (env.silent || fl.N_SILENT || env.dotouch)
  let signore0 := b2n (env.ignore || fl.N_IGNORE)
  let sdomake0 := b2n (!env.dryrun && !env.dotouch)
  let (q, ssilent1, signore, sdomake) :=
    scanMods command.data ssilent0 signore0 sdomake0
  let ssilent :=
    if sdomake > 1 then
      (if ssilent1 ≠ 2 ∧ !fl.N_SILENT then 0 else ssilent1)
    else if sdomake = 0 then b2n env.dotouch
    else ssilent1
  (String.mk q, ssilent, signore, sdomake)

/-- One turn of the loop of `docmds1` (make.c:29-79) for the command
`c_cmd`; `estat` is the status so far, the new one is returned. -/
def docmd (env : Env W) (np : Nat) (c_cmd : String) (estat : Nat)
    (s : State W) : Res W Nat :=
  let command := env.expand_macros s.macros c_cmd
  let (q, ssilent, signore, sdomake) := cmdFlags env (s.names np).n_flag command
  let s1 := if ssilent = 0 then s.emit (.puts q) else s
  if sdomake ≠ 0 then
    let cmd := if signore = 0 then "set -e;" ++ q else q
    let s2 := { s1 with target := some np }
    let (status, w) := env.system s2.world cmd
    let s3 := { s2 with world := w, target := none }.emit (.system np cmd status)
    if status = -1 then
      .stop (.error (.couldntExecute q)) s3
    else if status ≠ 0 ∧ signore = 0 then
      let s4 := s3.emit (.warning (.failedToBuild np))
      let s5 := if status = SIGINT ∨ status = SIGQUIT then remove_target env s4 else s4
      if env.errcont then .ok 1 s5 else .stop (.exit status) s5
    else .ok estat s3
  else .ok estat s1

/-- The loop of `docmds1` (make.c:28-81) over the commands still to run. -/
def docmdsFrom (env : Env W) (np : Nat) : List String → Nat → State W → Res W Nat
  | [], estat, s => .ok estat s
  | c :: cs, estat, s =>
    (docmd env np c estat s).bind (fun estat1 s1 => docmdsFrom env np cs estat1 s1)

/-- The function `docmds1` (make.c:21-82): the commands of one rule. -/
def docmds1 (env : Env W) (np : Nat) (rp : Rule) (s : State W) : Res W Nat :=
  docmdsFrom env np rp.r_cmd 0 s

/-- The loop of `docmds` (make.c:90-91) over the rules still to run. -/
def docmdsRules (env : Env W) (np : Nat) : List Rule → Nat → State W → Res W Nat
  | [], estat, s => .ok estat s
  | rp :: rps, estat, s =>
    (docmds1 env np rp s).bind (fun e s1 => docmdsRules env np rps (estat ||| e) s1)

/-- The function `docmds` (make.c:84-93): the commands of all rules. -/
def docmds (env : Env W) (np : Nat) (s : State W) : Res W Nat :=
  docmdsRules env np (s.names np).n_rule 0 s

/-- The function `touch` (make.c:98-118). -/
def touch (env : Env W) (np : Nat) (s : State W) : State W :=
  let s1 := if env.dryrun || !env.silent then s.emit (.printf (.touchLine np)) else s
  if !env.dryrun then
    let (ret, enoent, w) := env.utimensat s1.world (s1.names np).n_name
    let s2 := { s1 with world := w }.emit (.utimensat np ret)
    if ret < 0 then
      if enoent then
        let (fd, w1) := env.openCreat s2.world (s2.names np).n_name
        let s3 := { s2 with world := w1 }
        if fd > 0 then s3 else s3.emit (.warning (.touchFailed np))
      else s2.emit (.warning (.touchFailed np))
    else s2
  else s1

/-- Lines 126-136 of `make1`: the macros `$?`, `$%`, `$@` are set, and `$<`
and `$*` when there is an implicit prerequisite. -/
def autoMacros (env : Env W) (np : Nat) (newer : Option String)
    (implicit : Option Nat) (s : State W) : State W :=
  let (name, member) := env.splitlib (s.names np).n_name
  let s1 := setmacro "@" (some name) ( setmacro "%" member ( setmacro "?" newer s))
  match implicit with
  | some ip =>
    let base := member.getD name
    setmacro "*" (some (env.stem base)) ( setmacro "<" (some (s1.names ip).n_name) s1)
  | none => s1

/-- The function `make1` (make.c:120-147); `rp` is the rule of a `::`
target, `none` for NULL. -/
def make1 (env : Env W) (np : Nat) (rp : Option Rule) (newer : Option String)
    (implicit : Option Nat) (s : State W) : Res W Nat :=
  let s2 := autoMacros env np newer implicit s
  let r :=
    match rp with
    | some rule => docmds1 env np rule s2
    | none => docmds env np s2
  r.bind (fun estat s3 => .ok estat (if env.dotouch then touch env np s3 else s3))

/-- The locals of `make` that live across its loops. -/
structure Locals where
  impdep : Option Nat := none
  newer : Option String := none
  dtime : Int := 1
  didsomething : Bool := false
  estat : Bool := false
  deriving DecidableEq, Repr

/-- Lines 169-187 of `make`: for a target without `::`, look for explicit
commands, then for an implicit rule, then for `.DEFAULT`; the result is
`impdep`. -/
def resolve (env : Env W) (np : Nat) (s : State W) : Res W (Option Nat) :=
  if !(s.names np).n_flag.N_DOUBLE then
    let hascmd := (s.names np).n_rule.any (fun rp => !rp.r_cmd.isEmpty)
    let (impdep, s1) := if !hascmd then dyndep env np none s else (none, s)
    if !(s1.names np).n_flag.N_TARGET && (s1.names np).n_time = 0 then
      match env.findname ".DEFAULT" with
      | none => .stop (.error (.dontKnowHow np)) s1
      | some dflt =>
        match (s1.names dflt).n_rule with
        | [] => .stop .crash s1
        | r :: _ => .ok (some np) (addrule np [] r.r_cmd false s1)
    else .ok impdep s1
  else .ok none s

/-- The loop of make.c:205-214 over the prerequisites still to make; `mk` is
the recursive call. -/
def makeDeps (env : Env W) (mk : Nat → Nat → State W → Res W Nat)
    (np level : Nat) : List Nat → Locals → State W → Res W Locals
  | [], l, s => .ok l s
  | d :: ds, l, s =>
    (mk d (level + 1) s).bind (fun r s1 =>
      makeDeps env mk np level ds
        { l with
          estat := l.estat || (r ≠ 0)
          newer :=
            if !env.quest ∧ (s1.names np).n_time ≤ (s1.names d).n_time then
              xappendword l.newer (s1.names d).n_name
            else l.newer
          dtime := max l.dtime (s1.names d).n_time } s1)

/-- Lines 192-203 of `make`, the head of one turn of the loop over the
rules: for a `::` target the implicit rule of a rule without commands and
the seed of `dtime`. The rule as it stands afterwards is returned. -/
def ruleHead (env : Env W) (np i : Nat) (rp : Rule) (l : Locals) (s : State W) :
    Res W (Rule × Locals) :=
  if (s.names np).n_flag.N_DOUBLE then
    let found : Res W (Rule × Locals) :=
      if rp.r_cmd.isEmpty then
        match dyndep env np (some i) s with
        | (none, s1) => .stop (.error (.dontKnowHow np)) s1
        | (some pp, s1) => .ok (s1.ruleAt np i, { l with impdep := some pp }) s1
      else .ok (rp, { l with impdep := none }) s
    found.bind (fun (rp1, l1) s1 =>
      .ok (rp1, if rp1.r_dep.isEmpty then { l1 with dtime := (s1.names np).n_time } else l1) s1)
  else .ok (rp, l) s

/-- Lines 216-232 of `make`, the tail of one turn of the loop over the
rules: a `::` rule is run on its own, and an implicit prerequisite is taken
off the rule again. -/
def ruleTail (env : Env W) (np level i : Nat) (rp : Rule) (l : Locals) (s : State W) :
    Res W Locals :=
  if (s.names np).n_flag.N_DOUBLE then
    let ran : Res W Locals :=
      if !env.quest ∧ (s.names np).n_time ≤ l.dtime then
        if l.estat = false then
          (make1 env np (some rp) l.newer l.impdep (s.emit (.rebuild np (some i) level))).bind
            (fun e s1 => .ok { l with estat := e ≠ 0, dtime := 1, didsomething := true,
                                      newer := none } s1)
        else .ok { l with newer := none } s
      else .ok l s
    ran.bind (fun l1 s1 =>
      match l1.impdep with
      | none => .ok l1 s1
      | some _ =>
        match (s1.ruleAt np i).r_dep with
        | [] => .stop .crash s1
        | _ :: dp => .ok l1 (s1.setRule np i ⟨dp, []⟩))
  else .ok l s

/-- The loop of make.c:189-234 over the rules still to visit; `i` is the
number of the rule `rp` at the head of the list. The list is the one read at
line 189; a rule that `dyndep` rewrites is read again. -/
def makeRules (env : Env W) (mk : Nat → Nat → State W → Res W Nat)
    (np level : Nat) : Nat → List Rule → Locals → State W → Res W Locals
  | _, [], l, s => .ok l s
  | i, rp :: rps, l, s =>
    (ruleHead env np i rp l s).bind (fun (rp1, l1) s1 =>
      (makeDeps env mk np level rp1.r_dep l1 s1).bind (fun l2 s2 =>
        (ruleTail env np level i rp1 l2 s2).bind (fun l3 s3 =>
          makeRules env mk np level (i + 1) rps l3 s3)))

/-- Lines 236-254 of `make`: mark the name done and decide. -/
def finish (env : Env W) (np level : Nat) (l : Locals) (s0 : State W) : Res W Nat :=
  let s := s0.setDone np
  if env.quest then
    if (s.names np).n_time ≤ l.dtime then
      let (now, w) := env.time s.world
      .ok 1 ({ s with world := w }.setTime np now)
    else .ok (b2n l.estat) s
  else if (s.names np).n_time ≤ l.dtime ∧ !(s.names np).n_flag.N_DOUBLE then
    if l.estat = false then
      (make1 env np none l.newer l.impdep (s.emit (.rebuild np none level))).bind
        (fun e s1 =>
          let (now, w) := env.time s1.world
          .ok (b2n (e ≠ 0)) ({ s1 with world := w }.setTime np now))
    else .ok (b2n l.estat) (s.emit (.warning (.notBuilt np)))
  else if level = 0 ∧ !l.didsomething then
    .ok (b2n l.estat) (s.emit (.printf (.upToDate np)))
  else .ok (b2n l.estat) s

/-- The body of `make(np, level)` (make.c:152-255) with `mk` for the
recursive calls. -/
def makeBody (env : Env W) (mk : Nat → Nat → State W → Res W Nat)
    (np level : Nat) (s : State W) : Res W Nat :=
  let s0 := s.emit (.call np level)
  if (s0.names np).n_flag.N_DONE then .ok 0 s0
  else
    let s1 := if (s0.names np).n_time = 0 then modtime env np s0 else s0
    (resolve env np s1).bind (fun impdep s2 =>
      (makeRules env mk np level 0 (s2.names np).n_rule { impdep := impdep } s2).bind
        (fun l s3 => finish env np level l s3))

/-- The function `make` (make.c:152-255); the first argument bounds the depth
of the recursion. -/
def make (env : Env W) : Nat → Nat → Nat → State W → Res W Nat
  | 0, _, _, _ => .timeout
  | fuel + 1, np, level, s => makeBody env (make env fuel) np level s

/-! ## The command line: `win32posix/args.c`

* The global `args` is passed and returned explicitly.
* `args.v` is the list of the slots of the array it points to; a slot holds a
  string or NULL. Reading a slot that is not there, handing NULL to `strcmp`
  and a failing `assert` end the call with a `Fault`.
* A C string is a Lean string (no NUL inside); `int32_t` and `int64_t` values
  are integers. Every index the functions compute lies between 0 and `args.c`,
  so no `int32_t` operation overflows.
-/

/-- Why a call did not return: a failed `assert`, a read outside the array,
or a NULL pointer used as a string. -/
inductive Fault where
  | assert
  | bounds
  | null
  deriving DecidableEq, Repr

/-- The global `args` (args.h:10-14) without `env`, which the functions below
do not touch. -/
structure Args where
  c : Int
  v : List (Option String)
  deriving DecidableEq, Repr

/-- The loop of `args_option_index` (args.c:14-17) from index `i` on, with
`n` turns to go. -/
def indexFrom (v : List (Option String)) (option : String) : Nat → Nat → Except Fault Int
  | _, 0 => .ok (-1)
  | i, n + 1 =>
    match v[i]? with
    | none => .error .bounds
    | some none => .error .null
    | some (some a) =>
      if a = "--" then .ok (-1)
      else if a = option then .ok i
      else indexFrom v option (i + 1) n

/-- The function `args_option_index` (args.c:13-19). -/
def args_option_index (a : Args) (option : String) : Except Fault Int :=
  indexFrom a.v option 1 (a.c - 1).toNat

/-- The loop of `args_remove_at` (args.c:25-27) from index `i` on, with `n`
turns to go: `args.v[i] = args.v[i + 1]`. -/
def shiftFrom (v : List (Option String)) : Nat → Nat → Except Fault (List (Option String))
  | _, 0 => .ok v
  | i, n + 1 =>
    match v[i + 1]? with
    | none => .error .bounds
    | some x => shiftFrom (v.set i x) (i + 1) n

/-- The function `args_remove_at` (args.c:21-30). -/
def args_remove_at (a : Args) (ix : Int) : Except Fault Args :=
  if 0 < a.c then
    if 0 < ix ∧ ix < a.c then
      match shiftFrom a.v ix.toNat (a.c - ix).toNat with
      | .error e => .error e
      | .ok v1 => .ok { c := a.c - 1, v := v1.set (a.c - 1).toNat (some "") }
    else .error .assert
  else .error .assert

/-- The function `args_option_bool` (args.c:32-36). -/
def args_option_bool (a : Args) (option : String) : Except Fault (Bool × Args) :=
  match args_option_index a option with
  | .error e => .error e
  | .ok ix =>
    if 0 < ix then
      match args_remove_at a ix with
      | .error e => .error e
      | .ok a1 => .ok (true, a1)
    else .ok (false, a)

/-- The library predicate `isspace` in the C locale. -/
def isspace (c : Char) : Bool :=
  c = ' ' || c = '\t' || c = '\n' || c = '\x0b' || c = '\x0c' || c = '\r'

/-- The value of a character as a digit of `strtoll`: `0`-`9`, and the
letters in either case for 10 to 35. -/
def digitVal (c : Char) : Option Nat :=
  if '0' ≤ c ∧ c ≤ '9' then some (c.toNat - '0'.toNat)
  else if 'a' ≤ c ∧ c ≤ 'z' then some (c.toNat - 'a'.toNat + 10)
  else if 'A' ≤ c ∧ c ≤ 'Z' then some (c.toNat - 'A'.toNat + 10)
  else none

/-- Whether the character is a digit in the given base. -/
def isDigitOf (base : Nat) (c : Char) : Bool :=
  match digitVal c with
  | some d => d < base
  | none => false

/-- The limits of `long long` (64 bits). -/
def LLONG_MAX : Int := 2 ^ 63 - 1

/-- The least `long long`. -/
def LLONG_MIN : Int := -(2 ^ 63)

/-- What a call `strtoll(b, &e, base)` gives: the value returned, the number
of characters before `e`, and whether `errno` was set to `ERANGE`. -/
structure Strtoll where
  value : Int
  stop : Nat
  erange : Bool
  deriving DecidableEq, Repr

/-- The length of the sign in front of the subject of `strtoll`: 1 for a
`-` or a `+`, else 0. -/
def signLen (r : List Char) : Nat :=
  if r.head? = some '-' ∨ r.head? = some '+' then 1 else 0

/-- The length of the prefix that `strtoll` skips after the sign: 2 for
`0x` or `0X` in front of a hexadecimal digit when the base is 16, else 0. -/
def prefixLen (base : Nat) (r : List Char) : Nat :=
  if base = 16 ∧ r.head? = some '0' ∧ (r[1]? = some 'x' ∨ r[1]? = some 'X') ∧
      (r[2]?).map (isDigitOf 16) = some true then 2 else 0

/-- The result of `strtoll` once the digits `ds` of the subject are known:
`skipped` characters stand in front of them. -/
def strtollOf (neg : Bool) (skipped base : Nat) (ds : List Char) : Strtoll :=
  if ds = [] then { value := 0, stop := 0, erange := false }
  else
    let n := ds.foldl (fun acc c => acc * base + (digitVal c).getD 0) 0
    let val : Int := if neg then -(n : Int) else (n : Int)
    if LLONG_MAX < val then { value := LLONG_MAX, stop := skipped + ds.length, erange := true }
    else if val < LLONG_MIN then
      { value := LLONG_MIN, stop := skipped + ds.length, erange := true }
    else { value := val, stop := skipped + ds.length, erange := false }

/-- The library function `strtoll` for the bases 10 and 16, after the C
standard (7.22.1.4): white space is skipped, then come an optional sign, for
base 16 an optional `0x` or `0X` in front of a hexadecimal digit, and the
longest run of digits of the base. Without a digit nothing is converted and
`e` is `b`; a value outside `long long` gives the nearest limit and
`ERANGE`. -/
def strtoll (b : List Char) (base : Nat) : Strtoll :=
  let ws := b.takeWhile isspace
  let r1 := b.dropWhile isspace
  let r2 := r1.drop (signLen r1)
  let r3 := r2.drop (prefixLen base r2)
  strtollOf (r1.head? = some '-') (ws.length + signLen r1 + prefixLen base r2) base
    (r3.takeWhile (isDigitOf base))

/-- Lines 42-47 of `args_option_int`: the base is 16 when the text starts
with `0x` or `0X` (`strstr(s, "0x") == s`), the text after that prefix is
handed to `strtoll`, and the number is accepted when `errno` is 0, something
was converted and the text is used up (`errno == 0 && e > b && *e == 0`). The
result is the value if the number is accepted. -/
def parseInt (s : String) : Option Int :=
  let base := if ['0', 'x'].isPrefixOf s.data || ['0', 'X'].isPrefixOf s.data then 16 else 10
  let b := if base = 10 then s.data else s.data.drop 2
  let r := strtoll b base
  if r.erange = false ∧ 0 < r.stop ∧ r.stop = b.length then some r.value else none

/-- Lines 55-58 of `args_option_int` and 70-73 of `args_option_str`: the
option and what followed it are removed. -/
def removeTwo (a : Args) (ix : Int) : Except Fault Args :=
  match args_remove_at a ix with
  | .error e => .error e
  | .ok a1 => args_remove_at a1 ix

/-- The function `args_option_int` (args.c:38-60); the second component of
the result is `*value` after the call. -/
def args_option_int (a : Args) (option : String) (value : Int) :
    Except Fault (Bool × Int × Args) :=
  match args_option_index a option with
  | .error e => .error e
  | .ok ix =>
    if 0 < ix ∧ ix < a.c - 1 then
      match a.v[(ix + 1).toNat]? with
      | none => .error .bounds
      | some none => .error .null
      | some (some s) =>
        match parseInt s with
        | some v =>
          match removeTwo a ix with
          | .error e => .error e
          | .ok a2 => .ok (true, v, a2)
        | none => .ok (false, value, a)
    else .ok (false, value, a)

/-- The function `args_option_str` (args.c:62-75); `none` is the NULL
result. -/
def args_option_str (a : Args) (option : String) : Except Fault (Option String × Args) :=
  match args_option_index a option with
  | .error e => .error e
  | .ok ix =>
    if 0 < ix ∧ ix < a.c - 1 then
      match a.v[(ix + 1).toNat]? with
      | none => .error .bounds
      | some s =>
        match removeTwo a ix with
        | .error e => .error e
        | .ok a2 => .ok (s, a2)
    else .ok (none, a)

/-! ## Names for what `docmds1` decides about one command -/

/-- The text after the modifiers of command `c_cmd` of `np` (`q`). -/
def cmdText (env : Env W) (np : Nat) (c_cmd : String) (s : State W) : String :=
  (cmdFlags env (s.names np).n_flag (env.expand_macros s.macros c_cmd)).1

/-- Whether the command is echoed (`!ssilent`). -/
def cmdEchoed (env : Env W) (np : Nat) (c_cmd : String) (s : State W) : Bool :=
  (cmdFlags env (s.names np).n_flag (env.expand_macros s.macros c_cmd)).2.1 = 0

/-- Whether a failure of the command is ignored (`signore`). -/
def cmdIgnored (env : Env W) (np : Nat) (c_cmd : String) (s : State W) : Bool :=
  (cmdFlags env (s.names np).n_flag (env.expand_macros s.macros c_cmd)).2.2.1 ≠ 0

/-- Whether the command is handed to the shell (`sdomake`). -/
def cmdExecuted (env : Env W) (np : Nat) (c_cmd : String) (s : State W) : Bool :=
  (cmdFlags env (s.names np).n_flag (env.expand_macros s.macros c_cmd)).2.2.2 ≠ 0

/-- The characters that the loop of make.c:35-45 skips. -/
def isMod (c : Char) : Bool :=
  c = '@' || c = '-' || c = '+'

/-- The leading run of `@`, `-` and `+` of the expanded command. -/
def modRun (env : Env W) (c_cmd : String) (s : State W) : List Char :=
  (env.expand_macros s.macros c_cmd).data.takeWhile isMod

/-- The string handed to `system` (`cmd`). -/
def shellText (env : Env W) (np : Nat) (c_cmd : String) (s : State W) : String :=
  if cmdIgnored env np c_cmd s then cmdText env np c_cmd s
  else "set -e;" ++ cmdText env np c_cmd s

/-- What `system` returns for the command (`status`). -/
def shellStatus (env : Env W) (np : Nat) (c_cmd : String) (s : State W) : Int :=
  (env.system s.world (shellText env np c_cmd s)).1

/-- The state right after `system` returned and `target` was reset
(make.c:64). -/
def afterShell (env : Env W) (np : Nat) (c_cmd : String) (s : State W) : State W :=
  let s1 := if cmdEchoed env np c_cmd s then s.emit (.puts (cmdText env np c_cmd s)) else s
  { s1 with world := (env.system s.world (shellText env np c_cmd s)).2, target := none }.emit
    (.system np (shellText env np c_cmd s) (shellStatus env np c_cmd s))

/-- The state after a failure that is not ignored was reported
(make.c:68-70). -/
def afterFailure (env : Env W) (np : Nat) (c_cmd : String) (s : State W) : State W :=
  let s4 := (afterShell env np c_cmd s).emit (.warning (.failedToBuild np))
  if shellStatus env np c_cmd s = SIGINT ∨ shellStatus env np c_cmd s = SIGQUIT then
    remove_target env s4
  else s4

/-! ## What a piece of the run may do to the state -/

/-- The event is neither of the two markers `call` and `rebuild`. -/
def Event.plain : Event → Prop
  | .call _ _ => False
  | .rebuild _ _ _ => False
  | _ => True

/-- What `make(np, level)` and the calls below it may add to the log: calls
of `make` at `level` or deeper and, outside query mode, runs of `make1` from
a frame at `level` or deeper together with what `make1` prints and does. -/
def Event.allowed (quest : Bool) (level : Nat) : Event → Prop
  | .call _ l => level ≤ l
  | .rebuild _ _ l => quest = false ∧ level ≤ l
  | _ => quest = false

/-- State `s'` follows `s`: the log has grown by events that all satisfy `P`,
no name changed `N_DOUBLE`, no name lost `N_DONE` or `N_TARGET`. -/
def Follows (P : Event → Prop) (s s' : State W) : Prop :=
  (∃ d, s'.log = s.log ++ d ∧ ∀ e ∈ d, P e) ∧
  ∀ m, (s'.names m).n_flag.N_DOUBLE = (s.names m).n_flag.N_DOUBLE ∧
    ((s.names m).n_flag.N_DONE = true → (s'.names m).n_flag.N_DONE = true) ∧
    ((s.names m).n_flag.N_TARGET = true → (s'.names m).n_flag.N_TARGET = true)

/-- The state the run ended in, if it returned or stopped, satisfies `Q`. -/
def Res.Ends {α : Type} (r : Res W α) (Q : State W → Prop) : Prop :=
  match r with
  | .ok _ s => Q s
  | .stop _ s => Q s
  | .timeout => True

/-! ## Stages of one call of `make` -/

/-- The state in which `make(np, level)` reaches line 169: the call is
logged and, when `n_time` was 0, the file has been probed. -/
def probed (env : Env W) (np level : Nat) (s : State W) : State W :=
  let s0 := s.emit (.call np level)
  if (s0.names np).n_time = 0 then modtime env np s0 else s0

/-- The state in which `make(np, level)`, for a target without `::`, reaches
line 180: implicit-rule resolution has been tried if no rule has commands. -/
def tried (env : Env W) (np level : Nat) (s : State W) : State W :=
  let s1 := probed env np level s
  (if !(s1.names np).n_rule.any (fun rp => !rp.r_cmd.isEmpty) then dyndep env np none s1
    else (none, s1)).2

/-- The call `make(np, level)` up to line 235: the locals and the state the
final decision starts from. -/
def makeWalk (env : Env W) (mk : Nat → Nat → State W → Res W Nat) (np level : Nat)
    (s : State W) : Res W Locals :=
  (resolve env np (probed env np level s)).bind (fun impdep s2 =>
    makeRules env mk np level 0 (s2.names np).n_rule { impdep := impdep } s2)

/-- The names of `C` lie on a cycle of first prerequisites: each is a target
without `::` that is not done, and the first prerequisite of its first rule
is `next` of it, again in `C`. -/
def OnCycle (C : Nat → Prop) (next : Nat → Nat) (s : State W) : Prop :=
  ∀ n, C n →
    (s.names n).n_flag.N_DOUBLE = false ∧ (s.names n).n_flag.N_TARGET = true ∧
    (s.names n).n_flag.N_DONE = false ∧ C (next n) ∧
    ∃ ds cmds rps, (s.names n).n_rule = ⟨next n :: ds, cmds⟩ :: rps

/-! ## What a frame sees of its prerequisites -/

/-- What the loop of make.c:205-214 sees of the prerequisites `ds`, one
after the other: the value `make` returned and the `n_time` of the
prerequisite right after that call. The list ends where a call does not
return. -/
def observe (mk : Nat → Nat → State W → Res W Nat) (level : Nat) :
    List Nat → State W → List (Nat × Int)
  | [], _ => []
  | d :: ds, s =>
    match mk d (level + 1) s with
    | .ok r s1 => (r, (s1.names d).n_time) :: observe mk level ds s1
    | _ => []

/-- The prerequisites of all rules of `np`, in the order of the rules. -/
def prereqs (s : State W) (np : Nat) : List Nat :=
  (s.names np).n_rule.flatMap (fun rp => rp.r_dep)

/-- The state in which `make(np, level)` starts to walk the rules of `np`
(line 189), if it gets there. -/
def entry (env : Env W) (np level : Nat) (s : State W) : State W :=
  match resolve env np (probed env np level s) with
  | .ok _ s2 => s2
  | _ => probed env np level s

/-- The event says that the frame `make(np, level)` handed `np` to
`make1`. -/
def Event.isRebuild (np level : Nat) : Event → Bool
  | .rebuild m _ k => m = np && k = level
  | _ => false

/-- How often the log says that the frame `make(np, level)` ran commands of
`np`. -/
def runs (np level : Nat) (log : List Event) : Nat :=
  log.countP (Event.isRebuild np level)

/-! ## Acyclic graphs and the runs of `make1` -/

/-- The name and the rule a `rebuild` marker stands for. -/
def Event.ran : Event → Option (Nat × Option Nat)
  | .rebuild np rp _ => some (np, rp)
  | _ => none

/-- The runs of `make1` a log records, in order: the name, and the number of
the rule for a `::` target (`none` for all rules of a target without
`::`). -/
def ranOf (log : List Event) : List (Nat × Option Nat) :=
  log.filterMap Event.ran

/-- The graph is acyclic: `rank` falls from every name to each of its
prerequisites. -/
def Ranked (rank : Nat → Nat) (s : State W) : Prop :=
  ∀ n, ∀ rp ∈ (s.names n).n_rule, ∀ d ∈ rp.r_dep, rank d < rank n

/-- The implicit prerequisites found by the search of `dyndep` keep the graph
acyclic. -/
def RankedSearch (rank : Nat → Nat) (env : Env W) : Prop :=
  ∀ w names n i pp cmds, env.implicit w names n i = some (pp, cmds) → rank pp < rank n

/-- Every name whose commands the log says were run is done, and no run is
recorded twice. -/
def Tidy (s : State W) : Prop :=
  (ranOf s.log).Nodup ∧ ∀ x ∈ ranOf s.log, (s.names x.1).n_flag.N_DONE = true

/-- What a call of `make` on `np` did between `s` and `s'`: the graph is
still acyclic, and the runs of `make1` it added are all different, of names
not above `np` that were not done in `s`. -/
def Made (rank : Nat → Nat) (np : Nat) (s s' : State W) : Prop :=
  Ranked rank s' ∧ ∃ d, s'.log = s.log ++ d ∧ (ranOf d).Nodup ∧
    ∀ x ∈ ranOf d, rank x.1 ≤ rank np ∧ (s.names x.1).n_flag.N_DONE = false

/-- A call of `make` on `np` that returned: as `Made`, and every name it ran
commands of is done. -/
def MadeOk (rank : Nat → Nat) (np : Nat) (s s' : State W) : Prop :=
  Ranked rank s' ∧ ∃ d, s'.log = s.log ++ d ∧ (ranOf d).Nodup ∧
    ∀ x ∈ ranOf d, rank x.1 ≤ rank np ∧ (s.names x.1).n_flag.N_DONE = false ∧
      (s'.names x.1).n_flag.N_DONE = true

/-- Where the frame of `np`, entered in `s`, stands in `s'` when the rules
before number `i` have been visited: the runs of `make1` so far are all
different; they are runs of rules of `np` before `i`, or of names below `np`
that were not done in `s` and are done now. -/
def Walked (rank : Nat → Nat) (np i : Nat) (s s' : State W) : Prop :=
  Ranked rank s' ∧
  (∀ m, (s.names m).n_flag.N_DONE = true → (s'.names m).n_flag.N_DONE = true) ∧
  ∃ d, s'.log = s.log ++ d ∧ (ranOf d).Nodup ∧
    ∀ x ∈ ranOf d, (x.1 = np ∧ ∃ j, j < i ∧ x.2 = some j) ∨
      (rank x.1 < rank np ∧ (s.names x.1).n_flag.N_DONE = false ∧
        (s'.names x.1).n_flag.N_DONE = true)

/-- A result meets `Qok` if the run returned and `Qstop` if it stopped. -/
def Res.Holds {α : Type} (r : Res W α) (Qok Qstop : State W → Prop) : Prop :=
  match r with
  | .ok _ s => Qok s
  | .stop _ s => Qstop s
  | .timeout => True

/-! ## What the log tells about the commands -/

/-- The target and the text of a command handed to the shell. -/
def Event.shell : Event → Option (Nat × String)
  | .system np cmd _ => some (np, cmd)
  | _ => none

/-- The commands handed to the shell, in the order of the log. -/
def submitted (log : List Event) : List (Nat × String) :=
  log.filterMap Event.shell

/-- The text of an echoed command. -/
def Event.echo : Event → Option String
  | .puts q => some q
  | _ => none

/-- The commands echoed, in the order of the log. -/
def echoed (log : List Event) : List String :=
  log.filterMap Event.echo

/-- Whether the event is a call of `unlink` or the warning that a target was
removed. -/
def Event.removal : Event → Bool
  | .unlink _ _ => true
  | .warning (.removed _) => true
  | _ => false

/-! ## What the loop over the prerequisites sees for `$?` -/

/-- What line 208 of `make` reads of the prerequisites `ds`, one after the
other: the name of the prerequisite, the `n_time` of `np` and the `n_time` of
the prerequisite, all right after the call of `make` for it returned. The
list ends where a call does not return. -/
def observeNewer (mk : Nat → Nat → State W → Res W Nat) (np level : Nat) :
    List Nat → State W → List (String × Int × Int)
  | [], _ => []
  | d :: ds, s =>
    match mk d (level + 1) s with
    | .ok _ s1 =>
      ((s1.names d).n_name, (s1.names np).n_time, (s1.names d).n_time) ::
        observeNewer mk np level ds s1
    | _ => []

/-- The names of the prerequisites that were read as not older than the
target, in the order in which they were read. -/
def newerNames (obs : List (String × Int × Int)) : List String :=
  (obs.filter (fun o => o.2.1 ≤ o.2.2)).map (fun o => o.1)

/-- The words appended to `start`, one after the other, by `xappendword`. -/
def joinWords (start : Option String) (ws : List String) : Option String :=
  ws.foldl xappendword start

/-! ## What a frame leaves alone on an acyclic graph -/

/-- Between `s` and `s'` no entry of the table changed but that of `np` and
those of names below `np` in rank. -/
def Untouched (rank : Nat → Nat) (np : Nat) (s s' : State W) : Prop :=
  ∀ m, m ≠ np → rank np ≤ rank m → s'.names m = s.names m

/-- Where the frame of `np`, which started to walk its rules in `s`, stands
in `s'`: the graph is still acyclic, no entry changed but that of `np` and
those below it, and `n_time` of `np` is as it was. -/
def Steady (rank : Nat → Nat) (np : Nat) (s s' : State W) : Prop :=
  Ranked rank s' ∧ Untouched rank np s s' ∧ (s'.names np).n_time = (s.names np).n_time

/-- The locals of the frame of the `::` target `np` carry nothing over from
the rules visited so far: `newer` is NULL, and `dtime` is 1 or a time that
`n_time` of `np` is greater than. -/
def Settled (np : Nat) (l : Locals) (s : State W) : Prop :=
  l.newer = none ∧ 1 ≤ l.dtime ∧ (l.dtime = 1 ∨ l.dtime < (s.names np).n_time)

/-! ## The order of the calls and of the commands -/

/-- What the frame `make(np, level)` adds to the log after the mark of its
call: calls below it, its own runs of `make1`, runs of `make1` from frames
below it, and events that are neither. -/
def Event.inside (np level : Nat) : Event → Prop
  | .call _ l => level + 1 ≤ l
  | .rebuild m _ l => (m = np ∧ l = level) ∨ level + 1 ≤ l
  | _ => True

/-- The event is a step of the frame `make(np, level)` itself: the call of
`make` for a prerequisite, or a run of `make1` for `np`. -/
def Event.ofFrame (np level : Nat) : Event → Bool
  | .call _ l => l = level + 1
  | .rebuild m _ l => m = np && l = level
  | _ => false

/-- The steps of the frame `make(np, level)` in a piece of the log, in
order. -/
def frameView (np level : Nat) (log : List Event) : List Event :=
  log.filter (Event.ofFrame np level)

/-- The steps of a frame that visits the rules from number `i` on, where a
turn is the list of prerequisites it calls `make` for, and whether the rule
is run afterwards. -/
def walkShape (np level : Nat) : Nat → List (List Nat × Bool) → List Event
  | _, [] => []
  | i, t :: ts =>
    t.1.map (fun d => Event.call d (level + 1)) ++
      (if t.2 then [Event.rebuild np (some i) level] else []) ++ walkShape np level (i + 1) ts

/-- The turn `t` is a turn for the rule `rp`: the prerequisites are those of
the rule, unless the rule is one without commands of a `::` target (then
`dyndep` has rewritten the list), and for a target without `::` the rule is
not run in the turn. -/
def turnOf (dbl : Bool) (t : List Nat × Bool) (rp : Rule) : Prop :=
  ((dbl = false ∨ rp.r_cmd ≠ []) → t.1 = rp.r_dep) ∧ (dbl = false → t.2 = false)

/-- The commands of the list `cs` that are handed to the shell for `np`,
with the text that is handed over, when the macros and flags are those of
`s`. -/
def shellLines (env : Env W) (np : Nat) (cs : List String) (s : State W) :
    List (Nat × String) :=
  (cs.filter (fun c => cmdExecuted env np c s)).map (fun c => (np, shellText env np c s))

/-- Between `s` and `s'` exactly the commands `lines` were handed to the
shell, in this order, and the names and macros are as they were. -/
def Handed (lines : List (Nat × String)) (s s' : State W) : Prop :=
  s'.names = s.names ∧ s'.macros = s.macros ∧ ∃ d, s'.log = s.log ++ d ∧ submitted d = lines

/-- Between `s` and `s'` the first few of the commands `lines` were handed to
the shell, in this order, and no other. -/
def HandedSome (lines : List (Nat × String)) (s s' : State W) : Prop :=
  ∃ d, s'.log = s.log ++ d ∧ submitted d <+: lines

/-- The commands that `make1` runs for `np`: those of the rule `rp` of a `::`
target, those of all rules, rule by rule, when `rp` is NULL. -/
def cmdsOf (s : State W) (np : Nat) (rp : Option Rule) : List String :=
  match rp with
  | some rule => rule.r_cmd
  | none => (s.names np).n_rule.flatMap (fun r => r.r_cmd)

/-- The piece `d` of the log is a run of `make1` for `np` from the frame at
`level` that returned: the mark of the run, then events that are no marks,
among them the commands `lines` handed to the shell, in this order. -/
def RunLog (np level : Nat) (tag : Option Nat) (lines : List (Nat × String))
    (d : List Event) : Prop :=
  ∃ d', d = Event.rebuild np tag level :: d' ∧ (∀ e ∈ d', Event.plain e) ∧ submitted d' = lines

/-- As `RunLog`, for a run of `make1` that stopped: the first few of the
commands `lines` were handed to the shell, in this order, and no other. -/
def RunLogSome (np level : Nat) (tag : Option Nat) (lines : List (Nat × String))
    (d : List Event) : Prop :=
  ∃ d', d = Event.rebuild np tag level :: d' ∧ (∀ e ∈ d', Event.plain e) ∧
    submitted d' <+: lines

/-! ## What the final decision says -/

/-- The event is something that running the commands of a target adds to
the log: no mark of a call or of a run, and neither of the two messages of
the final decision ("is up to date", "not built due to errors"). -/
def Event.ofCommand : Event → Prop
  | .call _ _ => False
  | .rebuild _ _ _ => False
  | .printf (.upToDate _) => False
  | .warning (.notBuilt _) => False
  | _ => True

/-! ## The depth of the recursion -/

/-- If the event is the mark of a call of `make`, its level is below
`bound`. -/
def Event.shallow (bound : Nat) : Event → Prop
  | .call _ l => l < bound
  | _ => True

/-! ## The command line -/

/-- The arguments are as `main` gets them: `args.c` is not negative, the
slots below `args.c` hold strings, and the slot at `args.c` is there (the
closing NULL of `argv`). -/
def Args.Argv (a : Args) : Prop :=
  0 ≤ a.c ∧ a.c.toNat < a.v.length ∧
    ∀ i : Nat, (i : Int) < a.c → ∃ str, a.v[i]? = some (some str)

/-- The arguments themselves: the first `args.c` slots. -/
def Args.list (a : Args) : List (Option String) :=
  a.v.take a.c.toNat

/-- The option stands at index `i`, after the program name and with no `--`
up to `i`. -/
def FoundAt (a : Args) (option : String) (i : Nat) : Prop :=
  1 ≤ i ∧ (i : Int) < a.c ∧ a.v[i]? = some (some option) ∧
    ∀ j, 1 ≤ j → j ≤ i → a.v[j]? ≠ some (some "--")

/-- The character for the digit `d`: `0`-`9`, then letters, capitals if
`upper`. -/
def digitChar (upper : Bool) (d : Nat) : Char :=
  if d < 10 then Char.ofNat ('0'.toNat + d)
  else if upper then Char.ofNat ('A'.toNat + (d - 10))
  else Char.ofNat ('a'.toNat + (d - 10))

/-- The digits of `n` in the given base, the most significant first; `0`
for zero. -/
def numeral (upper : Bool) (base n : Nat) : List Char :=
  if n = 0 then ['0'] else (Nat.digits base n).reverse.map (digitChar upper)

/-- The decimal rendering of an integer, with `-` in front of a negative
one. -/
def decimal (v : Int) : String :=
  String.mk (if v < 0 then '-' :: numeral false 10 v.natAbs else numeral false 10 v.natAbs)

/-- The hexadecimal rendering of a natural number: `0x` or `0X`, then its
hexadecimal digits in small or in capital letters. -/
def hexText (bigX upper : Bool) (n : Nat) : String :=
  String.mk ('0' :: (if bigX then 'X' else 'x') :: numeral upper 16 n)

/-! ## A small world to run the model in -/

/-- A world for the examples: a clock and the modification times of the
files. -/
structure Files where
  clock : Int
  files : String → Int

/-- The shell of the examples: `false` fails with status 1, every other
command succeeds; each command takes one tick of the clock. -/
def sh (w : Files) (cmd : String) : Int × Files :=
  (if cmd = "set -e;false" ∨ cmd = "false" then 1 else 0, { w with clock := w.clock + 1 })

/-- The environment of the examples: no flag set, no implicit rule, no
`.DEFAULT`, macros left as they are. -/
def plainEnv : Env Files where
  dryrun := false
  print := false
  precious := false
  silent := false
  ignore := false
  errcont := false
  quest := false
  dotouch := false
  mtime := fun w n => w.files n
  system := sh
  time := fun w => (w.clock, w)
  unlink := fun w _ => (0, w)
  utimensat := fun w _ => (0, false, w)
  openCreat := fun w _ => (3, w)
  expand_macros := fun _ c => c
  splitlib := fun n => (n, none)
  stem := fun n => n
  findname := fun _ => none
  implicit := fun _ _ _ _ => none

/-- The examples under keep-going (`-k`). -/
def keepGoing : Env Files := { plainEnv with errcont := true }

/-- The examples in query mode (`-q`). -/
def queryEnv : Env Files := { plainEnv with quest := true }

/-- A state with the given name table, no file on disk, the clock at 100. -/
def freshState (names : Nat → Name) : State Files :=
  { names := names, macros := fun _ => none, target := none,
    world := ⟨100, fun _ => 0⟩, log := [] }

/-- One target `t` whose rule has the commands `false` and `echo more`. -/
def twoCmds : Nat → Name
  | 0 => { n_name := "t", n_rule := [⟨[], ["false", "echo more"]⟩],
           n_flag := { N_TARGET := true } }
  | _ => { n_name := "" }

/-- A target `t` with the prerequisite `p`; both have commands. -/
def pair : Nat → Name
  | 0 => { n_name := "t", n_rule := [⟨[1], ["echo t"]⟩], n_flag := { N_TARGET := true } }
  | 1 => { n_name := "p", n_rule := [⟨[], ["echo p"]⟩], n_flag := { N_TARGET := true } }
  | _ => { n_name := "" }

/-- A name that no rule mentions as a target. -/
def ghost : Nat → Name
  | _ => { n_name := "ghost" }

/-- The makefile `a: a` with a command. -/
def selfLoop : Nat → Name
  | 0 => { n_name := "a", n_rule := [⟨[0], ["echo a"]⟩], n_flag := { N_TARGET := true } }
  | _ => { n_name := "" }

/-- The makefile `a: b` and `b: a`. -/
def twoCycle : Nat → Name
  | 0 => { n_name := "a", n_rule := [⟨[1], ["echo a"]⟩], n_flag := { N_TARGET := true } }
  | 1 => { n_name := "b", n_rule := [⟨[0], []⟩], n_flag := { N_TARGET := true } }
  | _ => { n_name := "" }

/-- The files `t` and `p` of the makefile `t: p` both exist and were both
modified at time 5. -/
def tieState : State Files :=
  { freshState pair with world := ⟨100, fun _ => 5⟩ }

/-- The makefile `T: p1 p2` where the command of `p1` fails. -/
def failFirst : Nat → Name
  | 0 => { n_name := "T", n_rule := [⟨[1, 2], ["echo T"]⟩], n_flag := { N_TARGET := true } }
  | 1 => { n_name := "p1", n_rule := [⟨[], ["false"]⟩], n_flag := { N_TARGET := true } }
  | 2 => { n_name := "p2", n_rule := [⟨[], ["echo p2"]⟩], n_flag := { N_TARGET := true } }
  | _ => { n_name := "" }

/-- The makefile `all: U T`, `U: P`, `T: P` where the command of `P`
fails. -/
def shared : Nat → Name
  | 0 => { n_name := "all", n_rule := [⟨[1, 2], []⟩], n_flag := { N_TARGET := true } }
  | 1 => { n_name := "U", n_rule := [⟨[3], ["echo U"]⟩], n_flag := { N_TARGET := true } }
  | 2 => { n_name := "T", n_rule := [⟨[3], ["echo T"]⟩], n_flag := { N_TARGET := true } }
  | 3 => { n_name := "P", n_rule := [⟨[], ["false"]⟩], n_flag := { N_TARGET := true } }
  | _ => { n_name := "" }

/-- The state of the run on `shared` under keep-going when `U` has been
made for `all`: the command of `P` has failed, `U` was not built. -/
def afterU : State Files :=
  (make keepGoing 2 1 1 ((freshState shared).emit (.call 0 0))).stateD (freshState shared)

/-- A rank for the names of `shared`: `all` above `U` and `T`, these above
`P`. -/
def sharedRank : Nat → Nat
  | 0 => 2
  | 1 => 1
  | 2 => 1
  | _ => 0

/-- A shell in which every command is interrupted: `system` returns
`SIGINT`. -/
def interrupted : Env Files :=
  { plainEnv with system := fun w _ => (SIGINT, { w with clock := w.clock + 1 }) }

/-- The examples under dry-run (`-n`). -/
def dryEnv : Env Files := { plainEnv with dryrun := true }

/-- One target `t` whose rule has the single command `@echo hi`. -/
def quiet : Nat → Name
  | 0 => { n_name := "t", n_rule := [⟨[], ["@echo hi"]⟩], n_flag := { N_TARGET := true } }
  | _ => { n_name := "" }

/-- The examples with a `.DEFAULT` rule (name 2) and commands in which `$<`
is expanded. -/
def defaultEnv : Env Files :=
  { plainEnv with
    findname := fun n => if n = ".DEFAULT" then some 2 else none
    expand_macros := fun m c => if c = "echo $<" then "echo " ++ (m "<").getD "" else c }

/-- A target `t` with the explicit command `echo $<` and the prerequisite
`p`, for which there is no rule but `.DEFAULT`. -/
def stale : Nat → Name
  | 0 => { n_name := "t", n_rule := [⟨[1], ["echo $<"]⟩], n_flag := { N_TARGET := true } }
  | 1 => { n_name := "p" }
  | 2 => { n_name := ".DEFAULT", n_rule := [⟨[], ["echo default"]⟩],
           n_flag := { N_TARGET := true } }
  | _ => { n_name := "" }

/-- The examples with a clock that never reads less than 100. -/
def clockEnv : Env Files :=
  { plainEnv with time := fun w => (max 100 w.clock, w) }

/-- A `::` target `n` with one rule `n:: p` and the command `echo n`; `p`
has no rule. -/
def twice : Nat → Name
  | 0 => { n_name := "n", n_rule := [⟨[1], ["echo n"]⟩],
           n_flag := { N_TARGET := true, N_DOUBLE := true } }
  | 1 => { n_name := "p" }
  | _ => { n_name := "" }

/-- The file `n` is from time 10, the file `p` from time 50, and the clock
is at 100. -/
def oldTwice : State Files :=
  { freshState twice with
    world := ⟨100, fun f => if f = "n" then 10 else if f = "p" then 50 else 0⟩ }

/-- A `::` target `n` of time 10 with the rules `n:: a` and `n:: b`, where
`a` is of time 5 and `b` of time 50; each rule has one command. -/
def twoRules : Nat → Name
  | 0 => { n_name := "n", n_rule := [⟨[1], ["echo one"]⟩, ⟨[2], ["echo two"]⟩], n_time := 10,
           n_flag := { N_TARGET := true, N_DOUBLE := true } }
  | 1 => { n_name := "a", n_time := 5 }
  | 2 => { n_name := "b", n_time := 50 }
  | _ => { n_name := "" }

/-- A rank for the names of `twoRules` and `twice`: the target above its
prerequisites. -/
def targetRank : Nat → Nat
  | 0 => 1
  | _ => 0

/-- The arguments `foo --verbose x`, with the closing NULL of `argv`. -/
def argvVerbose : Args :=
  { c := 3, v := [some "foo", some "--verbose", some "x", none] }

/-- The arguments `foo --n text`, with the closing NULL of `argv`. -/
def argvNumber (text : String) : Args :=
  { c := 3, v := [some "foo", some "--n", some text, none] }

/-! ## The command loop: `docmds1` and `docmds` -/

@[simp] theorem Res.bind_ok {α β : Type} (a : α) (s : State W) (f : α → State W → Res W β) :
    (Res.ok a s).bind f = f a s := rfl

@[simp] theorem Res.bind_stop {α β : Type} (e : Stop) (s : State W)
    (f : α → State W → Res W β) : (Res.stop e s : Res W α).bind f = .stop e s := rfl

@[simp] theorem Res.bind_timeout {α β : Type} (f : α → State W → Res W β) :
    (Res.timeout : Res W α).bind f = .timeout := rfl

/-- One turn of the loop of `docmds1`, case by case. -/
theorem docmd_eq (env : Env W) (np : Nat) (c : String) (estat : Nat) (s : State W) :
    docmd env np c estat s =
      if cmdExecuted env np c s then
        if shellStatus env np c s = -1 then
          .stop (.error (.couldntExecute (cmdText env np c s))) (afterShell env np c s)
        else if shellStatus env np c s ≠ 0 ∧ cmdIgnored env np c s = false then
          if env.errcont then .ok 1 (afterFailure env np c s)
          else .stop (.exit (shellStatus env np c s)) (afterFailure env np c s)
        else .ok estat (afterShell env np c s)
      else .ok estat
        (if cmdEchoed env np c s then s.emit (.puts (cmdText env np c s)) else s) := by
  rcases hfl : cmdFlags env (s.names np).n_flag (env.expand_macros s.macros c) with
    ⟨q, ssilent, signore, sdomake⟩
  simp only [docmd, cmdExecuted, shellStatus, afterShell, afterFailure, shellText, cmdIgnored,
    cmdEchoed, cmdText, hfl]
  by_cases h1 : sdomake = 0 <;> by_cases h2 : signore = 0 <;> by_cases h3 : ssilent = 0 <;>
    simp [h1, h2, h3, State.emit]

/-- The loop over the modifiers: what is left of the command, and which of
the three modifiers were met. -/
theorem scanMods_eq (cs : List Char) (ssilent signore sdomake : Nat) :
    scanMods cs ssilent signore sdomake =
      (cs.dropWhile isMod,
        if '@' ∈ cs.takeWhile isMod then 2 else ssilent,
        if '-' ∈ cs.takeWhile isMod then 1 else signore,
        if '+' ∈ cs.takeWhile isMod then 2 else sdomake) := by
  induction cs generalizing ssilent signore sdomake with
  | nil => rfl
  | cons c cs ih =>
    unfold scanMods
    by_cases h1 : c = '@'
    · subst h1
      rw [if_pos rfl, ih]
      simp [isMod, List.takeWhile, List.dropWhile]
    · rw [if_neg h1]
      by_cases h2 : c = '-'
      · subst h2
        rw [if_pos rfl, ih]
        simp [isMod, List.takeWhile, List.dropWhile]
      · rw [if_neg h2]
        by_cases h3 : c = '+'
        · subst h3
          rw [if_pos rfl, ih]
          simp [isMod, List.takeWhile, List.dropWhile]
        · rw [if_neg h3]
          simp [isMod, List.takeWhile, List.dropWhile, h1, h2, h3]

/-- A failure of a command is ignored exactly when `-i` is given, the target
carries `N_IGNORE`, or a `-` is among the leading modifiers. -/
theorem cmdIgnored_iff (env : Env W) (np : Nat) (c : String) (s : State W) :
    cmdIgnored env np c s = true ↔
      (env.ignore = true ∨ (s.names np).n_flag.N_IGNORE = true ∨ '-' ∈ modRun env c s) := by
  unfold cmdIgnored cmdFlags modRun
  simp only [scanMods_eq]
  by_cases h : '-' ∈ (env.expand_macros s.macros c).data.takeWhile isMod
  · simp [h]
  · cases h1 : env.ignore <;> cases h2 : (s.names np).n_flag.N_IGNORE <;> simp [h, b2n]

/-- Once the status of `docmds1` is 1 it stays 1. -/
theorem docmdsFrom_sticky (env : Env W) (np : Nat) (cs : List String) (s : State W)
    (e : Nat) (s' : State W) (h : docmdsFrom env np cs 1 s = .ok e s') : e = 1 := by
  induction cs generalizing s with
  | nil => simp only [docmdsFrom, Res.ok.injEq] at h; exact h.1.symm
  | cons c cs ih =>
    simp only [docmdsFrom, docmd_eq] at h
    split_ifs at h <;> first | exact ih _ h | simp at h

/-- C9: one command of a rule ends the whole run exactly when it was handed
to the shell and `system` returned -1, or returned a non-zero status that is
not ignored while keep-going is off. With -1 the run ends by the fatal error
"couldn't execute", ignored or not; with the other status it ends by
`exit(status)`; in both cases the state is the one right after that command,
whatever commands follow in the rule. A status other than -1 that is ignored
leaves `estat` as it was and the loop goes on with the next command. A
status is ignored when the command has a `-` among its leading modifiers,
when `-i` is given or when the target carries `N_IGNORE`. -/
theorem docmds1_stops_iff (env : Env W) (np : Nat) (c : String) (cs : List String)
    (estat : Nat) (s : State W) :
    ((∃ e s', docmd env np c estat s = .stop e s') ↔
      (cmdExecuted env np c s = true ∧
        (shellStatus env np c s = -1 ∨
          (shellStatus env np c s ≠ 0 ∧ cmdIgnored env np c s = false ∧
            env.errcont = false)))) ∧
    (cmdExecuted env np c s = true → shellStatus env np c s = -1 →
      docmdsFrom env np (c :: cs) estat s =
        .stop (.error (.couldntExecute (cmdText env np c s))) (afterShell env np c s)) ∧
    (cmdExecuted env np c s = true → shellStatus env np c s ≠ -1 →
      shellStatus env np c s ≠ 0 → cmdIgnored env np c s = false → env.errcont = false →
      docmdsFrom env np (c :: cs) estat s =
        .stop (.exit (shellStatus env np c s)) (afterFailure env np c s)) ∧
    (cmdExecuted env np c s = true → shellStatus env np c s ≠ -1 →
      cmdIgnored env np c s = true →
      docmd env np c estat s = .ok estat (afterShell env np c s) ∧
      docmdsFrom env np (c :: cs) estat s =
        docmdsFrom env np cs estat (afterShell env np c s)) ∧
    (cmdIgnored env np c s = true ↔
      (env.ignore = true ∨ (s.names np).n_flag.N_IGNORE = true ∨ '-' ∈ modRun env c s)) := by
  refine ⟨?_, ?_, ?_, ?_, cmdIgnored_iff env np c s⟩
  · rw [docmd_eq]
    constructor
    · rintro ⟨e, s', h⟩
      split_ifs at h with h1 h2 h3 h4 <;> simp_all
    · rintro ⟨h1, h2⟩
      rcases h2 with h2 | ⟨h2, h3, h4⟩
      · exact ⟨_, _, by rw [if_pos h1, if_pos h2]⟩
      · by_cases h5 : shellStatus env np c s = -1
        · exact ⟨_, _, by rw [if_pos h1, if_pos h5]⟩
        · exact ⟨_, _, by rw [if_pos h1, if_neg h5, if_pos ⟨h2, h3⟩, h4]; rfl⟩
  · intro h1 h2
    simp [docmdsFrom, docmd_eq, h1, h2]
  · intro h1 h2 h3 h4 h5
    simp [docmdsFrom, docmd_eq, h1, h2, h3, h4, h5]
  · intro h1 h2 h3
    simp [docmdsFrom, docmd_eq, h1, h2, h3]

/-- C10, as stated, fails: under keep-going the rule `false; echo more` has
its second command handed to the shell after the first one failed. -/
theorem docmds1_runs_on_after_failure :
    (docmds1 keepGoing 0 ⟨[], ["false", "echo more"]⟩ (freshState twoCmds)).final.map
        (fun s => s.log) =
      some [.puts "false", .system 0 "set -e;false" 1, .warning (.failedToBuild 0),
            .puts "echo more", .system 0 "set -e;echo more" 0] := by
  decide

/-- C10, amended: under keep-going, when a command that is not ignored
returns a non-zero status other than -1, `docmds1` records the failure, goes
on with the commands that follow in the same rule, returns 1 if it returns,
and `docmds` goes on with the rules that follow. -/
theorem docmds1_keep_going (env : Env W) (np : Nat) (dp : List Nat) (c : String)
    (cs : List String) (rps : List Rule) (estat e0 : Nat) (s : State W)
    (hk : env.errcont = true) (hx : cmdExecuted env np c s = true)
    (hs : shellStatus env np c s ≠ 0) (hm : shellStatus env np c s ≠ -1)
    (hi : cmdIgnored env np c s = false) :
    docmdsFrom env np (c :: cs) estat s =
        docmdsFrom env np cs 1 (afterFailure env np c s) ∧
    (∀ e s', docmds1 env np ⟨dp, c :: cs⟩ s = .ok e s' → e = 1) ∧
    docmdsRules env np (⟨dp, c :: cs⟩ :: rps) e0 s =
      (docmdsFrom env np cs 1 (afterFailure env np c s)).bind
        (fun e s1 => docmdsRules env np rps (e0 ||| e) s1) := by
  have h1 : ∀ est, docmdsFrom env np (c :: cs) est s =
      docmdsFrom env np cs 1 (afterFailure env np c s) := by
    intro est
    simp [docmdsFrom, docmd_eq, hk, hx, hs, hm, hi]
  refine ⟨h1 estat, ?_, ?_⟩
  · intro e s' h
    rw [docmds1, h1] at h
    exact docmdsFrom_sticky env np cs _ e s' h
  · simp only [docmdsRules, docmds1, h1]

/-- C10, amended, at the rule `false; echo more` under keep-going. -/
theorem docmds1_keep_going_witness :
    docmdsFrom keepGoing 0 ("false" :: ["echo more"]) 0 (freshState twoCmds) =
        docmdsFrom keepGoing 0 ["echo more"] 1
          (afterFailure keepGoing 0 "false" (freshState twoCmds)) ∧
    (∀ e s', docmds1 keepGoing 0 ⟨[], "false" :: ["echo more"]⟩ (freshState twoCmds) =
        .ok e s' → e = 1) ∧
    docmdsRules keepGoing 0 (⟨[], "false" :: ["echo more"]⟩ :: []) 0 (freshState twoCmds) =
      (docmdsFrom keepGoing 0 ["echo more"] 1
          (afterFailure keepGoing 0 "false" (freshState twoCmds))).bind
        (fun e s1 => docmdsRules keepGoing 0 [] (0 ||| e) s1) :=
  docmds1_keep_going keepGoing 0 [] "false" ["echo more"] [] 0 0 (freshState twoCmds)
    rfl (by decide) (by decide) (by decide) (by decide)

/-! ## Frame lemmas: the log only grows, flags are kept -/

theorem Follows.refl (P : Event → Prop) (s : State W) : Follows P s s :=
  ⟨⟨[], by simp, by simp⟩, fun _ => ⟨rfl, id, id⟩⟩

theorem Follows.trans {P : Event → Prop} {a b c : State W} (h1 : Follows P a b)
    (h2 : Follows P b c) : Follows P a c := by
  obtain ⟨⟨d1, hd1, hp1⟩, hn1⟩ := h1
  obtain ⟨⟨d2, hd2, hp2⟩, hn2⟩ := h2
  refine ⟨⟨d1 ++ d2, by rw [hd2, hd1, List.append_assoc], ?_⟩, fun m => ?_⟩
  · intro e he
    rcases List.mem_append.1 he with h | h
    · exact hp1 e h
    · exact hp2 e h
  · obtain ⟨x1, x2, x3⟩ := hn1 m
    obtain ⟨y1, y2, y3⟩ := hn2 m
    exact ⟨y1.trans x1, fun h => y2 (x2 h), fun h => y3 (x3 h)⟩

theorem Follows.mono {P Q : Event → Prop} (h : ∀ e, P e → Q e) {a b : State W}
    (hf : Follows P a b) : Follows Q a b := by
  obtain ⟨⟨d, hd, hp⟩, hn⟩ := hf
  exact ⟨⟨d, hd, fun e he => h e (hp e he)⟩, hn⟩

theorem Follows.of_eq {P : Event → Prop} {s s' : State W} (hn : s'.names = s.names)
    (hl : s'.log = s.log) : Follows P s s' :=
  ⟨⟨[], by simp [hl], by simp⟩, fun m => by rw [hn]; exact ⟨rfl, id, id⟩⟩

theorem Follows.emit {P : Event → Prop} (s : State W) (e : Event) (h : P e) :
    Follows P s (s.emit e) :=
  ⟨⟨[e], rfl, by simpa using h⟩, fun _ => ⟨rfl, id, id⟩⟩

theorem Follows.then_emit {P : Event → Prop} {s s1 : State W} {e : Event}
    (h : Follows P s s1) (he : P e) : Follows P s (s1.emit e) :=
  h.trans (Follows.emit s1 e he)

theorem Follows.then_world {P : Event → Prop} {s s1 : State W} {w : W}
    (h : Follows P s s1) : Follows P s { s1 with world := w } :=
  h.trans (Follows.of_eq rfl rfl)

theorem Follows.modify {P : Event → Prop} (s : State W) (np : Nat) (f : Name → Name)
    (h1 : (f (s.names np)).n_flag.N_DOUBLE = (s.names np).n_flag.N_DOUBLE)
    (h2 : (s.names np).n_flag.N_DONE = true → (f (s.names np)).n_flag.N_DONE = true)
    (h3 : (s.names np).n_flag.N_TARGET = true → (f (s.names np)).n_flag.N_TARGET = true) :
    Follows P s (s.modify np f) := by
  refine ⟨⟨[], by simp [State.modify], by simp⟩, fun m => ?_⟩
  by_cases hm : m = np
  · subst hm
    simpa [State.modify] using ⟨h1, h2, h3⟩
  · simp [State.modify, Function.update_noteq hm]

theorem Follows.setTime {P : Event → Prop} (s : State W) (np : Nat) (t : Int) :
    Follows P s (s.setTime np t) :=
  Follows.modify s np _ rfl id id

theorem Follows.setDone {P : Event → Prop} (s : State W) (np : Nat) :
    Follows P s (s.setDone np) :=
  Follows.modify s np _ rfl (fun _ => rfl) id

theorem Follows.setRule {P : Event → Prop} (s : State W) (np i : Nat) (r : Rule) :
    Follows P s (s.setRule np i r) :=
  Follows.modify s np _ rfl id id

theorem Follows.addrule {P : Event → Prop} (s : State W) (np : Nat) (dp : List Nat)
    (cp : List String) : Follows P s (addrule np dp cp false s) :=
  Follows.modify s np _ (by simp) id (fun _ => rfl)

theorem Follows.modtime {P : Event → Prop} (env : Env W) (s : State W) (np : Nat) :
    Follows P s (modtime env np s) :=
  Follows.setTime s np _

theorem Follows.setmacro {P : Event → Prop} (s : State W) (name : String)
    (val : Option String) : Follows P s ( setmacro name val s) :=
  Follows.of_eq rfl rfl

theorem Follows.dyndep {P : Event → Prop} (env : Env W) (np : Nat) (infrule : Option Nat)
    (s : State W) : Follows P s (dyndep env np infrule s).2 := by
  unfold Pdpmake.dyndep
  rcases env.implicit s.world s.names np infrule with _ | ⟨pp, cmds⟩
  · exact Follows.refl P s
  · have h1 : Follows P s (if (s.names pp).n_time = 0 then Pdpmake.modtime env pp s else s) := by
      split_ifs
      · exact Follows.modtime env s pp
      · exact Follows.refl P s
    cases infrule with
    | none => exact h1.trans (Follows.addrule _ np [pp] cmds)
    | some i => exact h1.trans (Follows.setRule _ np i _)

theorem Res.Ends.bind {α β : Type} {r : Res W α} {f : α → State W → Res W β}
    {P : Event → Prop} {s : State W} (h : r.Ends (Follows P s))
    (hf : ∀ a s1, r = .ok a s1 → (f a s1).Ends (Follows P s1)) :
    (r.bind f).Ends (Follows P s) := by
  cases r with
  | ok a s1 =>
    have h2 := hf a s1 rfl
    simp only [Res.bind_ok]
    cases hr : f a s1 with
    | ok b s2 => rw [hr] at h2; exact Follows.trans h h2
    | stop e s2 => rw [hr] at h2; exact Follows.trans h h2
    | timeout => trivial
  | stop e s1 => exact h
  | timeout => trivial

theorem Res.Ends.weaken {α : Type} {r : Res W α} {Q Q' : State W → Prop}
    (h : r.Ends Q) (hq : ∀ s, Q s → Q' s) : r.Ends Q' := by
  cases r with
  | ok a s1 => exact hq _ h
  | stop e s1 => exact hq _ h
  | timeout => trivial

theorem Res.Ends.after {α : Type} {r : Res W α} {P : Event → Prop} {s s1 : State W}
    (h1 : Follows P s s1) (h : r.Ends (Follows P s1)) : r.Ends (Follows P s) :=
  h.weaken (fun _ h2 => h1.trans h2)

theorem Follows.remove_target (env : Env W) (s : State W) :
    Follows Event.plain s (remove_target env s) := by
  unfold Pdpmake.remove_target
  cases s.target with
  | none => simp only; split_ifs <;> exact Follows.refl _ s
  | some t =>
    simp only
    split_ifs <;>
      repeat' first
        | exact Follows.refl _ _
        | exact True.intro
        | apply Follows.then_emit

theorem Follows.afterShell (env : Env W) (np : Nat) (c : String) (s : State W) :
    Follows Event.plain s (afterShell env np c s) := by
  unfold Pdpmake.afterShell
  simp only
  split_ifs <;>
    repeat' first
      | exact Follows.refl _ _
      | exact True.intro
      | apply Follows.then_emit

theorem Follows.afterFailure (env : Env W) (np : Nat) (c : String) (s : State W) :
    Follows Event.plain s (afterFailure env np c s) := by
  unfold Pdpmake.afterFailure
  have h1 : Follows Event.plain s
      ((Pdpmake.afterShell env np c s).emit (.warning (.failedToBuild np))) :=
    (Follows.afterShell env np c s).then_emit True.intro
  simp only
  split_ifs
  · exact h1.trans (Follows.remove_target env _)
  · exact h1

theorem docmd_follows (env : Env W) (np : Nat) (c : String) (estat : Nat) (s : State W) :
    (docmd env np c estat s).Ends (Follows Event.plain s) := by
  rw [docmd_eq]
  split_ifs
  · exact Follows.afterShell env np c s
  · exact Follows.afterFailure env np c s
  · exact Follows.afterFailure env np c s
  · exact Follows.afterShell env np c s
  · exact Follows.emit _ _ True.intro
  · exact Follows.refl _ s

theorem docmdsFrom_follows (env : Env W) (np : Nat) (cs : List String) (estat : Nat)
    (s : State W) : (docmdsFrom env np cs estat s).Ends (Follows Event.plain s) := by
  induction cs generalizing estat s with
  | nil => exact Follows.refl _ s
  | cons c cs ih => exact (docmd_follows env np c estat s).bind (fun a s1 _ => ih a s1)

theorem docmdsRules_follows (env : Env W) (np : Nat) (rps : List Rule) (estat : Nat)
    (s : State W) : (docmdsRules env np rps estat s).Ends (Follows Event.plain s) := by
  induction rps generalizing estat s with
  | nil => exact Follows.refl _ s
  | cons rp rps ih =>
    exact (docmdsFrom_follows env np rp.r_cmd 0 s).bind (fun a s1 _ => ih _ s1)

theorem Follows.touch (env : Env W) (np : Nat) (s : State W) :
    Follows Event.plain s (touch env np s) := by
  unfold Pdpmake.touch
  simp only
  split_ifs <;>
    repeat' first
      | exact Follows.refl _ _
      | exact True.intro
      | apply Follows.then_emit

theorem autoMacros_names (env : Env W) (np : Nat) (newer : Option String)
    (implicit : Option Nat) (s : State W) :
    (autoMacros env np newer implicit s).names = s.names := by
  cases implicit <;> rfl

theorem autoMacros_log (env : Env W) (np : Nat) (newer : Option String)
    (implicit : Option Nat) (s : State W) :
    (autoMacros env np newer implicit s).log = s.log := by
  cases implicit <;> rfl

theorem autoMacros_world (env : Env W) (np : Nat) (newer : Option String)
    (implicit : Option Nat) (s : State W) :
    (autoMacros env np newer implicit s).world = s.world := by
  cases implicit <;> rfl

theorem make1_follows (env : Env W) (np : Nat) (rp : Option Rule) (newer : Option String)
    (implicit : Option Nat) (s : State W) :
    (make1 env np rp newer implicit s).Ends (Follows Event.plain s) := by
  unfold make1
  simp only
  refine Res.Ends.after (Follows.of_eq (autoMacros_names env np newer implicit s)
    (autoMacros_log env np newer implicit s)) (Res.Ends.bind ?_ ?_)
  · cases rp with
    | none => exact docmdsRules_follows env np _ 0 _
    | some rule => exact docmdsFrom_follows env np _ 0 _
  · intro a s1 _
    show Follows Event.plain s1 (if env.dotouch then touch env np s1 else s1)
    split_ifs
    · exact Follows.touch env np s1
    · exact Follows.refl _ s1

/-! ## Frame lemmas for `make` -/

theorem Event.allowed_of_plain {e : Event} (level : Nat) (h : e.plain) :
    Event.allowed false level e := by
  cases e <;> first | exact h.elim | exact rfl

theorem Event.allowed_succ {quest : Bool} {level : Nat} {e : Event}
    (h : Event.allowed quest (level + 1) e) : Event.allowed quest level e := by
  cases e with
  | call np l => exact Nat.le_of_succ_le h
  | rebuild np rp l => exact ⟨h.1, Nat.le_of_succ_le h.2⟩
  | _ => exact h

theorem resolve_follows (P : Event → Prop) (env : Env W) (np : Nat) (s : State W) :
    (resolve env np s).Ends (Follows P s) := by
  unfold resolve
  split_ifs with h1
  · simp only
    have h2 : Follows P s
        (if (!(s.names np).n_rule.any (fun rp => !rp.r_cmd.isEmpty)) = true
          then dyndep env np none s else (none, s)).2 := by
      split_ifs
      · exact Follows.dyndep env np none s
      · exact Follows.refl P s
    generalize (if (!(s.names np).n_rule.any (fun rp => !rp.r_cmd.isEmpty)) = true
          then dyndep env np none s else (none, s)) = x at h2
    obtain ⟨impdep, s1⟩ := x
    simp only
    split_ifs
    · cases env.findname ".DEFAULT" with
      | none => exact h2
      | some dflt =>
        simp only
        cases (s1.names dflt).n_rule with
        | nil => exact h2
        | cons r rs => exact h2.trans (Follows.addrule s1 np [] r.r_cmd)
    · exact h2
  · exact Follows.refl P s

theorem makeDeps_follows_any (P : Event → Prop) (env : Env W)
    (mk : Nat → Nat → State W → Res W Nat) (np level : Nat)
    (hmk : ∀ d s, (mk d (level + 1) s).Ends (Follows P s))
    (ds : List Nat) (l : Locals) (s : State W) :
    (makeDeps env mk np level ds l s).Ends (Follows P s) := by
  induction ds generalizing l s with
  | nil => exact Follows.refl _ s
  | cons d ds ih =>
    unfold makeDeps
    exact Res.Ends.bind (hmk d s) (fun a s1 _ => ih _ s1)

theorem makeDeps_follows (env : Env W) (mk : Nat → Nat → State W → Res W Nat)
    (np level : Nat)
    (hmk : ∀ d s, (mk d (level + 1) s).Ends (Follows (Event.allowed env.quest (level + 1)) s))
    (ds : List Nat) (l : Locals) (s : State W) :
    (makeDeps env mk np level ds l s).Ends (Follows (Event.allowed env.quest level) s) :=
  (makeDeps_follows_any _ env mk np level hmk ds l s).weaken
    (fun _ h => h.mono (fun _ => Event.allowed_succ))

theorem ruleHead_follows (P : Event → Prop) (env : Env W) (np i : Nat) (rp : Rule)
    (l : Locals) (s : State W) : (ruleHead env np i rp l s).Ends (Follows P s) := by
  unfold ruleHead
  by_cases hD : (s.names np).n_flag.N_DOUBLE = true
  · rw [if_pos hD]
    refine Res.Ends.bind ?_ (fun a s1 _ => ?_)
    · by_cases hc : rp.r_cmd.isEmpty = true
      · rw [if_pos hc]
        have h := Follows.dyndep (P := P) env np (some i) s
        rcases hd : dyndep env np (some i) s with ⟨_ | pp, s1⟩ <;> rw [hd] at h <;> exact h
      · rw [if_neg hc]
        exact Follows.refl P s
    · obtain ⟨rp1, l1⟩ := a
      exact Follows.refl P s1
  · rw [if_neg hD]
    exact Follows.refl P s

theorem ruleTail_follows (env : Env W) (np level i : Nat) (rp : Rule) (l : Locals)
    (s : State W) :
    (ruleTail env np level i rp l s).Ends (Follows (Event.allowed env.quest level) s) := by
  unfold ruleTail
  by_cases hD : (s.names np).n_flag.N_DOUBLE = true
  · rw [if_pos hD]
    refine Res.Ends.bind ?_ ?_
    · by_cases h2 : (!env.quest) = true ∧ (s.names np).n_time ≤ l.dtime
      · rw [if_pos h2]
        by_cases h3 : l.estat = false
        · rw [if_pos h3]
          have hq : env.quest = false := by simpa using h2.1
          refine Res.Ends.after (Follows.emit s (.rebuild np (some i) level) ?_)
            (Res.Ends.bind ?_ ?_)
          · exact ⟨hq, le_refl _⟩
          · refine (make1_follows env np (some rp) l.newer l.impdep _).weaken (fun _ h => ?_)
            exact h.mono (fun e he => hq ▸ Event.allowed_of_plain level he)
          · intro a s1 _
            exact Follows.refl _ s1
        · rw [if_neg h3]
          exact Follows.refl _ s
      · rw [if_neg h2]
        exact Follows.refl _ s
    · intro l1 s1 _
      cases l1.impdep with
      | none => exact Follows.refl _ s1
      | some ip =>
        simp only
        cases (s1.ruleAt np i).r_dep with
        | nil => exact Follows.refl _ s1
        | cons d dp => exact Follows.setRule s1 np i _
  · rw [if_neg hD]
    exact Follows.refl _ s

theorem makeRules_follows (env : Env W) (mk : Nat → Nat → State W → Res W Nat)
    (np level : Nat)
    (hmk : ∀ d s, (mk d (level + 1) s).Ends (Follows (Event.allowed env.quest (level + 1)) s))
    (i : Nat) (rps : List Rule) (l : Locals) (s : State W) :
    (makeRules env mk np level i rps l s).Ends (Follows (Event.allowed env.quest level) s) := by
  induction rps generalizing i l s with
  | nil => exact Follows.refl _ s
  | cons rp rps ih =>
    unfold makeRules
    refine Res.Ends.bind (ruleHead_follows _ env np i rp l s) (fun a s1 _ => ?_)
    obtain ⟨rp1, l1⟩ := a
    refine Res.Ends.bind (makeDeps_follows env mk np level hmk _ _ s1) (fun l2 s2 _ => ?_)
    exact Res.Ends.bind (ruleTail_follows env np level i _ l2 s2) (fun l3 s3 _ => ih _ _ s3)

theorem finish_follows (env : Env W) (np level : Nat) (l : Locals) (s : State W) :
    (finish env np level l s).Ends (Follows (Event.allowed env.quest level) s) := by
  unfold finish
  simp only
  have hd : Follows (Event.allowed env.quest level) s (s.setDone np) := Follows.setDone s np
  split_ifs with h1 h2 h3 h4 h5
  · exact (hd.then_world).trans (Follows.setTime _ np _)
  · exact hd
  · have hq : env.quest = false := by simpa using h1
    have hr : Event.allowed env.quest level (.rebuild np none level) := ⟨hq, le_refl _⟩
    refine Res.Ends.after (hd.then_emit hr) (Res.Ends.bind ?_ ?_)
    · refine (make1_follows env np none l.newer l.impdep _).weaken (fun _ h => ?_)
      exact h.mono (fun e he => hq ▸ Event.allowed_of_plain level he)
    · intro a s1 _
      exact (Follows.then_world (Follows.refl _ s1)).trans (Follows.setTime _ np _)
  · have hq : env.quest = false := by simpa using h1
    have hw : Event.allowed env.quest level (.warning (.notBuilt np)) := hq
    exact hd.then_emit hw
  · have hq : env.quest = false := by simpa using h1
    have hw : Event.allowed env.quest level (.printf (.upToDate np)) := hq
    exact hd.then_emit hw
  · exact hd

theorem makeBody_eq (env : Env W) (mk : Nat → Nat → State W → Res W Nat)
    (np level : Nat) (s : State W) (hd : (s.names np).n_flag.N_DONE = false) :
    makeBody env mk np level s = (makeWalk env mk np level s).bind (finish env np level) := by
  have h0 : ((s.emit (.call np level)).names np).n_flag.N_DONE = false := hd
  unfold makeBody makeWalk probed
  simp only [h0]
  cases resolve env np (if ((s.emit (Event.call np level)).names np).n_time = 0 then
      modtime env np (s.emit (Event.call np level)) else s.emit (Event.call np level)) with
  | ok a s2 => simp
  | stop e s2 => simp
  | timeout => simp

theorem makeBody_done (env : Env W) (mk : Nat → Nat → State W → Res W Nat)
    (np level : Nat) (s : State W) (hd : (s.names np).n_flag.N_DONE = true) :
    makeBody env mk np level s = .ok 0 (s.emit (.call np level)) := by
  have h0 : ((s.emit (.call np level)).names np).n_flag.N_DONE = true := hd
  unfold makeBody
  simp only [h0, if_true]

theorem Follows.probed (P : Event → Prop) (env : Env W) (np level : Nat) (s : State W) :
    Follows P (s.emit (.call np level)) (probed env np level s) := by
  unfold Pdpmake.probed
  simp only
  split_ifs
  · exact Follows.modtime env _ np
  · exact Follows.refl P _

theorem makeWalk_follows (env : Env W) (mk : Nat → Nat → State W → Res W Nat)
    (np level : Nat)
    (hmk : ∀ d s, (mk d (level + 1) s).Ends (Follows (Event.allowed env.quest (level + 1)) s))
    (s : State W) :
    (makeWalk env mk np level s).Ends
      (Follows (Event.allowed env.quest level) (s.emit (.call np level))) := by
  unfold makeWalk
  refine Res.Ends.after (Follows.probed _ env np level s) ?_
  exact Res.Ends.bind (resolve_follows _ env np _)
    (fun impdep s2 _ => makeRules_follows env mk np level hmk 0 _ _ s2)

theorem makeBody_follows_call (env : Env W) (mk : Nat → Nat → State W → Res W Nat)
    (np level : Nat)
    (hmk : ∀ d s, (mk d (level + 1) s).Ends (Follows (Event.allowed env.quest (level + 1)) s))
    (s : State W) :
    (makeBody env mk np level s).Ends
      (Follows (Event.allowed env.quest level) (s.emit (.call np level))) := by
  cases hd : (s.names np).n_flag.N_DONE with
  | true =>
    rw [makeBody_done env mk np level s hd]
    exact Follows.refl _ _
  | false =>
    rw [makeBody_eq env mk np level s hd]
    exact Res.Ends.bind (makeWalk_follows env mk np level hmk s)
      (fun l s3 _ => finish_follows env np level l s3)

theorem makeBody_follows (env : Env W) (mk : Nat → Nat → State W → Res W Nat)
    (np level : Nat)
    (hmk : ∀ d s, (mk d (level + 1) s).Ends (Follows (Event.allowed env.quest (level + 1)) s))
    (s : State W) :
    (makeBody env mk np level s).Ends (Follows (Event.allowed env.quest level) s) :=
  Res.Ends.after (Follows.emit s (.call np level) (le_refl level))
    (makeBody_follows_call env mk np level hmk s)

/-- Whatever `make(np, level)` adds to the log is a call of `make` at `level`
or deeper or, outside query mode only, something else; no name changes
`N_DOUBLE` or loses `N_DONE` or `N_TARGET`. -/
theorem make_follows (env : Env W) (fuel np level : Nat) (s : State W) :
    (make env fuel np level s).Ends (Follows (Event.allowed env.quest level) s) := by
  induction fuel generalizing np level s with
  | zero => trivial
  | succ fuel ih => exact makeBody_follows env _ np level (fun d s1 => ih d (level + 1) s1) s

theorem make_follows_call (env : Env W) (fuel np level : Nat) (s : State W) :
    (make env (fuel + 1) np level s).Ends
      (Follows (Event.allowed env.quest level) (s.emit (.call np level))) :=
  makeBody_follows_call env _ np level (fun d s1 => make_follows env fuel d (level + 1) s1) s

/-- The first thing a call of `make` adds to the log is its own `call`. -/
theorem make_log_head (env : Env W) (fuel np level : Nat) (s : State W) :
    (make env fuel np level s).Ends
      (fun s' => ∃ rest, s'.log = s.log ++ .call np level :: rest) := by
  cases fuel with
  | zero => trivial
  | succ fuel =>
    refine (make_follows_call env fuel np level s).weaken (fun s' h => ?_)
    obtain ⟨⟨d, hd, _⟩, _⟩ := h
    exact ⟨d, by rw [hd]; simp [State.emit]⟩

/-! ## Query mode -/

@[simp] theorem State.setDone_time (s : State W) (np m : Nat) :
    ((s.setDone np).names m).n_time = (s.names m).n_time := by
  by_cases h : m = np
  · subst h; simp [State.setDone, State.modify]
  · simp [State.setDone, State.modify, Function.update_noteq h]

@[simp] theorem State.setDone_rule (s : State W) (np m : Nat) :
    ((s.setDone np).names m).n_rule = (s.names m).n_rule := by
  by_cases h : m = np
  · subst h; simp [State.setDone, State.modify]
  · simp [State.setDone, State.modify, Function.update_noteq h]

@[simp] theorem State.setDone_double (s : State W) (np m : Nat) :
    ((s.setDone np).names m).n_flag.N_DOUBLE = (s.names m).n_flag.N_DOUBLE := by
  by_cases h : m = np
  · subst h; simp [State.setDone, State.modify]
  · simp [State.setDone, State.modify, Function.update_noteq h]

@[simp] theorem State.setDone_log (s : State W) (np : Nat) : (s.setDone np).log = s.log := rfl

@[simp] theorem State.setDone_world (s : State W) (np : Nat) :
    (s.setDone np).world = s.world := rfl

theorem Event.allowed_query {level : Nat} {e : Event} (h : Event.allowed true level e) :
    ∃ m k, e = .call m k := by
  cases e with
  | call m k => exact ⟨m, k, rfl⟩
  | rebuild m rp k => exact absurd h.1 (by decide)
  | puts q => exact Bool.noConfusion (show true = false from h)
  | system m c st => exact Bool.noConfusion (show true = false from h)
  | unlink m r => exact Bool.noConfusion (show true = false from h)
  | utimensat m r => exact Bool.noConfusion (show true = false from h)
  | warning d => exact Bool.noConfusion (show true = false from h)
  | printf d => exact Bool.noConfusion (show true = false from h)

theorem finish_query (env : Env W) (hq : env.quest = true) (np level : Nat) (l : Locals)
    (s : State W) (h : (s.names np).n_time ≤ l.dtime) :
    finish env np level l s =
      .ok 1 ({ s.setDone np with world := (env.time s.world).2 }.setTime np
        (env.time s.world).1) := by
  unfold finish
  simp [hq, h]

/-- C3: in query mode a call of `make`, whatever the graph, adds nothing to
the log but calls of `make`: no target is handed to `make1`, no command is
echoed or given to the shell. And when the walk over the rules of a name that
is not done ends with `n_time <= dtime`, `make` marks the name done, sets its
`n_time` to the clock and returns 1. -/
theorem make_query (env : Env W) (hq : env.quest = true) (fuel np level : Nat)
    (s : State W) :
    (make env fuel np level s).Ends
      (fun s' => ∃ d, s'.log = s.log ++ d ∧ ∀ e ∈ d, ∃ m k, e = Event.call m k) ∧
    ∀ l s3, (s.names np).n_flag.N_DONE = false →
      makeWalk env (make env fuel) np level s = .ok l s3 →
      (s3.names np).n_time ≤ l.dtime →
      make env (fuel + 1) np level s =
        .ok 1 ({ s3.setDone np with world := (env.time s3.world).2 }.setTime np
          (env.time s3.world).1) := by
  constructor
  · refine (make_follows env fuel np level s).weaken (fun s' h => ?_)
    obtain ⟨⟨d, hd, hp⟩, _⟩ := h
    rw [hq] at hp
    exact ⟨d, hd, fun e he => Event.allowed_query (hp e he)⟩
  · intro l s3 hdone hw ht
    show makeBody env (make env fuel) np level s = _
    rw [makeBody_eq env _ np level s hdone, hw, Res.bind_ok, finish_query env hq np level l s3 ht]

/-- C3 at the makefile `t: p` in query mode. -/
theorem make_query_witness :
    (make queryEnv 2 0 0 (freshState pair)).Ends
      (fun s' => ∃ d, s'.log = (freshState pair).log ++ d ∧
        ∀ e ∈ d, ∃ m k, e = Event.call m k) ∧
    ∀ l s3, ((freshState pair).names 0).n_flag.N_DONE = false →
      makeWalk queryEnv (make queryEnv 2) 0 0 (freshState pair) = .ok l s3 →
      (s3.names 0).n_time ≤ l.dtime →
      make queryEnv (2 + 1) 0 0 (freshState pair) =
        .ok 1 ({ s3.setDone 0 with world := (queryEnv.time s3.world).2 }.setTime 0
          (queryEnv.time s3.world).1) :=
  make_query queryEnv rfl 2 0 0 (freshState pair)

/-! ## The last resort: "don't know how to make" -/

/-- A command never ends the run with the error "don't know how to
make". -/
theorem docmd_stop (env : Env W) (np : Nat) (c : String) (estat : Nat) (s : State W)
    (e : Stop) (st : State W) (h : docmd env np c estat s = .stop e st) :
    ∀ m, e ≠ .error (.dontKnowHow m) := by
  rw [docmd_eq] at h
  intro m hm
  subst hm
  split_ifs at h <;> simp at h

theorem docmdsFrom_stop (env : Env W) (np : Nat) (cs : List String) (estat : Nat)
    (s : State W) (e : Stop) (st : State W) (h : docmdsFrom env np cs estat s = .stop e st) :
    ∀ m, e ≠ .error (.dontKnowHow m) := by
  induction cs generalizing estat s with
  | nil => simp [docmdsFrom] at h
  | cons c cs ih =>
    unfold docmdsFrom at h
    cases hd : docmd env np c estat s with
    | ok a s1 => rw [hd] at h; exact ih _ _ h
    | stop e1 s1 =>
      rw [hd] at h
      simp only [Res.bind_stop, Res.stop.injEq] at h
      exact h.1 ▸ docmd_stop env np c estat s e1 s1 hd
    | timeout => rw [hd] at h; simp at h

theorem docmdsRules_stop (env : Env W) (np : Nat) (rps : List Rule) (estat : Nat)
    (s : State W) (e : Stop) (st : State W) (h : docmdsRules env np rps estat s = .stop e st) :
    ∀ m, e ≠ .error (.dontKnowHow m) := by
  induction rps generalizing estat s with
  | nil => simp [docmdsRules] at h
  | cons rp rps ih =>
    unfold docmdsRules docmds1 at h
    cases hd : docmdsFrom env np rp.r_cmd 0 s with
    | ok a s1 => rw [hd] at h; exact ih _ _ h
    | stop e1 s1 =>
      rw [hd] at h
      simp only [Res.bind_stop, Res.stop.injEq] at h
      exact h.1 ▸ docmdsFrom_stop env np _ 0 s e1 s1 hd
    | timeout => rw [hd] at h; simp at h

theorem make1_stop (env : Env W) (np : Nat) (rp : Option Rule) (newer : Option String)
    (implicit : Option Nat) (s : State W) (e : Stop) (st : State W)
    (h : make1 env np rp newer implicit s = .stop e st) :
    ∀ m, e ≠ .error (.dontKnowHow m) := by
  unfold make1 at h
  simp only at h
  cases rp with
  | none =>
    simp only [docmds] at h
    cases hd : docmdsRules env np ((autoMacros env np newer implicit s).names np).n_rule 0
        (autoMacros env np newer implicit s) with
    | ok a s1 => rw [hd] at h; simp at h
    | stop e1 s1 =>
      rw [hd] at h
      simp only [Res.bind_stop, Res.stop.injEq] at h
      exact h.1 ▸ docmdsRules_stop env np _ 0 _ e1 s1 hd
    | timeout => rw [hd] at h; simp at h
  | some rule =>
    simp only [docmds1] at h
    cases hd : docmdsFrom env np rule.r_cmd 0 (autoMacros env np newer implicit s) with
    | ok a s1 => rw [hd] at h; simp at h
    | stop e1 s1 =>
      rw [hd] at h
      simp only [Res.bind_stop, Res.stop.injEq] at h
      exact h.1 ▸ docmdsFrom_stop env np _ 0 _ e1 s1 hd
    | timeout => rw [hd] at h; simp at h

theorem finish_stop (env : Env W) (np level : Nat) (l : Locals) (s : State W)
    (e : Stop) (st : State W) (h : finish env np level l s = .stop e st) :
    ∀ m, e ≠ .error (.dontKnowHow m) := by
  unfold finish at h
  simp only at h
  split_ifs at h
  · cases hd : make1 env np none l.newer l.impdep
        ((s.setDone np).emit (Event.rebuild np none level)) with
    | ok a s1 => rw [hd] at h; simp at h
    | stop e1 s1 =>
      rw [hd] at h
      simp only [Res.bind_stop, Res.stop.injEq] at h
      exact h.1 ▸ make1_stop env np none _ _ _ e1 s1 hd
    | timeout => rw [hd] at h; simp at h

theorem dyndep_log (env : Env W) (np : Nat) (infrule : Option Nat) (s : State W) :
    (dyndep env np infrule s).2.log = s.log ∧ (dyndep env np infrule s).2.world = s.world := by
  unfold dyndep
  rcases env.implicit s.world s.names np infrule with _ | ⟨pp, cmds⟩
  · exact ⟨rfl, rfl⟩
  · cases infrule <;> simp only <;> split_ifs <;> exact ⟨rfl, rfl⟩

theorem probed_log (env : Env W) (np level : Nat) (s : State W) :
    (probed env np level s).log = s.log ++ [.call np level] ∧
    (probed env np level s).world = s.world := by
  unfold probed
  simp only
  split_ifs <;> exact ⟨rfl, rfl⟩

theorem probed_flag (env : Env W) (np level m : Nat) (s : State W) :
    ((probed env np level s).names m).n_flag = (s.names m).n_flag := by
  unfold probed
  simp only
  split_ifs
  · by_cases h : m = np
    · subst h; simp [modtime, State.setTime, State.modify, State.emit]
    · simp [modtime, State.setTime, State.modify, State.emit, Function.update_noteq h]
  · rfl

theorem tried_log (env : Env W) (np level : Nat) (s : State W) :
    (tried env np level s).log = s.log ++ [.call np level] ∧
    (tried env np level s).world = s.world := by
  unfold tried
  simp only
  split_ifs
  · exact ⟨(dyndep_log env np none _).1.trans (probed_log env np level s).1,
      (dyndep_log env np none _).2.trans (probed_log env np level s).2⟩
  · exact probed_log env np level s

theorem tried_follows (P : Event → Prop) (env : Env W) (np level : Nat) (s : State W) :
    Follows P (s.emit (.call np level)) (tried env np level s) := by
  unfold tried
  simp only
  split_ifs
  · exact (Follows.probed P env np level s).trans (Follows.dyndep env np none _)
  · exact Follows.probed P env np level s

/-- Lines 169-187 for a target without `::`, in terms of the state `tried`. -/
theorem resolve_probed (env : Env W) (np level : Nat) (s : State W)
    (hdbl : (s.names np).n_flag.N_DOUBLE = false) :
    resolve env np (probed env np level s) =
      if ((tried env np level s).names np).n_flag.N_TARGET = false ∧
          ((tried env np level s).names np).n_time = 0 then
        match env.findname ".DEFAULT" with
        | none => .stop (.error (.dontKnowHow np)) (tried env np level s)
        | some dflt =>
          match ((tried env np level s).names dflt).n_rule with
          | [] => .stop .crash (tried env np level s)
          | r :: _ => .ok (some np) (addrule np [] r.r_cmd false (tried env np level s))
      else .ok (if !((probed env np level s).names np).n_rule.any (fun rp => !rp.r_cmd.isEmpty)
          then dyndep env np none (probed env np level s)
          else (none, probed env np level s)).1 (tried env np level s) := by
  have h1 : ((probed env np level s).names np).n_flag.N_DOUBLE = false := by
    rw [probed_flag]; exact hdbl
  unfold resolve tried
  simp only [h1]
  generalize (if (!((probed env np level s).names np).n_rule.any
      (fun rp => !rp.r_cmd.isEmpty)) = true then dyndep env np none (probed env np level s)
      else (none, probed env np level s)) = x
  obtain ⟨impdep, s1⟩ := x
  simp

theorem makeDeps_head (env : Env W) (mk : Nat → Nat → State W → Res W Nat)
    (np level : Nat)
    (hmk : ∀ d s, (mk d (level + 1) s).Ends (Follows (Event.allowed env.quest (level + 1)) s))
    (hhd : ∀ d s, (mk d (level + 1) s).Ends
      (fun s' => ∃ rest, s'.log = s.log ++ .call d (level + 1) :: rest))
    (d : Nat) (ds : List Nat) (l : Locals) (s : State W) :
    (makeDeps env mk np level (d :: ds) l s).Ends
      (fun s' => ∃ rest, s'.log = s.log ++ .call d (level + 1) :: rest) := by
  unfold makeDeps
  have h1 := hhd d s
  cases hd : mk d (level + 1) s with
  | ok a s1 =>
    rw [hd] at h1
    obtain ⟨rest, hrest⟩ := h1
    simp only [Res.bind_ok]
    refine (makeDeps_follows env mk np level hmk ds _ s1).weaken (fun s' h => ?_)
    obtain ⟨⟨d2, hd2, _⟩, _⟩ := h
    exact ⟨rest ++ d2, by rw [hd2, hrest]; simp⟩
  | stop e s1 => rw [hd] at h1; exact h1
  | timeout => trivial

theorem ruleHead_single (env : Env W) (np i : Nat) (rp : Rule) (l : Locals) (s : State W)
    (hdbl : (s.names np).n_flag.N_DOUBLE = false) :
    ruleHead env np i rp l s = .ok (rp, l) s := by
  unfold ruleHead
  simp [hdbl]

theorem ruleTail_single (env : Env W) (np level i : Nat) (rp : Rule) (l : Locals)
    (s : State W) (hdbl : (s.names np).n_flag.N_DOUBLE = false) :
    ruleTail env np level i rp l s = .ok l s := by
  unfold ruleTail
  simp [hdbl]

theorem makeRules_stop_head (env : Env W) (mk : Nat → Nat → State W → Res W Nat)
    (np level : Nat)
    (hmk : ∀ d s, (mk d (level + 1) s).Ends (Follows (Event.allowed env.quest (level + 1)) s))
    (hhd : ∀ d s, (mk d (level + 1) s).Ends
      (fun s' => ∃ rest, s'.log = s.log ++ .call d (level + 1) :: rest))
    (i : Nat) (rps : List Rule) (l : Locals) (s : State W)
    (hdbl : (s.names np).n_flag.N_DOUBLE = false)
    (e : Stop) (st : State W) (h : makeRules env mk np level i rps l s = .stop e st) :
    ∃ d rest, st.log = s.log ++ .call d (level + 1) :: rest := by
  induction rps generalizing i l s with
  | nil => simp [makeRules] at h
  | cons rp rps ih =>
    unfold makeRules at h
    rw [ruleHead_single env np i rp l s hdbl] at h
    simp only [Res.bind_ok] at h
    cases hds : rp.r_dep with
    | nil =>
      rw [hds] at h
      simp only [makeDeps, Res.bind_ok] at h
      rw [ruleTail_single env np level i rp l s hdbl] at h
      exact ih _ _ _ hdbl h
    | cons d ds =>
      rw [hds] at h
      have h1 := makeDeps_head env mk np level hmk hhd d ds l s
      have h2 := makeDeps_follows env mk np level hmk (d :: ds) l s
      cases hmd : makeDeps env mk np level (d :: ds) l s with
      | ok l2 s2 =>
        rw [hmd] at h h1 h2
        obtain ⟨rest, hrest⟩ := h1
        have hdbl2 : (s2.names np).n_flag.N_DOUBLE = false := by
          rw [(h2.2 np).1]; exact hdbl
        simp only [Res.bind_ok] at h
        rw [ruleTail_single env np level i rp l2 s2 hdbl2] at h
        simp only [Res.bind_ok] at h
        have h3 := makeRules_follows env mk np level hmk (i + 1) rps l2 s2
        rw [h] at h3
        obtain ⟨⟨d2, hd2, _⟩, _⟩ := h3
        exact ⟨d, rest ++ d2, by rw [hd2, hrest]; simp⟩
      | stop e1 s1 =>
        rw [hmd] at h h1
        simp only [Res.bind_stop, Res.stop.injEq] at h
        obtain ⟨rest, hrest⟩ := h1
        exact ⟨d, rest, h.2 ▸ hrest⟩
      | timeout => rw [hmd] at h; simp at h

/-- C4: let `np` be a name without `::` that is not done, and look at it once
implicit-rule resolution has been tried (line 180). If it is then not marked
as a target, its probed time is 0 and there is no `.DEFAULT`, `make` ends
with the fatal error "don't know how to make" for `np`, having logged nothing
but its own call and left the world as it was: no prerequisite was made, no
command run. This frame raises the error in exactly that situation; in any
other situation an error of this kind can only come out of the `make` of a
prerequisite. -/
theorem make_dont_know_how (env : Env W) (fuel np level : Nat) (s : State W)
    (hdone : (s.names np).n_flag.N_DONE = false)
    (hdbl : (s.names np).n_flag.N_DOUBLE = false) :
    ((((tried env np level s).names np).n_flag.N_TARGET = false ∧
        ((tried env np level s).names np).n_time = 0 ∧ env.findname ".DEFAULT" = none) →
      make env (fuel + 1) np level s =
          .stop (.error (.dontKnowHow np)) (tried env np level s) ∧
        (tried env np level s).log = s.log ++ [.call np level] ∧
        (tried env np level s).world = s.world) ∧
    ((((tried env np level s).names np).n_flag.N_TARGET = false ∧
        ((tried env np level s).names np).n_time = 0 ∧ env.findname ".DEFAULT" = none) ↔
      ∃ st, make env (fuel + 1) np level s = .stop (.error (.dontKnowHow np)) st ∧
        st.log = s.log ++ [.call np level]) ∧
    (¬ (((tried env np level s).names np).n_flag.N_TARGET = false ∧
        ((tried env np level s).names np).n_time = 0 ∧ env.findname ".DEFAULT" = none) →
      ∀ m st, make env (fuel + 1) np level s = .stop (.error (.dontKnowHow m)) st →
        ∃ d rest, st.log = s.log ++ .call np level :: .call d (level + 1) :: rest) := by
  have hA : (((tried env np level s).names np).n_flag.N_TARGET = false ∧
        ((tried env np level s).names np).n_time = 0 ∧ env.findname ".DEFAULT" = none) →
      make env (fuel + 1) np level s =
          .stop (.error (.dontKnowHow np)) (tried env np level s) := by
    rintro ⟨h1, h2, h3⟩
    show makeBody env (make env fuel) np level s = _
    rw [makeBody_eq env _ np level s hdone, makeWalk, resolve_probed env np level s hdbl,
      if_pos ⟨h1, h2⟩, h3]
    rfl
  have hC : (¬ (((tried env np level s).names np).n_flag.N_TARGET = false ∧
        ((tried env np level s).names np).n_time = 0 ∧ env.findname ".DEFAULT" = none) →
      ∀ m st, make env (fuel + 1) np level s = .stop (.error (.dontKnowHow m)) st →
        ∃ d rest, st.log = s.log ++ .call np level :: .call d (level + 1) :: rest) := by
    intro hno m st hst
    change makeBody env (make env fuel) np level s = _ at hst
    rw [makeBody_eq env _ np level s hdone, makeWalk, resolve_probed env np level s hdbl] at hst
    have key : ∀ impdep s2, s2.log = s.log ++ [.call np level] →
        (s2.names np).n_flag.N_DOUBLE = false →
        ((makeRules env (make env fuel) np level 0 (s2.names np).n_rule
            { impdep := impdep } s2).bind (finish env np level)) =
          .stop (.error (.dontKnowHow m)) st →
        ∃ d rest, st.log = s.log ++ .call np level :: .call d (level + 1) :: rest := by
      intro impdep s2 hlog hd2 hrun
      cases hmr : makeRules env (make env fuel) np level 0 (s2.names np).n_rule
          { impdep := impdep } s2 with
      | ok l s3 =>
        rw [hmr] at hrun
        exact absurd rfl (finish_stop env np level l s3 _ st hrun m)
      | stop e1 s1 =>
        rw [hmr] at hrun
        simp only [Res.bind_stop, Res.stop.injEq] at hrun
        obtain ⟨d, rest, hrest⟩ := makeRules_stop_head env (make env fuel) np level
          (fun d s1 => make_follows env fuel d (level + 1) s1)
          (fun d s1 => make_log_head env fuel d (level + 1) s1) 0 _ _ s2 hd2 e1 s1 hmr
        exact ⟨d, rest, by rw [← hrun.2, hrest, hlog]; simp⟩
      | timeout => rw [hmr] at hrun; simp at hrun
    have hdt : ((tried env np level s).names np).n_flag.N_DOUBLE = false := by
      rw [((tried_follows (fun _ => True) env np level s).2 np).1]; exact hdbl
    by_cases hc : ((tried env np level s).names np).n_flag.N_TARGET = false ∧
        ((tried env np level s).names np).n_time = 0
    · rw [if_pos hc] at hst
      cases hf : env.findname ".DEFAULT" with
      | none => exact absurd ⟨hc.1, hc.2, hf⟩ hno
      | some dflt =>
        rw [hf] at hst
        simp only at hst
        cases hr : ((tried env np level s).names dflt).n_rule with
        | nil => rw [hr] at hst; simp at hst
        | cons r rs =>
          rw [hr] at hst
          simp only [Res.bind_ok] at hst
          refine key (some np) (addrule np [] r.r_cmd false (tried env np level s))
            (tried_log env np level s).1 ?_ hst
          rw [((Follows.addrule (P := fun _ => True) (tried env np level s) np [] r.r_cmd).2
            np).1]
          exact hdt
    · rw [if_neg hc] at hst
      simp only [Res.bind_ok] at hst
      exact key _ _ (tried_log env np level s).1 hdt hst
  refine ⟨fun h => ⟨hA h, tried_log env np level s⟩, ⟨fun h => ⟨_, hA h, (tried_log env np level s).1⟩, ?_⟩, hC⟩
  rintro ⟨st, hst, hlog⟩
  by_contra hno
  obtain ⟨d, rest, hrest⟩ := hC hno np st hst
  rw [hlog] at hrest
  have := congrArg List.length hrest
  simp at this

/-- C4 at a name that nothing is known about: no rule, no file, no
`.DEFAULT`. -/
theorem make_dont_know_how_witness :
    make plainEnv (0 + 1) 0 0 (freshState ghost) =
        .stop (.error (.dontKnowHow 0)) (tried plainEnv 0 0 (freshState ghost)) ∧
      (tried plainEnv 0 0 (freshState ghost)).log = (freshState ghost).log ++ [.call 0 0] ∧
      (tried plainEnv 0 0 (freshState ghost)).world = (freshState ghost).world :=
  (make_dont_know_how plainEnv 0 0 0 (freshState ghost) rfl rfl).1 ⟨rfl, rfl, rfl⟩

/-! ## Cycles -/

theorem OnCycle.of_keeps {C : Nat → Prop} {next : Nat → Nat} {s s' : State W}
    (h : OnCycle C next s)
    (hk : ∀ n, (s'.names n).n_flag.N_DOUBLE = (s.names n).n_flag.N_DOUBLE ∧
      ((s.names n).n_flag.N_TARGET = true → (s'.names n).n_flag.N_TARGET = true) ∧
      (s'.names n).n_flag.N_DONE = (s.names n).n_flag.N_DONE ∧
      ∃ extra, (s'.names n).n_rule = (s.names n).n_rule ++ extra) :
    OnCycle C next s' := by
  intro n hn
  obtain ⟨h1, h2, h3, h4, ds, cmds, rps, h5⟩ := h n hn
  obtain ⟨k1, k2, k3, extra, k4⟩ := hk n
  exact ⟨k1.trans h1, k2 h2, k3.trans h3, h4, ds, cmds, rps ++ extra, by rw [k4, h5]; rfl⟩

theorem OnCycle.set_time {C : Nat → Prop} {next : Nat → Nat} {s : State W}
    (h : OnCycle C next s) (m : Nat) (t : Int) : OnCycle C next (s.setTime m t) := by
  refine h.of_keeps (fun n => ?_)
  by_cases hn : n = m
  · subst hn
    simp [State.setTime, State.modify]
  · simp [State.setTime, State.modify, Function.update_noteq hn]

theorem OnCycle.add_rule {C : Nat → Prop} {next : Nat → Nat} {s : State W}
    (h : OnCycle C next s) (m : Nat) (dp : List Nat) (cp : List String) :
    OnCycle C next (addrule m dp cp false s) := by
  refine h.of_keeps (fun n => ?_)
  by_cases hn : n = m
  · subst hn
    simp [Pdpmake.addrule, State.modify]
  · simp [Pdpmake.addrule, State.modify, Function.update_noteq hn]

theorem OnCycle.tried {C : Nat → Prop} {next : Nat → Nat} {s : State W}
    (h : OnCycle C next s) (env : Env W) (np level : Nat) :
    OnCycle C next (tried env np level s) := by
  have h0 : OnCycle C next (s.emit (.call np level)) := h
  have h1 : OnCycle C next (probed env np level s) := by
    unfold probed
    simp only
    split_ifs
    · exact h0.set_time np _
    · exact h0
  unfold Pdpmake.tried
  simp only
  split_ifs
  · unfold dyndep
    rcases env.implicit (probed env np level s).world (probed env np level s).names np none
      with _ | ⟨pp, cmds⟩
    · exact h1
    · simp only
      refine OnCycle.add_rule ?_ np [pp] cmds
      split_ifs
      · exact h1.set_time pp _
      · exact h1
  · exact h1

/-- Along a cycle of first prerequisites `make` never comes back: whatever
the bound on the depth of the recursion, the bound is reached. -/
theorem make_on_cycle (env : Env W) (C : Nat → Prop) (next : Nat → Nat) (fuel : Nat) :
    ∀ (np level : Nat) (s : State W), OnCycle C next s → C np →
      make env fuel np level s = .timeout := by
  induction fuel with
  | zero => intro np level s _ _; rfl
  | succ fuel ih =>
    intro np level s hs hn
    obtain ⟨h1, _, h3, _, _⟩ := hs np hn
    have ht := hs.tried env np level
    obtain ⟨_, t2, _, t4, ds, cmds, rps, t5⟩ := ht np hn
    show makeBody env (make env fuel) np level s = _
    rw [makeBody_eq env _ np level s h3, makeWalk, resolve_probed env np level s h1,
      if_neg (by rw [t2]; simp), Res.bind_ok, t5]
    have hd : ((tried env np level s).names np).n_flag.N_DOUBLE = false := (ht np hn).1
    unfold makeRules
    rw [ruleHead_single env np 0 _ _ _ hd]
    simp only [Res.bind_ok]
    unfold makeDeps
    rw [ih (next np) (level + 1) _ ht t4]
    rfl

/-- C5, as stated, fails: for the makefile `a: a` no bound on the depth of
the recursion lets `make` return or stop; no cycle is reported. -/
theorem make_self_loop_forever :
    ¬ ∃ fuel, make plainEnv fuel 0 0 (freshState selfLoop) ≠ .timeout := by
  rintro ⟨fuel, h⟩
  refine h (make_on_cycle plainEnv (fun n => n = 0) (fun _ => 0) fuel 0 0 _ ?_ rfl)
  intro n hn
  subst hn
  exact ⟨rfl, rfl, rfl, rfl, [], ["echo a"], [], rfl⟩

/-- C5, amended: `make` has no cycle detection. When the names of a cycle are
targets without `::` that are not done and each is the first prerequisite of
the first rule of the one before, a call of `make` on any of them neither
returns nor fails, whatever the bound on the depth of the recursion: a name
met again before it is done is made again. -/
theorem make_cycle_never_returns (env : Env W) (C : Nat → Prop) (next : Nat → Nat)
    (s : State W) (hs : OnCycle C next s) (np : Nat) (hn : C np) (fuel level : Nat) :
    make env fuel np level s = .timeout ∧
    (∀ r s', make env fuel np level s ≠ .ok r s') ∧
    (∀ e s', make env fuel np level s ≠ .stop e s') := by
  have h := make_on_cycle env C next fuel np level s hs hn
  refine ⟨h, fun r s' h2 => ?_, fun e s' h2 => ?_⟩ <;> rw [h] at h2 <;> exact Res.noConfusion h2

/-- C5, amended, at the makefile `a: b`, `b: a`. -/
theorem make_cycle_never_returns_witness :
    OnCycle (fun n => n = 0 ∨ n = 1) (fun n => 1 - n) (freshState twoCycle) ∧
    (make plainEnv 7 0 0 (freshState twoCycle) = .timeout ∧
      (∀ r s', make plainEnv 7 0 0 (freshState twoCycle) ≠ .ok r s') ∧
      (∀ e s', make plainEnv 7 0 0 (freshState twoCycle) ≠ .stop e s')) :=
  have hs : OnCycle (fun n => n = 0 ∨ n = 1) (fun n => 1 - n) (freshState twoCycle) := by
    intro n hn
    rcases hn with hn | hn <;> subst hn
    · exact ⟨rfl, rfl, rfl, Or.inr rfl, [], ["echo a"], [], rfl⟩
    · exact ⟨rfl, rfl, rfl, Or.inl rfl, [], [], [], rfl⟩
  ⟨hs, make_cycle_never_returns plainEnv _ _ (freshState twoCycle) hs 0 (Or.inl rfl) 7 0⟩

/-! ## Targets without `::`: one decision over all prerequisites -/

theorem makeDeps_append (env : Env W) (mk : Nat → Nat → State W → Res W Nat)
    (np level : Nat) (as bs : List Nat) (l : Locals) (s : State W) :
    makeDeps env mk np level (as ++ bs) l s =
      (makeDeps env mk np level as l s).bind (fun l1 s1 => makeDeps env mk np level bs l1 s1) := by
  induction as generalizing l s with
  | nil => rfl
  | cons a as ih =>
    simp only [List.cons_append, makeDeps]
    cases mk a (level + 1) s with
    | ok r s1 => simp only [Res.bind_ok]; exact ih _ _
    | stop e s1 => rfl
    | timeout => rfl

/-- For a target without `::` the loop over the rules is the loop over all
prerequisites of all rules. -/
theorem makeRules_single (env : Env W) (mk : Nat → Nat → State W → Res W Nat)
    (np level : Nat)
    (hmk : ∀ d s, (mk d (level + 1) s).Ends (Follows (Event.allowed env.quest (level + 1)) s))
    (i : Nat) (rps : List Rule) (l : Locals) (s : State W)
    (hdbl : (s.names np).n_flag.N_DOUBLE = false) :
    makeRules env mk np level i rps l s =
      makeDeps env mk np level (rps.flatMap (fun rp => rp.r_dep)) l s := by
  induction rps generalizing i l s with
  | nil => rfl
  | cons rp rps ih =>
    unfold makeRules
    rw [ruleHead_single env np i rp l s hdbl, List.flatMap_cons, makeDeps_append]
    simp only [Res.bind_ok]
    have h2 := makeDeps_follows env mk np level hmk rp.r_dep l s
    cases hmd : makeDeps env mk np level rp.r_dep l s with
    | ok l2 s2 =>
      rw [hmd] at h2
      have hdbl2 : (s2.names np).n_flag.N_DOUBLE = false := by
        rw [(h2.2 np).1]; exact hdbl
      simp only [Res.bind_ok]
      rw [ruleTail_single env np level i rp l2 s2 hdbl2]
      exact ih _ _ _ hdbl2
    | stop e s1 => rfl
    | timeout => rfl

/-- What the loop over the prerequisites leaves in the locals, in terms of
what it saw. -/
theorem makeDeps_observe (env : Env W) (mk : Nat → Nat → State W → Res W Nat)
    (np level : Nat) (ds : List Nat) (l l' : Locals) (s s' : State W)
    (h : makeDeps env mk np level ds l s = .ok l' s') :
    l'.estat = (l.estat || (observe mk level ds s).any (fun o => o.1 ≠ 0)) ∧
    l'.dtime = (observe mk level ds s).foldl (fun a o => max a o.2) l.dtime ∧
    (observe mk level ds s).length = ds.length ∧
    l'.impdep = l.impdep ∧ l'.didsomething = l.didsomething := by
  induction ds generalizing l s with
  | nil =>
    simp only [makeDeps, Res.ok.injEq] at h
    obtain ⟨h1, _⟩ := h
    subst h1
    simp [observe]
  | cons d ds ih =>
    unfold makeDeps at h
    unfold observe
    cases hmk : mk d (level + 1) s with
    | ok r s1 =>
      rw [hmk] at h
      simp only [Res.bind_ok] at h
      obtain ⟨h1, h2, h3, h4, h5⟩ := ih _ _ h
      simp only [List.any_cons, List.foldl_cons, List.length_cons, h1, h2, h3, h4, h5,
        Bool.or_assoc, and_self, and_true]
    | stop e s1 => rw [hmk] at h; simp at h
    | timeout => rw [hmk] at h; simp at h

theorem entry_of_walk (env : Env W) (mk : Nat → Nat → State W → Res W Nat)
    (np level : Nat) (s : State W) (l : Locals) (s3 : State W)
    (h : makeWalk env mk np level s = .ok l s3) :
    ∃ impdep, resolve env np (probed env np level s) = .ok impdep (entry env np level s) ∧
      makeRules env mk np level 0 ((entry env np level s).names np).n_rule
        { impdep := impdep } (entry env np level s) = .ok l s3 := by
  unfold makeWalk at h
  unfold entry
  cases hr : resolve env np (probed env np level s) with
  | ok impdep s2 => rw [hr] at h; exact ⟨impdep, rfl, h⟩
  | stop e s2 => rw [hr] at h; simp at h
  | timeout => rw [hr] at h; simp at h

theorem entry_follows (P : Event → Prop) (env : Env W) (np level : Nat) (s : State W) :
    Follows P (s.emit (.call np level)) (entry env np level s) := by
  unfold entry
  have h := Res.Ends.after (Follows.probed P env np level s) (resolve_follows P env np _)
  cases hr : resolve env np (probed env np level s) with
  | ok impdep s2 => rw [hr] at h; exact h
  | stop e s2 => exact Follows.probed P env np level s
  | timeout => exact Follows.probed P env np level s

theorem entry_log (env : Env W) (np level : Nat) (s : State W) :
    (entry env np level s).log = s.log ++ [.call np level] := by
  obtain ⟨⟨d, hd, hp⟩, _⟩ := entry_follows (fun _ => False) env np level s
  cases d with
  | nil => simpa [State.emit] using hd
  | cons e d => exact (hp e (List.mem_cons_self _ _)).elim

theorem entry_double (env : Env W) (np level m : Nat) (s : State W) :
    ((entry env np level s).names m).n_flag.N_DOUBLE = (s.names m).n_flag.N_DOUBLE :=
  ((entry_follows (fun _ => True) env np level s).2 m).1

/-- The walk of a target without `::` is the loop over its prerequisites,
started where the rules are first read. -/
theorem walk_single (env : Env W) (mk : Nat → Nat → State W → Res W Nat)
    (np level : Nat)
    (hmk : ∀ d s, (mk d (level + 1) s).Ends (Follows (Event.allowed env.quest (level + 1)) s))
    (s : State W) (hdbl : (s.names np).n_flag.N_DOUBLE = false)
    (l : Locals) (s3 : State W) (h : makeWalk env mk np level s = .ok l s3) :
    ∃ impdep, makeDeps env mk np level (prereqs (entry env np level s) np)
      { impdep := impdep } (entry env np level s) = .ok l s3 := by
  obtain ⟨impdep, _, h2⟩ := entry_of_walk env mk np level s l s3 h
  refine ⟨impdep, ?_⟩
  rw [makeRules_single env mk np level hmk 0 _ _ _
    ((entry_double env np level np s).trans hdbl)] at h2
  exact h2

theorem finish_rebuild (env : Env W) (hq : env.quest = false) (np level : Nat) (l : Locals)
    (s : State W) (hdbl : (s.names np).n_flag.N_DOUBLE = false)
    (ht : (s.names np).n_time ≤ l.dtime) (he : l.estat = false) :
    finish env np level l s =
      (make1 env np none l.newer l.impdep ((s.setDone np).emit (.rebuild np none level))).bind
        (fun e s1 => .ok (b2n (e ≠ 0))
          ({ s1 with world := (env.time s1.world).2 }.setTime np (env.time s1.world).1)) := by
  unfold finish
  simp [hq, ht, he, hdbl]

theorem finish_skip (env : Env W) (hq : env.quest = false) (np level : Nat) (l : Locals)
    (s : State W) (hdbl : (s.names np).n_flag.N_DOUBLE = false)
    (ht : (s.names np).n_time ≤ l.dtime) (he : l.estat = true) :
    finish env np level l s = .ok 1 ((s.setDone np).emit (.warning (.notBuilt np))) := by
  unfold finish
  simp [hq, ht, he, hdbl, b2n]

theorem finish_up_to_date (env : Env W) (hq : env.quest = false) (np level : Nat)
    (l : Locals) (s : State W) (ht : l.dtime < (s.names np).n_time) :
    finish env np level l s =
      .ok (b2n l.estat)
        (if level = 0 ∧ l.didsomething = false then
          (s.setDone np).emit (.printf (.upToDate np)) else s.setDone np) := by
  unfold finish
  have h1 : ¬ (s.names np).n_time ≤ l.dtime := not_le.2 ht
  by_cases h2 : level = 0 ∧ l.didsomething = false
  · simp [hq, h1, h2]
  · have h3 : ¬ (level = 0 ∧ (!l.didsomething) = true) := by simpa using h2
    simp only [hq, State.setDone_time, h1, false_and, if_false, h3, h2]
    simp

theorem runs_append (np level : Nat) (a b : List Event) :
    runs np level (a ++ b) = runs np level a + runs np level b :=
  List.countP_append _ a b

theorem runs_deeper (np level : Nat) (quest : Bool) (d : List Event)
    (h : ∀ e ∈ d, Event.allowed quest (level + 1) e) : runs np level d = 0 := by
  refine List.countP_eq_zero.2 (fun e he => ?_)
  have h1 := h e he
  cases e with
  | rebuild m rp k =>
    have h2 : level + 1 ≤ k := h1.2
    have h3 : k ≠ level := by omega
    simp [Event.isRebuild, h3]
  | _ => simp [Event.isRebuild]

theorem runs_plain (np level : Nat) (d : List Event) (h : ∀ e ∈ d, Event.plain e) :
    runs np level d = 0 := by
  refine List.countP_eq_zero.2 (fun e he => ?_)
  have h1 := h e he
  cases e with
  | rebuild m rp k => exact h1.elim
  | _ => simp [Event.isRebuild]

/-- While a target without `::` walks its rules, nothing is added to the log
but what the calls of `make` for its prerequisites add. -/
theorem walk_single_runs (env : Env W) (fuel np level : Nat) (s : State W)
    (hdbl : (s.names np).n_flag.N_DOUBLE = false) (l : Locals) (s3 : State W)
    (h : makeWalk env (make env fuel) np level s = .ok l s3) :
    runs np level s3.log = runs np level s.log ∧
    (s3.names np).n_flag.N_DOUBLE = false := by
  have hmk : ∀ d s1, (make env fuel d (level + 1) s1).Ends
      (Follows (Event.allowed env.quest (level + 1)) s1) :=
    fun d s1 => make_follows env fuel d (level + 1) s1
  obtain ⟨impdep, h2⟩ := walk_single env _ np level hmk s hdbl l s3 h
  have h3 := makeDeps_follows_any _ env _ np level hmk (prereqs (entry env np level s) np)
    { impdep := impdep } (entry env np level s)
  rw [h2] at h3
  obtain ⟨⟨d, hd, hp⟩, hn⟩ := h3
  constructor
  · rw [hd, entry_log, runs_append, runs_append, runs_deeper np level env.quest d hp]
    simp [runs, Event.isRebuild]
  · rw [(hn np).1, entry_double]; exact hdbl

theorem observe_all_zero (os : List (Nat × Int)) (h : ∀ o ∈ os, o.1 = 0) :
    os.any (fun o => o.1 ≠ 0) = false := by
  rw [List.any_eq_false]
  intro o ho
  simp [h o ho]

theorem runs_rebuild (np level : Nat) (rp : Option Nat) (log : List Event) :
    runs np level (log ++ [.rebuild np rp level]) = runs np level log + 1 := by
  simp [runs, Event.isRebuild]

/-- A run of `make1` from the final decision adds one run of the commands of
`np` to the log of the frame. -/
theorem rebuild_runs (env : Env W) (np level : Nat) (l : Locals) (s3 : State W) :
    ((make1 env np none l.newer l.impdep ((s3.setDone np).emit (.rebuild np none level))).bind
        (fun e s4 => (.ok (b2n (e ≠ 0))
          ({ s4 with world := (env.time s4.world).2 }.setTime np (env.time s4.world).1) :
            Res W Nat))).Ends
      (fun s' => runs np level s'.log = runs np level s3.log + 1) := by
  have h1 := Res.Ends.bind (f := fun e s4 => (.ok (b2n (e ≠ 0))
      ({ s4 with world := (env.time s4.world).2 }.setTime np (env.time s4.world).1) :
        Res W Nat))
    (make1_follows env np none l.newer l.impdep ((s3.setDone np).emit (.rebuild np none level)))
    (fun e s4 _ => (Follows.then_world (Follows.refl _ s4)).trans (Follows.setTime _ np _))
  refine h1.weaken (fun s' h => ?_)
  obtain ⟨⟨d, hd, hp⟩, _⟩ := h
  rw [hd, runs_append, runs_plain np level d hp]
  show runs np level (s3.log ++ [.rebuild np none level]) + 0 = _
  rw [runs_rebuild]

/-- C1: let `np` be a name without `::` that is not done, outside query
mode, and let the walk over its rules return (every recursive `make`
returned) with every recursive `make` returning 0. Then `dtime` is the
maximum of 1 and the times of all prerequisites of all rules, each read right
after that prerequisite was made. If `n_time <= dtime`, `make` hands `np` to
`make1` once (all rules, `rp = NULL`) and, when that returns, sets `n_time`
to the clock; if `n_time > dtime`, `make` returns 0, runs no command of `np`
and leaves `n_time` and the world as they are. -/
theorem make_single_decision (env : Env W) (hq : env.quest = false) (fuel np level : Nat)
    (s : State W) (hdone : (s.names np).n_flag.N_DONE = false)
    (hdbl : (s.names np).n_flag.N_DOUBLE = false) (l : Locals) (s3 : State W)
    (hw : makeWalk env (make env fuel) np level s = .ok l s3)
    (hz : ∀ o ∈ observe (make env fuel) level (prereqs (entry env np level s) np)
      (entry env np level s), o.1 = 0) :
    l.dtime = (observe (make env fuel) level (prereqs (entry env np level s) np)
      (entry env np level s)).foldl (fun a o => max a o.2) 1 ∧
    ((s3.names np).n_time ≤ l.dtime →
      make env (fuel + 1) np level s =
        (make1 env np none l.newer l.impdep
            ((s3.setDone np).emit (.rebuild np none level))).bind
          (fun e s4 => .ok (b2n (e ≠ 0))
            ({ s4 with world := (env.time s4.world).2 }.setTime np (env.time s4.world).1)) ∧
      (make env (fuel + 1) np level s).Ends
        (fun s' => runs np level s'.log = runs np level s.log + 1) ∧
      ∀ r s', make env (fuel + 1) np level s = .ok r s' →
        ∃ e s4, make1 env np none l.newer l.impdep
            ((s3.setDone np).emit (.rebuild np none level)) = .ok e s4 ∧
          (s'.names np).n_time = (env.time s4.world).1) ∧
    (l.dtime < (s3.names np).n_time →
      ∃ s', make env (fuel + 1) np level s = .ok 0 s' ∧
        runs np level s'.log = runs np level s.log ∧
        (s'.names np).n_time = (s3.names np).n_time ∧ s'.world = s3.world) := by
  have hmk : ∀ d s1, (make env fuel d (level + 1) s1).Ends
      (Follows (Event.allowed env.quest (level + 1)) s1) :=
    fun d s1 => make_follows env fuel d (level + 1) s1
  obtain ⟨impdep, h2⟩ := walk_single env _ np level hmk s hdbl l s3 hw
  obtain ⟨o1, o2, _, _, o5⟩ := makeDeps_observe env _ np level _ _ _ _ _ h2
  obtain ⟨r1, r2⟩ := walk_single_runs env fuel np level s hdbl l s3 hw
  have he : l.estat = false := by rw [o1, observe_all_zero _ hz]; rfl
  have hmake : make env (fuel + 1) np level s = finish env np level l s3 := by
    show makeBody env (make env fuel) np level s = _
    rw [makeBody_eq env _ np level s hdone, hw, Res.bind_ok]
  refine ⟨o2, fun ht => ?_, fun ht => ?_⟩
  · have heq := hmake.trans (finish_rebuild env hq np level l s3 r2 ht he)
    refine ⟨heq, ?_, ?_⟩
    · rw [heq, ← r1]
      exact rebuild_runs env np level l s3
    · intro r s' hr
      rw [heq] at hr
      cases hm : make1 env np none l.newer l.impdep
          ((s3.setDone np).emit (.rebuild np none level)) with
      | ok e s4 =>
        rw [hm] at hr
        simp only [Res.bind_ok, Res.ok.injEq] at hr
        refine ⟨e, s4, rfl, ?_⟩
        rw [← hr.2]
        simp [State.setTime, State.modify]
      | stop e s4 => rw [hm] at hr; simp at hr
      | timeout => rw [hm] at hr; simp at hr
  · rw [hmake, finish_up_to_date env hq np level l s3 ht, he]
    refine ⟨_, rfl, ?_, ?_, ?_⟩
    · split_ifs
      · rw [← r1]
        show runs np level (s3.log ++ [.printf (.upToDate np)]) = _
        rw [runs_append]
        simp [runs, Event.isRebuild]
      · exact r1
    · split_ifs <;> simp [State.emit]
    · split_ifs <;> rfl

/-- C1 at the makefile `t: p` with both files missing: `p` is made, then
`t` is handed to `make1` once. -/
theorem make_single_decision_witness :
    (make plainEnv (1 + 1) 0 0 (freshState pair)).Ends
      (fun s' => runs 0 0 s'.log = runs 0 0 (freshState pair).log + 1) :=
  ((make_single_decision plainEnv rfl 1 0 0 (freshState pair) rfl rfl
    ((makeWalk plainEnv (make plainEnv 1) 0 0 (freshState pair)).valueD {})
    ((makeWalk plainEnv (make plainEnv 1) 0 0 (freshState pair)).stateD (freshState pair))
    rfl (by decide)).2.1 (by decide)).2.1

/-- C2, as stated, fails: in the makefile `t: p` with both files modified at
time 5, `t` has the time of its newest prerequisite, and its command is
run. -/
theorem make_tie_rebuilds :
    ((entry plainEnv 0 0 tieState).names 0).n_time = 5 ∧
    observe (make plainEnv 1) 0 (prereqs (entry plainEnv 0 0 tieState) 0)
      (entry plainEnv 0 0 tieState) = [(0, 5)] ∧
    (make plainEnv 2 0 0 tieState).final.map (fun s => s.log) =
      some [.call 0 0, .call 1 1, .rebuild 0 none 0, .puts "echo t",
            .system 0 "set -e;echo t" 0] := by
  decide

/-- The final decision of a target without `::` outside query mode. -/
theorem make_eq_finish (env : Env W) (fuel np level : Nat) (s : State W)
    (hdone : (s.names np).n_flag.N_DONE = false) (l : Locals) (s3 : State W)
    (hw : makeWalk env (make env fuel) np level s = .ok l s3) :
    make env (fuel + 1) np level s = finish env np level l s3 := by
  show makeBody env (make env fuel) np level s = _
  rw [makeBody_eq env _ np level s hdone, hw, Res.bind_ok]

theorem up_to_date_runs (env : Env W) (hq : env.quest = false) (np level : Nat) (l : Locals)
    (s3 : State W) (ht : l.dtime < (s3.names np).n_time) :
    (finish env np level l s3).Ends (fun s' => runs np level s'.log = runs np level s3.log) := by
  rw [finish_up_to_date env hq np level l s3 ht]
  show runs np level (if level = 0 ∧ l.didsomething = false then
    (s3.setDone np).emit (.printf (.upToDate np)) else s3.setDone np).log = _
  split_ifs
  · show runs np level (s3.log ++ [.printf (.upToDate np)]) = _
    rw [runs_append]
    simp [runs, Event.isRebuild]
  · rfl

/-- C2, amended: outside query mode a target without `::` is treated as up
to date, none of its commands being run, when its time is greater than
`dtime`, the maximum of 1 and the times of its prerequisites; when its time
is equal to `dtime`, as it is when it equals the time of its newest
prerequisite, and no `make` of a prerequisite returned non-zero, the target
is rebuilt: it is handed to `make1` once. -/
theorem make_single_tie (env : Env W) (hq : env.quest = false) (fuel np level : Nat)
    (s : State W) (hdone : (s.names np).n_flag.N_DONE = false)
    (hdbl : (s.names np).n_flag.N_DOUBLE = false) (l : Locals) (s3 : State W)
    (hw : makeWalk env (make env fuel) np level s = .ok l s3) :
    l.dtime = (observe (make env fuel) level (prereqs (entry env np level s) np)
      (entry env np level s)).foldl (fun a o => max a o.2) 1 ∧
    (l.dtime < (s3.names np).n_time →
      (make env (fuel + 1) np level s).Ends
        (fun s' => runs np level s'.log = runs np level s.log)) ∧
    ((s3.names np).n_time = l.dtime →
      (∀ o ∈ observe (make env fuel) level (prereqs (entry env np level s) np)
        (entry env np level s), o.1 = 0) →
      (make env (fuel + 1) np level s).Ends
        (fun s' => runs np level s'.log = runs np level s.log + 1)) := by
  have hmk : ∀ d s1, (make env fuel d (level + 1) s1).Ends
      (Follows (Event.allowed env.quest (level + 1)) s1) :=
    fun d s1 => make_follows env fuel d (level + 1) s1
  obtain ⟨impdep, h2⟩ := walk_single env _ np level hmk s hdbl l s3 hw
  obtain ⟨o1, o2, _, _, _⟩ := makeDeps_observe env _ np level _ _ _ _ _ h2
  obtain ⟨r1, r2⟩ := walk_single_runs env fuel np level s hdbl l s3 hw
  refine ⟨o2, fun ht => ?_, fun ht hz => ?_⟩
  · rw [make_eq_finish env fuel np level s hdone l s3 hw, ← r1]
    exact up_to_date_runs env hq np level l s3 ht
  · have he : l.estat = false := by rw [o1, observe_all_zero _ hz]; rfl
    rw [make_eq_finish env fuel np level s hdone l s3 hw,
      finish_rebuild env hq np level l s3 r2 (le_of_eq ht) he, ← r1]
    exact rebuild_runs env np level l s3

/-- C2, amended, at the makefile `t: p` with both files modified at time
5. -/
theorem make_single_tie_witness :
    (make plainEnv (1 + 1) 0 0 tieState).Ends
      (fun s' => runs 0 0 s'.log = runs 0 0 tieState.log + 1) :=
  (make_single_tie plainEnv rfl 1 0 0 tieState rfl rfl
    ((makeWalk plainEnv (make plainEnv 1) 0 0 tieState).valueD {})
    ((makeWalk plainEnv (make plainEnv 1) 0 0 tieState).stateD tieState)
    rfl).2.2 (by decide) (by decide)

/-- The calls of `make` for the prerequisites are all in the log, in the
order of the prerequisites. -/
theorem makeDeps_calls (env : Env W) (fuel np level : Nat) (ds : List Nat) (l l' : Locals)
    (s s' : State W) (h : makeDeps env (make env fuel) np level ds l s = .ok l' s') :
    ∃ d, s'.log = s.log ++ d ∧ (ds.map (fun p => Event.call p (level + 1))).Sublist d := by
  induction ds generalizing l s with
  | nil =>
    simp only [makeDeps, Res.ok.injEq] at h
    exact ⟨[], by rw [← h.2]; simp, by simp⟩
  | cons p ds ih =>
    unfold makeDeps at h
    have hh := make_log_head env fuel p (level + 1) s
    cases hm : make env fuel p (level + 1) s with
    | ok r s1 =>
      rw [hm] at h hh
      simp only [Res.bind_ok] at h
      obtain ⟨rest, hrest⟩ := hh
      obtain ⟨d, hd, hsub⟩ := ih _ _ h
      refine ⟨.call p (level + 1) :: (rest ++ d), by rw [hd, hrest]; simp, ?_⟩
      simp only [List.map_cons]
      exact List.Sublist.cons₂ _ (List.sublist_append_of_sublist_right hsub)
    | stop e s1 => rw [hm] at h; simp at h
    | timeout => rw [hm] at h; simp at h

/-- While a target without `::` walks its rules, the frame hands nothing to
`make1`, also when the walk ends the run. -/
theorem walk_single_ends (env : Env W) (fuel np level : Nat) (s : State W)
    (hdbl : (s.names np).n_flag.N_DOUBLE = false) :
    (makeWalk env (make env fuel) np level s).Ends
      (fun s' => runs np level s'.log = runs np level s.log) := by
  have hmk : ∀ d s1, (make env fuel d (level + 1) s1).Ends
      (Follows (Event.allowed env.quest (level + 1)) s1) :=
    fun d s1 => make_follows env fuel d (level + 1) s1
  have hcall : runs np level (s.log ++ [.call np level]) = runs np level s.log := by
    rw [runs_append]; simp [runs, Event.isRebuild]
  have h1 := resolve_follows (fun _ => False) env np (probed env np level s)
  unfold makeWalk
  cases hres : resolve env np (probed env np level s) with
  | timeout => trivial
  | stop e s2 =>
    rw [hres] at h1
    obtain ⟨⟨d, hd, hp⟩, _⟩ := h1
    cases d with
    | nil =>
      show runs np level s2.log = _
      rw [hd, List.append_nil, (probed_log env np level s).1, hcall]
    | cons e d => exact (hp e (List.mem_cons_self _ _)).elim
  | ok impdep s2 =>
    rw [hres] at h1
    obtain ⟨⟨d, hd, hp⟩, hn⟩ := h1
    have hlog : s2.log = s.log ++ [.call np level] := by
      cases d with
      | nil => rw [hd, List.append_nil, (probed_log env np level s).1]
      | cons e d => exact (hp e (List.mem_cons_self _ _)).elim
    have hdbl2 : (s2.names np).n_flag.N_DOUBLE = false := by
      rw [(hn np).1, probed_flag]; exact hdbl
    simp only [Res.bind_ok]
    rw [makeRules_single env _ np level hmk 0 _ _ _ hdbl2]
    refine (makeDeps_follows_any _ env _ np level hmk _ _ s2).weaken (fun s' h => ?_)
    obtain ⟨⟨d2, hd2, hp2⟩, _⟩ := h
    rw [hd2, runs_append, runs_deeper np level env.quest d2 hp2, hlog, hcall, Nat.add_zero]

/-- C6: let `T` be a name without `::` that is not done, outside query mode,
and let the `make` of one of its prerequisites return non-zero (as it does
under keep-going when a command failed). Then the frame does not hand `T` to
`make1`, wherever the run ends; and when `make(T)` returns, every
prerequisite of `T` was made, in order, the failed one and those after it
alike, and `make(T)` returns 1. -/
theorem make_prerequisite_failed (env : Env W) (hq : env.quest = false)
    (fuel np level : Nat) (s : State W) (hdone : (s.names np).n_flag.N_DONE = false)
    (hdbl : (s.names np).n_flag.N_DOUBLE = false)
    (hfail : ∃ o ∈ observe (make env fuel) level (prereqs (entry env np level s) np)
      (entry env np level s), o.1 ≠ 0) :
    (make env (fuel + 1) np level s).Ends
      (fun s' => runs np level s'.log = runs np level s.log) ∧
    ∀ r s', make env (fuel + 1) np level s = .ok r s' →
      r = 1 ∧ ∃ d, s'.log = s.log ++ .call np level :: d ∧
        ((prereqs (entry env np level s) np).map
          (fun p => Event.call p (level + 1))).Sublist d := by
  have hmk : ∀ d s1, (make env fuel d (level + 1) s1).Ends
      (Follows (Event.allowed env.quest (level + 1)) s1) :=
    fun d s1 => make_follows env fuel d (level + 1) s1
  have hends := walk_single_ends env fuel np level s hdbl
  have hbody : make env (fuel + 1) np level s =
      (makeWalk env (make env fuel) np level s).bind (finish env np level) :=
    makeBody_eq env _ np level s hdone
  cases hw : makeWalk env (make env fuel) np level s with
  | stop e s1 =>
    rw [hw] at hends
    rw [hbody, hw]
    exact ⟨hends, fun r s' h => Res.noConfusion h⟩
  | timeout =>
    rw [hbody, hw]
    exact ⟨trivial, fun r s' h => Res.noConfusion h⟩
  | ok l s3 =>
    rw [hbody, hw, Res.bind_ok]
    obtain ⟨impdep, h2⟩ := walk_single env _ np level hmk s hdbl l s3 hw
    obtain ⟨o1, _, _, _, _⟩ := makeDeps_observe env _ np level _ _ _ _ _ h2
    obtain ⟨r1, r2⟩ := walk_single_runs env fuel np level s hdbl l s3 hw
    obtain ⟨d, hd, hsub⟩ := makeDeps_calls env fuel np level _ _ _ _ _ h2
    have he : l.estat = true := by
      rw [o1]
      obtain ⟨o, ho, hne⟩ := hfail
      simp only [Bool.false_or, List.any_eq_true]
      exact ⟨o, ho, by simpa using hne⟩
    rw [entry_log] at hd
    by_cases ht : (s3.names np).n_time ≤ l.dtime
    · rw [finish_skip env hq np level l s3 r2 ht he]
      refine ⟨?_, fun r s' hb => ?_⟩
      · show runs np level (s3.log ++ [.warning (.notBuilt np)]) = _
        rw [runs_append, r1]
        simp [runs, Event.isRebuild]
      · simp only [Res.ok.injEq] at hb
        obtain ⟨hr, hs⟩ := hb
        subst hs
        refine ⟨hr.symm, d ++ [.warning (.notBuilt np)], ?_,
          List.sublist_append_of_sublist_left hsub⟩
        show s3.log ++ [.warning (.notBuilt np)] = _
        rw [hd]; simp
    · have ht2 : l.dtime < (s3.names np).n_time := not_le.1 ht
      have hu := up_to_date_runs env hq np level l s3 ht2
      refine ⟨hu.weaken (fun _ h => h.trans r1), fun r s' hb => ?_⟩
      rw [finish_up_to_date env hq np level l s3 ht2, he] at hb
      simp only [Res.ok.injEq] at hb
      obtain ⟨hr, hs⟩ := hb
      refine ⟨hr.symm, ?_⟩
      rw [← hs]
      split_ifs
      · refine ⟨d ++ [.printf (.upToDate np)], ?_, List.sublist_append_of_sublist_left hsub⟩
        show s3.log ++ [.printf (.upToDate np)] = _
        rw [hd]; simp
      · exact ⟨d, by show s3.log = _; rw [hd]; simp, hsub⟩

/-- C6 at the makefile `T: p1 p2` under keep-going, where the command of
`p1` fails. -/
theorem make_prerequisite_failed_witness :
    (make keepGoing (1 + 1) 0 0 (freshState failFirst)).Ends
      (fun s' => runs 0 0 s'.log = runs 0 0 (freshState failFirst).log) ∧
    ∀ r s', make keepGoing (1 + 1) 0 0 (freshState failFirst) = .ok r s' →
      r = 1 ∧ ∃ d, s'.log = (freshState failFirst).log ++ .call 0 0 :: d ∧
        ((prereqs (entry keepGoing 0 0 (freshState failFirst)) 0).map
          (fun p => Event.call p (0 + 1))).Sublist d :=
  make_prerequisite_failed keepGoing rfl 1 0 0 (freshState failFirst) rfl rfl (by decide)

/-- C7, as stated, fails: in the makefile `all: U T`, `U: P`, `T: P` under
keep-going the command of `P` fails while `P` is made for `U`; `U` is not
built, but the commands of `T` are run all the same. -/
theorem make_forgets_failure :
    (make keepGoing 3 0 0 (freshState shared)).final.map (fun s => s.log) =
      some [.call 0 0, .call 1 1, .call 3 2, .rebuild 3 none 2, .puts "false",
            .system 3 "set -e;false" 1, .warning (.failedToBuild 3),
            .warning (.notBuilt 1), .call 2 1, .call 3 2, .rebuild 2 none 1,
            .puts "echo T", .system 2 "set -e;echo T" 0, .warning (.notBuilt 0)] := by
  decide

/-- Prerequisites that are done cost nothing: each call returns 0 at once and
only logs itself. -/
theorem makeDeps_all_done (env : Env W) (fuel np level : Nat) (ds : List Nat) (l : Locals)
    (s : State W) (hd : ∀ p ∈ ds, (s.names p).n_flag.N_DONE = true) :
    ∃ l' s', makeDeps env (make env (fuel + 1)) np level ds l s = .ok l' s' ∧
      l'.estat = l.estat ∧ s'.names = s.names := by
  induction ds generalizing l s with
  | nil => exact ⟨l, s, rfl, rfl, rfl⟩
  | cons p ds ih =>
    unfold makeDeps
    have h1 : make env (fuel + 1) p (level + 1) s = .ok 0 (s.emit (.call p (level + 1))) :=
      makeBody_done env _ p (level + 1) s (hd p (List.mem_cons_self _ _))
    rw [h1, Res.bind_ok]
    obtain ⟨l', s', h2, h3, h4⟩ := ih
      { l with
        estat := l.estat || decide ((0 : Nat) ≠ 0)
        newer := if !env.quest ∧ ((s.emit (.call p (level + 1))).names np).n_time ≤
            ((s.emit (.call p (level + 1))).names p).n_time then
          xappendword l.newer ((s.emit (.call p (level + 1))).names p).n_name else l.newer
        dtime := max l.dtime ((s.emit (.call p (level + 1))).names p).n_time }
      (s.emit (.call p (level + 1))) (fun q hq => hd q (List.mem_cons_of_mem _ hq))
    exact ⟨l', s', h2, by simpa using h3, h4⟩

/-- C7, amended: under keep-going (and whenever `make` returns), for a
target `T` without `::` outside query mode: if the `make` of a prerequisite
issued while `T` walks its own rules returns non-zero and `T` is out of date
(`n_time <= dtime`), the command block of `T` is not run and `T` is skipped
with the warning "not built due to errors". A prerequisite that is already
done, because it was first made for another target, makes `make` return 0 at
once, whatever happened to its commands; when all prerequisites of `T` are
done, `estat` stays 0 and an out-of-date `T` is handed to `make1`. -/
theorem make_failure_not_remembered (env : Env W) (hq : env.quest = false)
    (fuel np level : Nat) (s : State W) (hdone : (s.names np).n_flag.N_DONE = false)
    (hdbl : (s.names np).n_flag.N_DOUBLE = false) :
    (∀ l s3, makeWalk env (make env fuel) np level s = .ok l s3 →
      (∃ o ∈ observe (make env fuel) level (prereqs (entry env np level s) np)
        (entry env np level s), o.1 ≠ 0) →
      (s3.names np).n_time ≤ l.dtime →
      make env (fuel + 1) np level s =
        .ok 1 ((s3.setDone np).emit (.warning (.notBuilt np)))) ∧
    (∀ p k s1, (s1.names p).n_flag.N_DONE = true →
      make env (fuel + 1) p k s1 = .ok 0 (s1.emit (.call p k))) ∧
    (∀ impdep, resolve env np (probed env np level s) = .ok impdep (entry env np level s) →
      (∀ p ∈ prereqs (entry env np level s) np,
        ((entry env np level s).names p).n_flag.N_DONE = true) →
      ∃ l s3, makeWalk env (make env (fuel + 1)) np level s = .ok l s3 ∧ l.estat = false ∧
        ((s3.names np).n_time ≤ l.dtime →
          (make env (fuel + 1 + 1) np level s).Ends
            (fun s' => runs np level s'.log = runs np level s.log + 1))) := by
  refine ⟨fun l s3 hw hfail ht => ?_, fun p k s1 hp => makeBody_done env _ p k s1 hp,
    fun impdep hres hall => ?_⟩
  · have hmk : ∀ d s1, (make env fuel d (level + 1) s1).Ends
        (Follows (Event.allowed env.quest (level + 1)) s1) :=
      fun d s1 => make_follows env fuel d (level + 1) s1
    obtain ⟨impdep, h2⟩ := walk_single env _ np level hmk s hdbl l s3 hw
    obtain ⟨o1, _, _, _, _⟩ := makeDeps_observe env _ np level _ _ _ _ _ h2
    obtain ⟨_, r2⟩ := walk_single_runs env fuel np level s hdbl l s3 hw
    have he : l.estat = true := by
      rw [o1]
      obtain ⟨o, ho, hne⟩ := hfail
      simp only [Bool.false_or, List.any_eq_true]
      exact ⟨o, ho, by simpa using hne⟩
    rw [make_eq_finish env fuel np level s hdone l s3 hw,
      finish_skip env hq np level l s3 r2 ht he]
  · have hmk : ∀ d s1, (make env (fuel + 1) d (level + 1) s1).Ends
        (Follows (Event.allowed env.quest (level + 1)) s1) :=
      fun d s1 => make_follows env (fuel + 1) d (level + 1) s1
    obtain ⟨l, s3, h1, h2, _⟩ := makeDeps_all_done env fuel np level
      (prereqs (entry env np level s) np) { impdep := impdep } (entry env np level s) hall
    have hw : makeWalk env (make env (fuel + 1)) np level s = .ok l s3 := by
      unfold makeWalk
      rw [hres, Res.bind_ok, makeRules_single env _ np level hmk 0 _ _ _
        ((entry_double env np level np s).trans hdbl)]
      exact h1
    refine ⟨l, s3, hw, h2, fun ht => ?_⟩
    obtain ⟨r1, r2⟩ := walk_single_runs env (fuel + 1) np level s hdbl l s3 hw
    rw [make_eq_finish env (fuel + 1) np level s hdone l s3 hw,
      finish_rebuild env hq np level l s3 r2 ht h2, ← r1]
    exact rebuild_runs env np level l s3

/-- C7, amended, at the makefile `all: U T`, `U: P`, `T: P` under keep-going,
at the moment `T` is made: the log says that `P` failed, `P` is done, and `T`
walks its rules with `estat = 0`. -/
theorem make_failure_not_remembered_witness :
    Event.warning (.failedToBuild 3) ∈ afterU.log ∧
    ∃ l s3, makeWalk keepGoing (make keepGoing (0 + 1)) 2 1 afterU = .ok l s3 ∧
      l.estat = false ∧
      ((s3.names 2).n_time ≤ l.dtime →
        (make keepGoing (0 + 1 + 1) 2 1 afterU).Ends
          (fun s' => runs 2 1 s'.log = runs 2 1 afterU.log + 1)) :=
  ⟨by decide,
    (make_failure_not_remembered keepGoing rfl 0 2 1 afterU rfl rfl).2.2 none rfl
      (by decide)⟩

/-! ## The command layer leaves the name table alone -/

theorem remove_target_names (env : Env W) (s : State W) :
    (remove_target env s).names = s.names := by
  unfold remove_target
  cases s.target with
  | none => simp only; split_ifs <;> rfl
  | some t => simp only; split_ifs <;> rfl

theorem afterShell_names (env : Env W) (np : Nat) (c : String) (s : State W) :
    (afterShell env np c s).names = s.names := by
  unfold afterShell
  simp only
  split_ifs <;> rfl

theorem afterFailure_names (env : Env W) (np : Nat) (c : String) (s : State W) :
    (afterFailure env np c s).names = s.names := by
  unfold afterFailure
  simp only
  split_ifs
  · rw [remove_target_names]; exact afterShell_names env np c s
  · exact afterShell_names env np c s

theorem touch_names (env : Env W) (np : Nat) (s : State W) :
    (touch env np s).names = s.names := by
  unfold touch
  simp only
  split_ifs <;> rfl

theorem Res.Ends.bind_eq {α β : Type} {r : Res W α} {f : α → State W → Res W β}
    {s : State W} (h : r.Ends (fun s' => s'.names = s.names))
    (hf : ∀ a s1, (f a s1).Ends (fun s' => s'.names = s1.names)) :
    (r.bind f).Ends (fun s' => s'.names = s.names) := by
  cases r with
  | ok a s1 =>
    have h2 := hf a s1
    simp only [Res.bind_ok]
    cases hr : f a s1 with
    | ok b s2 => rw [hr] at h2; exact Eq.trans h2 h
    | stop e s2 => rw [hr] at h2; exact Eq.trans h2 h
    | timeout => trivial
  | stop e s1 => exact h
  | timeout => trivial

theorem docmd_names (env : Env W) (np : Nat) (c : String) (estat : Nat) (s : State W) :
    (docmd env np c estat s).Ends (fun s' => s'.names = s.names) := by
  rw [docmd_eq]
  split_ifs
  · exact afterShell_names env np c s
  · exact afterFailure_names env np c s
  · exact afterFailure_names env np c s
  · exact afterShell_names env np c s
  · rfl
  · rfl

theorem docmdsFrom_names (env : Env W) (np : Nat) (cs : List String) (estat : Nat)
    (s : State W) : (docmdsFrom env np cs estat s).Ends (fun s' => s'.names = s.names) := by
  induction cs generalizing estat s with
  | nil => rfl
  | cons c cs ih => exact (docmd_names env np c estat s).bind_eq (fun a s1 => ih a s1)

theorem docmdsRules_names (env : Env W) (np : Nat) (rps : List Rule) (estat : Nat)
    (s : State W) : (docmdsRules env np rps estat s).Ends (fun s' => s'.names = s.names) := by
  induction rps generalizing estat s with
  | nil => rfl
  | cons rp rps ih =>
    exact (docmdsFrom_names env np rp.r_cmd 0 s).bind_eq (fun a s1 => ih _ s1)

/-- Running the commands of a target changes no entry of the name table. -/
theorem make1_names (env : Env W) (np : Nat) (rp : Option Rule) (newer : Option String)
    (implicit : Option Nat) (s : State W) :
    (make1 env np rp newer implicit s).Ends (fun s' => s'.names = s.names) := by
  unfold make1
  simp only
  have h0 := autoMacros_names env np newer implicit s
  have h1 : (match rp with
      | some rule => docmds1 env np rule (autoMacros env np newer implicit s)
      | none => docmds env np (autoMacros env np newer implicit s)).Ends
      (fun s' => s'.names = s.names) := by
    cases rp with
    | none => exact (docmdsRules_names env np _ 0 _).weaken (fun _ h => h.trans h0)
    | some rule => exact (docmdsFrom_names env np _ 0 _).weaken (fun _ h => h.trans h0)
  refine h1.bind_eq (fun a s1 => ?_)
  show (if env.dotouch then touch env np s1 else s1).names = s1.names
  split_ifs
  · exact touch_names env np s1
  · rfl

/-! ## Acyclic graphs stay acyclic -/

theorem ranked_of_rules {rank : Nat → Nat} {s s' : State W} (h : Ranked rank s)
    (hr : ∀ n, ∀ rp ∈ (s'.names n).n_rule, rp ∈ (s.names n).n_rule ∨
      ∀ d ∈ rp.r_dep, rank d < rank n) : Ranked rank s' := by
  intro n rp hrp d hd
  rcases hr n rp hrp with h1 | h1
  · exact h n rp h1 d hd
  · exact h1 d hd

theorem ranked_of_names {rank : Nat → Nat} {s t : State W} (h : Ranked rank s)
    (hn : t.names = s.names) : Ranked rank t :=
  ranked_of_rules h (fun n rp hrp => Or.inl (by rw [hn] at hrp; exact hrp))

theorem ranked_modify {rank : Nat → Nat} {s : State W} (h : Ranked rank s) (np : Nat)
    (f : Name → Name)
    (hf : ∀ rp ∈ (f (s.names np)).n_rule, rp ∈ (s.names np).n_rule ∨
      ∀ d ∈ rp.r_dep, rank d < rank np) : Ranked rank (s.modify np f) := by
  refine ranked_of_rules h (fun n rp hrp => ?_)
  by_cases hn : n = np
  · subst hn
    simp only [State.modify, Function.update_same] at hrp
    exact hf rp hrp
  · simp only [State.modify, Function.update_noteq hn] at hrp
    exact Or.inl hrp

theorem ranked_setTime {rank : Nat → Nat} {s : State W} (h : Ranked rank s) (np : Nat)
    (t : Int) : Ranked rank (s.setTime np t) :=
  ranked_modify h np _ (fun _ hrp => Or.inl hrp)

theorem ranked_setDone {rank : Nat → Nat} {s : State W} (h : Ranked rank s) (np : Nat) :
    Ranked rank (s.setDone np) :=
  ranked_modify h np _ (fun _ hrp => Or.inl hrp)

theorem ranked_addrule {rank : Nat → Nat} {s : State W} (h : Ranked rank s) (np : Nat)
    (dp : List Nat) (cp : List String) (hdp : ∀ d ∈ dp, rank d < rank np) :
    Ranked rank (addrule np dp cp false s) := by
  refine ranked_modify h np _ (fun rp hrp => ?_)
  rcases List.mem_append.1 hrp with h1 | h1
  · exact Or.inl h1
  · rw [List.mem_singleton] at h1
    subst h1
    exact Or.inr hdp

theorem ranked_setRule {rank : Nat → Nat} {s : State W} (h : Ranked rank s) (np i : Nat)
    (r : Rule) (hr : ∀ d ∈ r.r_dep, rank d < rank np) : Ranked rank (s.setRule np i r) := by
  refine ranked_modify h np _ (fun rp hrp => ?_)
  rcases List.mem_or_eq_of_mem_set hrp with h1 | h1
  · exact Or.inl h1
  · subst h1
    exact Or.inr hr

theorem ranked_ruleAt {rank : Nat → Nat} {s : State W} (h : Ranked rank s) (np i : Nat) :
    ∀ d ∈ (s.ruleAt np i).r_dep, rank d < rank np := by
  unfold State.ruleAt
  cases hg : (s.names np).n_rule.get? i with
  | none => intro d hd; simp at hd
  | some rp => exact h np rp (List.get?_mem hg)

theorem ranked_dyndep {rank : Nat → Nat} {env : Env W} (hsearch : RankedSearch rank env)
    {s : State W} (h : Ranked rank s) (np : Nat) (infrule : Option Nat) :
    Ranked rank (dyndep env np infrule s).2 := by
  unfold dyndep
  cases hi : env.implicit s.world s.names np infrule with
  | none => exact h
  | some x =>
    obtain ⟨pp, cmds⟩ := x
    have hpp : rank pp < rank np := hsearch _ _ _ _ _ _ hi
    have h1 : Ranked rank (if (s.names pp).n_time = 0 then modtime env pp s else s) := by
      split_ifs
      · exact ranked_setTime h pp _
      · exact h
    cases infrule with
    | none =>
      refine ranked_addrule h1 np [pp] cmds (fun d hd => ?_)
      rw [List.mem_singleton] at hd
      subst hd
      exact hpp
    | some i =>
      refine ranked_setRule h1 np i _ (fun d hd => ?_)
      rcases List.mem_cons.1 hd with h2 | h2
      · subst h2; exact hpp
      · exact ranked_ruleAt h1 np i d h2

theorem ranked_probed {rank : Nat → Nat} {s : State W} (h : Ranked rank s) (env : Env W)
    (np level : Nat) : Ranked rank (probed env np level s) := by
  have h0 : Ranked rank (s.emit (.call np level)) := h
  unfold probed
  simp only
  split_ifs
  · exact ranked_setTime h0 np _
  · exact h0

theorem ranked_resolve {rank : Nat → Nat} {env : Env W} (hsearch : RankedSearch rank env)
    {s : State W} (h : Ranked rank s) (np : Nat) :
    (resolve env np s).Ends (fun s' => Ranked rank s' ∧ s'.log = s.log) := by
  unfold resolve
  by_cases hD : (!(s.names np).n_flag.N_DOUBLE) = true
  · rw [if_pos hD]
    simp only
    have h2 : Ranked rank (if (!(s.names np).n_rule.any (fun rp => !rp.r_cmd.isEmpty)) = true
          then dyndep env np none s else (none, s)).2 ∧
        (if (!(s.names np).n_rule.any (fun rp => !rp.r_cmd.isEmpty)) = true
          then dyndep env np none s else (none, s)).2.log = s.log := by
      split_ifs
      · exact ⟨ranked_dyndep hsearch h np none, (dyndep_log env np none s).1⟩
      · exact ⟨h, rfl⟩
    generalize (if (!(s.names np).n_rule.any (fun rp => !rp.r_cmd.isEmpty)) = true
          then dyndep env np none s else (none, s)) = x at h2
    obtain ⟨impdep, s1⟩ := x
    simp only
    split_ifs
    · cases env.findname ".DEFAULT" with
      | none => exact h2
      | some dflt =>
        simp only
        cases (s1.names dflt).n_rule with
        | nil => exact h2
        | cons r rs =>
          exact ⟨ranked_addrule h2.1 np [] r.r_cmd (fun d hd => by simp at hd), h2.2⟩
    · exact h2
  · rw [if_neg hD]
    exact ⟨h, rfl⟩

/-! ## At most one run of `make1` for each rule -/

theorem ranOf_append (a b : List Event) : ranOf (a ++ b) = ranOf a ++ ranOf b :=
  List.filterMap_append a b Event.ran

theorem ranOf_plain (d : List Event) (h : ∀ e ∈ d, Event.plain e) : ranOf d = [] := by
  refine List.filterMap_eq_nil_iff.2 (fun e he => ?_)
  have h1 := h e he
  cases e with
  | call m k => exact h1.elim
  | rebuild m rp k => exact h1.elim
  | _ => rfl

theorem Res.Holds.of_ends {α : Type} {r : Res W α} {Q Q' : State W → Prop}
    (h : r.Ends Q) (hq : ∀ s, Q s → Q' s) : r.Holds Q Q' := by
  cases r with
  | ok a s1 => exact h
  | stop e s1 => exact hq _ h
  | timeout => trivial

theorem Res.Holds.bind_holds {α β : Type} {r : Res W α} {f : α → State W → Res W β}
    {A B C D : State W → Prop} (h : r.Holds A B)
    (hf : ∀ a s1, r = .ok a s1 → A s1 → (f a s1).Holds C D) (hs : ∀ s1, B s1 → D s1) :
    (r.bind f).Holds C D := by
  cases r with
  | ok a s1 => exact hf a s1 rfl h
  | stop e s1 => exact hs s1 h
  | timeout => trivial

theorem Res.Ends.bind_ends {α β : Type} {r : Res W α} {f : α → State W → Res W β}
    {A B : State W → Prop} (h : r.Ends A)
    (hf : ∀ a s1, r = .ok a s1 → A s1 → (f a s1).Ends B) (hs : ∀ s1, A s1 → B s1) :
    (r.bind f).Ends B := by
  cases r with
  | ok a s1 => exact hf a s1 rfl h
  | stop e s1 => exact hs s1 h
  | timeout => trivial

/-- A step of the frame that runs nothing keeps the frame where it is. -/
theorem walked_step {rank : Nat → Nat} {np i : Nat} {sb s s' : State W}
    (h : Walked rank np i sb s) (hr : Ranked rank s')
    (hd : ∀ m, (s.names m).n_flag.N_DONE = true → (s'.names m).n_flag.N_DONE = true)
    (d' : List Event) (hl : s'.log = s.log ++ d') (hn : ranOf d' = []) :
    Walked rank np i sb s' := by
  obtain ⟨_, hm, d, hlog, hnd, hx⟩ := h
  refine ⟨hr, fun m h1 => hd m (hm m h1), d ++ d', by rw [hl, hlog, List.append_assoc], ?_, ?_⟩
  · rw [ranOf_append, hn, List.append_nil]; exact hnd
  · rw [ranOf_append, hn, List.append_nil]
    intro x hx1
    rcases hx x hx1 with h1 | ⟨h1, h2, h3⟩
    · exact Or.inl h1
    · exact Or.inr ⟨h1, h2, hd _ h3⟩

theorem walked_succ {rank : Nat → Nat} {np i : Nat} {sb s : State W}
    (h : Walked rank np i sb s) : Walked rank np (i + 1) sb s := by
  obtain ⟨hr, hm, d, hlog, hnd, hx⟩ := h
  refine ⟨hr, hm, d, hlog, hnd, fun x hx1 => ?_⟩
  rcases hx x hx1 with ⟨h1, j, hj, h2⟩ | h1
  · exact Or.inl ⟨h1, j, Nat.lt_succ_of_lt hj, h2⟩
  · exact Or.inr h1

/-- Rule `i` of the `::` target `np` is run: the frame moves on to rule
`i + 1`. -/
theorem walked_run {rank : Nat → Nat} {np i : Nat} {sb s s' : State W}
    (h : Walked rank np i sb s) (hr : Ranked rank s')
    (hd : ∀ m, (s.names m).n_flag.N_DONE = true → (s'.names m).n_flag.N_DONE = true)
    (d' : List Event) (hl : s'.log = s.log ++ d') (hn : ranOf d' = [(np, some i)]) :
    Walked rank np (i + 1) sb s' := by
  obtain ⟨_, hm, d, hlog, hnd, hx⟩ := h
  refine ⟨hr, fun m h1 => hd m (hm m h1), d ++ d', by rw [hl, hlog, List.append_assoc], ?_, ?_⟩
  · rw [ranOf_append, hn]
    refine List.Nodup.append hnd (List.nodup_singleton _) ?_
    rw [List.disjoint_left]
    intro x hx1 hx2
    rw [List.mem_singleton] at hx2
    subst hx2
    rcases hx _ hx1 with ⟨_, j, hj, h2⟩ | ⟨h1, _, _⟩
    · simp only [Option.some.injEq] at h2
      omega
    · exact Nat.lt_irrefl _ h1
  · rw [ranOf_append, hn]
    intro x hx1
    rcases List.mem_append.1 hx1 with h1 | h1
    · rcases hx x h1 with ⟨h2, j, hj, h3⟩ | ⟨h2, h3, h4⟩
      · exact Or.inl ⟨h2, j, Nat.lt_succ_of_lt hj, h3⟩
      · exact Or.inr ⟨h2, h3, hd _ h4⟩
    · rw [List.mem_singleton] at h1
      subst h1
      exact Or.inl ⟨rfl, i, Nat.lt_succ_self i, rfl⟩

theorem walked_to_made {rank : Nat → Nat} {np i : Nat} {sb s : State W}
    (h : Walked rank np i sb s) (hsb : (sb.names np).n_flag.N_DONE = false) :
    Made rank np sb s := by
  obtain ⟨hr, _, d, hlog, hnd, hx⟩ := h
  refine ⟨hr, d, hlog, hnd, fun x hx1 => ?_⟩
  rcases hx x hx1 with ⟨h1, _⟩ | ⟨h1, h2, _⟩
  · rw [h1]; exact ⟨le_refl _, hsb⟩
  · exact ⟨le_of_lt h1, h2⟩

theorem walked_to_madeOk {rank : Nat → Nat} {np i : Nat} {sb s : State W}
    (h : Walked rank np i sb s) (hsb : (sb.names np).n_flag.N_DONE = false)
    (hs : (s.names np).n_flag.N_DONE = true) : MadeOk rank np sb s := by
  obtain ⟨hr, _, d, hlog, hnd, hx⟩ := h
  refine ⟨hr, d, hlog, hnd, fun x hx1 => ?_⟩
  rcases hx x hx1 with ⟨h1, _⟩ | ⟨h1, h2, h3⟩
  · rw [h1]; exact ⟨le_refl _, hsb, hs⟩
  · exact ⟨le_of_lt h1, h2, h3⟩

/-- The final decision runs all rules of `np`: one more run, different from
all before. -/
theorem walked_final {rank : Nat → Nat} {np i : Nat} {sb s s' : State W}
    (h : Walked rank np i sb s) (hsb : (sb.names np).n_flag.N_DONE = false)
    (hr : Ranked rank s')
    (hd : ∀ m, (s.names m).n_flag.N_DONE = true → (s'.names m).n_flag.N_DONE = true)
    (hs : (s'.names np).n_flag.N_DONE = true)
    (d' : List Event) (hl : s'.log = s.log ++ d') (hn : ranOf d' = [(np, none)]) :
    MadeOk rank np sb s' := by
  obtain ⟨_, _, d, hlog, hnd, hx⟩ := h
  refine ⟨hr, d ++ d', by rw [hl, hlog, List.append_assoc], ?_, ?_⟩
  · rw [ranOf_append, hn]
    refine List.Nodup.append hnd (List.nodup_singleton _) ?_
    rw [List.disjoint_left]
    intro x hx1 hx2
    rw [List.mem_singleton] at hx2
    subst hx2
    rcases hx _ hx1 with ⟨_, j, _, h2⟩ | ⟨h1, _, _⟩
    · exact Option.noConfusion h2
    · exact Nat.lt_irrefl _ h1
  · rw [ranOf_append, hn]
    intro x hx1
    rcases List.mem_append.1 hx1 with h1 | h1
    · rcases hx x h1 with ⟨h2, _⟩ | ⟨h2, h3, h4⟩
      · rw [h2]; exact ⟨le_refl _, hsb, hs⟩
      · exact ⟨le_of_lt h2, h3, hd _ h4⟩
    · rw [List.mem_singleton] at h1
      subst h1
      exact ⟨le_refl _, hsb, hs⟩

theorem madeOk_to_made {rank : Nat → Nat} {np : Nat} {sb s : State W}
    (h : MadeOk rank np sb s) : Made rank np sb s := by
  obtain ⟨hr, d, hlog, hnd, hx⟩ := h
  exact ⟨hr, d, hlog, hnd, fun x hx1 => ⟨(hx x hx1).1, (hx x hx1).2.1⟩⟩

/-- The `make` of a prerequisite returned: the frame of `np` stays where it
is. -/
theorem walked_child {rank : Nat → Nat} {np i p : Nat} {sb s s1 : State W}
    (h : Walked rank np i sb s) (hp : rank p < rank np) (hc : MadeOk rank p s s1)
    (hd : ∀ m, (s.names m).n_flag.N_DONE = true → (s1.names m).n_flag.N_DONE = true) :
    Walked rank np i sb s1 := by
  obtain ⟨_, hm, d, hlog, hnd, hx⟩ := h
  obtain ⟨hr, dk, hlk, hnk, hxk⟩ := hc
  refine ⟨hr, fun m h1 => hd m (hm m h1), d ++ dk, by rw [hlk, hlog, List.append_assoc], ?_, ?_⟩
  · rw [ranOf_append]
    refine List.Nodup.append hnd hnk ?_
    rw [List.disjoint_left]
    intro x hx1 hx2
    obtain ⟨k1, k2, _⟩ := hxk x hx2
    rcases hx x hx1 with ⟨h1, _⟩ | ⟨_, _, h3⟩
    · rw [h1] at k1; omega
    · rw [h3] at k2; exact Bool.noConfusion k2
  · rw [ranOf_append]
    intro x hx1
    rcases List.mem_append.1 hx1 with h1 | h1
    · rcases hx x h1 with h2 | ⟨h2, h3, h4⟩
      · exact Or.inl h2
      · exact Or.inr ⟨h2, h3, hd _ h4⟩
    · obtain ⟨k1, k2, k3⟩ := hxk x h1
      refine Or.inr ⟨lt_of_le_of_lt k1 hp, ?_, k3⟩
      cases hb : (sb.names x.1).n_flag.N_DONE with
      | false => rfl
      | true => rw [hm _ hb] at k2; exact Bool.noConfusion k2

/-- The `make` of a prerequisite stopped the run. -/
theorem made_child {rank : Nat → Nat} {np i p : Nat} {sb s s1 : State W}
    (h : Walked rank np i sb s) (hsb : (sb.names np).n_flag.N_DONE = false)
    (hp : rank p < rank np) (hc : Made rank p s s1) : Made rank np sb s1 := by
  obtain ⟨_, hm, d, hlog, hnd, hx⟩ := h
  obtain ⟨hr, dk, hlk, hnk, hxk⟩ := hc
  refine ⟨hr, d ++ dk, by rw [hlk, hlog, List.append_assoc], ?_, ?_⟩
  · rw [ranOf_append]
    refine List.Nodup.append hnd hnk ?_
    rw [List.disjoint_left]
    intro x hx1 hx2
    obtain ⟨k1, k2⟩ := hxk x hx2
    rcases hx x hx1 with ⟨h1, _⟩ | ⟨_, _, h3⟩
    · rw [h1] at k1; omega
    · rw [h3] at k2; exact Bool.noConfusion k2
  · rw [ranOf_append]
    intro x hx1
    rcases List.mem_append.1 hx1 with h1 | h1
    · rcases hx x h1 with ⟨h2, _⟩ | ⟨h2, h3, _⟩
      · rw [h2]; exact ⟨le_refl _, hsb⟩
      · exact ⟨le_of_lt h2, h3⟩
    · obtain ⟨k1, k2⟩ := hxk x h1
      refine ⟨le_of_lt (lt_of_le_of_lt k1 hp), ?_⟩
      cases hb : (sb.names x.1).n_flag.N_DONE with
      | false => rfl
      | true => rw [hm _ hb] at k2; exact Bool.noConfusion k2

theorem makeDeps_walked {rank : Nat → Nat} (env : Env W)
    (mk : Nat → Nat → State W → Res W Nat) (np level i : Nat)
    (hmk : ∀ d s, Ranked rank s → (mk d (level + 1) s).Holds (MadeOk rank d s) (Made rank d s))
    (hmkF : ∀ d s, (mk d (level + 1) s).Ends
      (Follows (Event.allowed env.quest (level + 1)) s))
    (ds : List Nat) (hds : ∀ d ∈ ds, rank d < rank np) (l : Locals) (sb s : State W)
    (hsb : (sb.names np).n_flag.N_DONE = false) (h : Walked rank np i sb s) :
    (makeDeps env mk np level ds l s).Holds (Walked rank np i sb) (Made rank np sb) := by
  induction ds generalizing l s with
  | nil => exact h
  | cons d ds ih =>
    unfold makeDeps
    have hd : rank d < rank np := hds d (List.mem_cons_self _ _)
    refine Res.Holds.bind_holds (hmk d s h.1) (fun a s1 hr hq => ?_)
      (fun s1 hq => made_child h hsb hd hq)
    have hF := hmkF d s
    rw [hr] at hF
    exact ih (fun x hx => hds x (List.mem_cons_of_mem _ hx)) _ s1
      (walked_child h hd hq (fun m => (hF.2 m).2.1))

theorem ruleHead_walked {rank : Nat → Nat} {env : Env W} (hsearch : RankedSearch rank env)
    (np i : Nat) (rp : Rule) (l : Locals) (sb s : State W)
    (hrp : ∀ d ∈ rp.r_dep, rank d < rank np) (h : Walked rank np i sb s) :
    (ruleHead env np i rp l s).Ends (Walked rank np i sb) ∧
    ∀ rp1 l1 s1, ruleHead env np i rp l s = .ok (rp1, l1) s1 →
      ∀ d ∈ rp1.r_dep, rank d < rank np := by
  unfold ruleHead
  by_cases hD : (s.names np).n_flag.N_DOUBLE = true
  · rw [if_pos hD]
    by_cases hc : rp.r_cmd.isEmpty = true
    · rw [if_pos hc]
      have h1 := ranked_dyndep hsearch h.1 np (some i)
      have h2 := (dyndep_log env np (some i) s).1
      have h3 := Follows.dyndep (P := fun _ => True) env np (some i) s
      rcases hd : dyndep env np (some i) s with ⟨_ | pp, s1⟩
      · rw [hd] at h1 h2 h3
        simp only [Res.bind_stop]
        exact ⟨walked_step h h1 (fun m => (h3.2 m).2.1) [] (by simpa using h2) rfl,
          fun _ _ _ hh => Res.noConfusion hh⟩
      · rw [hd] at h1 h2 h3
        simp only [Res.bind_ok]
        refine ⟨walked_step h h1 (fun m => (h3.2 m).2.1) [] (by simpa using h2) rfl, ?_⟩
        intro rp1 l1 s2 hh
        simp only [Res.ok.injEq, Prod.mk.injEq] at hh
        obtain ⟨⟨hh1, _⟩, hh2⟩ := hh
        subst hh1
        exact ranked_ruleAt h1 np i
    · rw [if_neg hc]
      simp only [Res.bind_ok]
      refine ⟨h, ?_⟩
      intro rp1 l1 s2 hh
      simp only [Res.ok.injEq, Prod.mk.injEq] at hh
      obtain ⟨⟨hh1, _⟩, _⟩ := hh
      subst hh1
      exact hrp
  · rw [if_neg hD]
    refine ⟨h, ?_⟩
    intro rp1 l1 s2 hh
    simp only [Res.ok.injEq, Prod.mk.injEq] at hh
    obtain ⟨⟨hh1, _⟩, _⟩ := hh
    subst hh1
    exact hrp

/-- What a run of `make1` started right after a `rebuild` marker leaves: the
name table as it was, and a log grown by the marker and plain events. -/
theorem make1_after_marker (env : Env W) (np level : Nat) (rp : Option Rule)
    (tag : Option Nat) (newer : Option String) (implicit : Option Nat) (s : State W) :
    (make1 env np rp newer implicit (s.emit (.rebuild np tag level))).Ends
      (fun s' => s'.names = s.names ∧
        ∃ d, s'.log = s.log ++ d ∧ ranOf d = [(np, tag)]) := by
  have h1 := make1_names env np rp newer implicit (s.emit (.rebuild np tag level))
  have h2 := make1_follows env np rp newer implicit (s.emit (.rebuild np tag level))
  cases hr : make1 env np rp newer implicit (s.emit (.rebuild np tag level)) with
  | timeout => trivial
  | ok a s1 =>
    rw [hr] at h1 h2
    obtain ⟨⟨d, hd, hp⟩, _⟩ := h2
    refine ⟨h1, .rebuild np tag level :: d, by rw [hd]; simp [State.emit], ?_⟩
    show ranOf ([.rebuild np tag level] ++ d) = _
    rw [ranOf_append, ranOf_plain d hp]
    rfl
  | stop e s1 =>
    rw [hr] at h1 h2
    obtain ⟨⟨d, hd, hp⟩, _⟩ := h2
    refine ⟨h1, .rebuild np tag level :: d, by rw [hd]; simp [State.emit], ?_⟩
    show ranOf ([.rebuild np tag level] ++ d) = _
    rw [ranOf_append, ranOf_plain d hp]
    rfl

theorem ruleTail_walked {rank : Nat → Nat} (env : Env W) (np level i : Nat) (rp : Rule)
    (l : Locals) (sb s : State W) (h : Walked rank np i sb s) :
    (ruleTail env np level i rp l s).Ends (Walked rank np (i + 1) sb) := by
  unfold ruleTail
  by_cases hD : (s.names np).n_flag.N_DOUBLE = true
  · rw [if_pos hD]
    refine Res.Ends.bind_ends (A := Walked rank np (i + 1) sb) ?_ ?_ (fun _ hq => hq)
    · by_cases h2 : (!env.quest) = true ∧ (s.names np).n_time ≤ l.dtime
      · rw [if_pos h2]
        by_cases h3 : l.estat = false
        · rw [if_pos h3]
          refine Res.Ends.bind_ends
            (make1_after_marker env np level (some rp) (some i) l.newer l.impdep s)
            (fun a s1 _ hq => ?_) (fun s1 hq => ?_)
          · obtain ⟨hn, d, hd, hr⟩ := hq
            exact walked_run h (ranked_of_names h.1 hn) (fun m hm => by rw [hn]; exact hm)
              d hd hr
          · obtain ⟨hn, d, hd, hr⟩ := hq
            exact walked_run h (ranked_of_names h.1 hn) (fun m hm => by rw [hn]; exact hm)
              d hd hr
        · rw [if_neg h3]
          exact walked_succ h
      · rw [if_neg h2]
        exact walked_succ h
    · intro l1 s1 _ hq
      cases l1.impdep with
      | none => exact hq
      | some ip =>
        simp only
        cases hdp : (s1.ruleAt np i).r_dep with
        | nil => exact hq
        | cons d dp =>
          have hF := Follows.setRule (P := fun _ => True) s1 np i ⟨dp, []⟩
          refine walked_step hq (ranked_setRule hq.1 np i _ (fun x hx => ?_))
            (fun m => (hF.2 m).2.1) [] (by simp [State.setRule, State.modify]) rfl
          exact ranked_ruleAt hq.1 np i x (by rw [hdp]; exact List.mem_cons_of_mem _ hx)
  · rw [if_neg hD]
    exact walked_succ h

theorem makeRules_walked {rank : Nat → Nat} {env : Env W} (hsearch : RankedSearch rank env)
    (mk : Nat → Nat → State W → Res W Nat) (np level : Nat)
    (hmk : ∀ d s, Ranked rank s → (mk d (level + 1) s).Holds (MadeOk rank d s) (Made rank d s))
    (hmkF : ∀ d s, (mk d (level + 1) s).Ends
      (Follows (Event.allowed env.quest (level + 1)) s))
    (i : Nat) (rps : List Rule) (hrps : ∀ rp ∈ rps, ∀ d ∈ rp.r_dep, rank d < rank np)
    (l : Locals) (sb s : State W) (hsb : (sb.names np).n_flag.N_DONE = false)
    (h : Walked rank np i sb s) :
    (makeRules env mk np level i rps l s).Holds (fun s' => ∃ j, Walked rank np j sb s')
      (Made rank np sb) := by
  induction rps generalizing i l s with
  | nil => exact ⟨i, h⟩
  | cons rp rps ih =>
    unfold makeRules
    obtain ⟨h1, h2⟩ := ruleHead_walked hsearch np i rp l sb s
      (hrps rp (List.mem_cons_self _ _)) h
    refine Res.Holds.bind_holds (Res.Holds.of_ends h1 (fun _ hq => walked_to_made hq hsb))
      (fun a s1 hr hq => ?_) (fun _ hq => hq)
    obtain ⟨rp1, l1⟩ := a
    refine Res.Holds.bind_holds
      (makeDeps_walked env mk np level i hmk hmkF rp1.r_dep (h2 rp1 l1 s1 hr) l1 sb s1 hsb hq)
      (fun l2 s2 _ hq2 => ?_) (fun _ hq => hq)
    refine Res.Holds.bind_holds
      (Res.Holds.of_ends (ruleTail_walked env np level i rp1 l2 sb s2 hq2)
        (fun _ hq => walked_to_made hq hsb))
      (fun l3 s3 _ hq3 => ?_) (fun _ hq => hq)
    exact ih (i + 1) (fun x hx => hrps x (List.mem_cons_of_mem _ hx)) l3 s3 hq3

theorem setDone_done (s : State W) (np : Nat) :
    ((s.setDone np).names np).n_flag.N_DONE = true := by
  simp [State.setDone, State.modify]

theorem setTime_flag (s : State W) (np m : Nat) (t : Int) :
    ((s.setTime np t).names m).n_flag = (s.names m).n_flag := by
  by_cases h : m = np
  · subst h; simp [State.setTime, State.modify]
  · simp [State.setTime, State.modify, Function.update_noteq h]

theorem finish_made {rank : Nat → Nat} (env : Env W) (np level j : Nat) (l : Locals)
    (sb s3 : State W) (hsb : (sb.names np).n_flag.N_DONE = false)
    (h : Walked rank np j sb s3) :
    (finish env np level l s3).Holds (MadeOk rank np sb) (Made rank np sb) := by
  have hF := Follows.setDone (P := fun _ => True) s3 np
  have hW : Walked rank np j sb (s3.setDone np) :=
    walked_step h (ranked_setDone h.1 np) (fun m => (hF.2 m).2.1) [] (by simp) rfl
  have hdn := setDone_done s3 np
  unfold finish
  simp only
  by_cases hq : env.quest = true
  · rw [if_pos hq]
    split_ifs
    · refine walked_to_madeOk (walked_step hW (ranked_setTime
        (ranked_of_names hW.1 (t := { s3.setDone np with world := (env.time s3.world).2 }) rfl)
        np _) (fun m hm => ?_) [] (by simp [State.setTime, State.modify]) rfl) hsb ?_
      · rw [setTime_flag]; exact hm
      · rw [setTime_flag]; exact hdn
    · exact walked_to_madeOk hW hsb hdn
  · rw [if_neg hq]
    by_cases h1 : ((s3.setDone np).names np).n_time ≤ l.dtime ∧
        (!((s3.setDone np).names np).n_flag.N_DOUBLE) = true
    · rw [if_pos h1]
      by_cases h2 : l.estat = false
      · rw [if_pos h2]
        have hm := make1_after_marker env np level none none l.newer l.impdep (s3.setDone np)
        cases hr : make1 env np none l.newer l.impdep
            ((s3.setDone np).emit (.rebuild np none level)) with
        | timeout => trivial
        | stop e s1 =>
          rw [hr] at hm
          obtain ⟨hn, d, hd, hran⟩ := hm
          exact madeOk_to_made (walked_final hW hsb (ranked_of_names hW.1 hn)
            (fun m hm => by rw [hn]; exact hm) (by rw [hn]; exact hdn) d hd hran)
        | ok a s1 =>
          rw [hr] at hm
          obtain ⟨hn, d, hd, hran⟩ := hm
          simp only [Res.bind_ok]
          refine walked_final hW hsb (ranked_setTime (ranked_of_names hW.1
              (t := { s1 with world := (env.time s1.world).2 }) hn) np _)
            (fun m hm => ?_) ?_ d (by simpa [State.setTime, State.modify] using hd) hran
          · rw [setTime_flag]
            show (s1.names m).n_flag.N_DONE = true
            rw [hn]; exact hm
          · rw [setTime_flag]
            show (s1.names np).n_flag.N_DONE = true
            rw [hn]; exact hdn
      · rw [if_neg h2]
        exact walked_to_madeOk (walked_step hW hW.1 (fun _ hm => hm)
          [.warning (.notBuilt np)] rfl rfl) hsb hdn
    · rw [if_neg h1]
      split_ifs
      · exact walked_to_madeOk (walked_step hW hW.1 (fun _ hm => hm)
          [.printf (.upToDate np)] rfl rfl) hsb hdn
      · exact walked_to_madeOk hW hsb hdn

theorem makeBody_made {rank : Nat → Nat} {env : Env W} (hsearch : RankedSearch rank env)
    (mk : Nat → Nat → State W → Res W Nat) (np level : Nat)
    (hmk : ∀ d s, Ranked rank s → (mk d (level + 1) s).Holds (MadeOk rank d s) (Made rank d s))
    (hmkF : ∀ d s, (mk d (level + 1) s).Ends
      (Follows (Event.allowed env.quest (level + 1)) s))
    (s : State W) (hr : Ranked rank s) :
    (makeBody env mk np level s).Holds (MadeOk rank np s) (Made rank np s) := by
  cases hd : (s.names np).n_flag.N_DONE with
  | true =>
    rw [makeBody_done env mk np level s hd]
    exact ⟨hr, [.call np level], rfl, List.nodup_nil, fun x hx => by simp [ranOf, Event.ran] at hx⟩
  | false =>
    rw [makeBody_eq env mk np level s hd]
    have h0 : Walked rank np 0 s (probed env np level s) :=
      ⟨ranked_probed hr env np level, fun m hm => by rw [probed_flag]; exact hm,
        [.call np level], (probed_log env np level s).1, List.nodup_nil,
        fun x hx => by simp [ranOf, Event.ran] at hx⟩
    have h1 := ranked_resolve hsearch h0.1 np
    have h2 := resolve_follows (fun _ => True) env np (probed env np level s)
    refine Res.Holds.bind_holds (A := fun s' => ∃ j, Walked rank np j s s')
      (B := Made rank np s) ?_ (fun l s3 _ hq => ?_) (fun _ hq => hq)
    · unfold makeWalk
      cases hres : resolve env np (probed env np level s) with
      | timeout => trivial
      | stop e s2 =>
        rw [hres] at h1 h2
        exact walked_to_made (walked_step h0 h1.1 (fun m => (h2.2 m).2.1) []
          (by simpa using h1.2) rfl) hd
      | ok impdep s2 =>
        rw [hres] at h1 h2
        simp only [Res.bind_ok]
        exact makeRules_walked hsearch mk np level hmk hmkF 0 _ (fun rp hrp => h1.1 np rp hrp)
          _ s s2 hd (walked_step h0 h1.1 (fun m => (h2.2 m).2.1) [] (by simpa using h1.2) rfl)
    · obtain ⟨j, hj⟩ := hq
      exact finish_made env np level j l s s3 hd hj

/-- On an acyclic graph a call of `make` adds runs of `make1` that are all
different, for names that were not done when it started; when it returns
these names are done. -/
theorem make_made {rank : Nat → Nat} {env : Env W} (hsearch : RankedSearch rank env)
    (fuel np level : Nat) (s : State W) (hr : Ranked rank s) :
    (make env fuel np level s).Holds (MadeOk rank np s) (Made rank np s) := by
  induction fuel generalizing np level s with
  | zero => trivial
  | succ fuel ih =>
    exact makeBody_made hsearch _ np level (fun d s1 h1 => ih d (level + 1) s1 h1)
      (fun d s1 => make_follows env fuel d (level + 1) s1) s hr

/-- C8: on an acyclic graph, starting from a state in which every name whose
commands have been run is done and no run is recorded twice (as at the start
of an invocation, when the log is empty): a call of `make` never clears
`N_DONE`; in the state it ends in, returning or not, the log records no run
of `make1` twice, neither of all rules of a target without `::` nor of one
rule of a `::` target; and when it returns the starting condition holds
again, so this goes on through the whole invocation. A call of `make` on a
name that is done returns 0 and only logs the call: nothing is probed, made
or run. -/
theorem make_done_once (env : Env W) (rank : Nat → Nat) (hsearch : RankedSearch rank env)
    (fuel np level : Nat) (s : State W) (hr : Ranked rank s) (ht : Tidy s) :
    (make env fuel np level s).Ends (fun s' =>
      (∀ m, (s.names m).n_flag.N_DONE = true → (s'.names m).n_flag.N_DONE = true) ∧
      (ranOf s'.log).Nodup ∧ Ranked rank s') ∧
    (∀ r s', make env fuel np level s = .ok r s' → Tidy s') ∧
    (∀ m k st, (st.names m).n_flag.N_DONE = true →
      make env (fuel + 1) m k st = .ok 0 (st.emit (.call m k))) := by
  have h1 := make_made hsearch fuel np level s hr
  have h2 := make_follows env fuel np level s
  have key : ∀ s', Made rank np s s' → (ranOf s'.log).Nodup := by
    rintro s' ⟨_, d, hd, hnd, hx⟩
    rw [hd, ranOf_append]
    refine List.Nodup.append ht.1 hnd ?_
    rw [List.disjoint_left]
    intro x hx1 hx2
    have h3 := ht.2 x hx1
    rw [(hx x hx2).2] at h3
    exact Bool.noConfusion h3
  refine ⟨?_, ?_, fun m k st hm => makeBody_done env _ m k st hm⟩
  · cases hres : make env fuel np level s with
    | timeout => trivial
    | ok r s' =>
      rw [hres] at h1 h2
      exact ⟨fun m => (h2.2 m).2.1, key s' (madeOk_to_made h1), h1.1⟩
    | stop e s' =>
      rw [hres] at h1 h2
      exact ⟨fun m => (h2.2 m).2.1, key s' h1, h1.1⟩
  · intro r s' hres
    rw [hres] at h1 h2
    refine ⟨key s' (madeOk_to_made h1), ?_⟩
    obtain ⟨_, d, hd, _, hx⟩ := h1
    rw [hd, ranOf_append]
    intro x hx1
    rcases List.mem_append.1 hx1 with h3 | h3
    · exact (h2.2 x.1).2.1 (ht.2 x h3)
    · exact (hx x h3).2.2

/-- C8 at the makefile `all: U T`, `U: P`, `T: P` under keep-going. -/
theorem make_done_once_witness :
    (make keepGoing 3 0 0 (freshState shared)).Ends (fun s' =>
      (∀ m, ((freshState shared).names m).n_flag.N_DONE = true →
        (s'.names m).n_flag.N_DONE = true) ∧
      (ranOf s'.log).Nodup ∧ Ranked sharedRank s') ∧
    (∀ r s', make keepGoing 3 0 0 (freshState shared) = .ok r s' → Tidy s') ∧
    (∀ m k st, (st.names m).n_flag.N_DONE = true →
      make keepGoing (3 + 1) m k st = .ok 0 (st.emit (.call m k))) :=
  make_done_once keepGoing sharedRank
    (fun _ _ _ _ _ _ h => Option.noConfusion h) 3 0 0 (freshState shared)
    (by
      intro n rp hrp d hd
      rcases n with _ | _ | _ | _ | n
      · simp only [freshState, shared, List.mem_singleton] at hrp
        subst hrp
        simp only [List.mem_cons, List.mem_singleton, List.not_mem_nil, or_false] at hd
        rcases hd with hd | hd <;> subst hd <;> decide
      · simp only [freshState, shared, List.mem_singleton] at hrp
        subst hrp
        simp only [List.mem_singleton] at hd
        subst hd
        decide
      · simp only [freshState, shared, List.mem_singleton] at hrp
        subst hrp
        simp only [List.mem_singleton] at hd
        subst hd
        decide
      · simp only [freshState, shared, List.mem_singleton] at hrp
        subst hrp
        simp at hd
      · simp [freshState, shared] at hrp)
    ⟨List.nodup_nil, fun x hx => by simp [freshState, ranOf] at hx⟩

/-! ## The command layer: removal, execution and echo -/

/-- With no target being built `remove_target` does nothing. -/
theorem remove_target_none (env : Env W) (s : State W) (h : s.target = none) :
    remove_target env s = s := by
  unfold remove_target
  rw [h]
  split_ifs <;> rfl

/-- After `system` returned no target is being built (make.c:64). -/
theorem afterShell_target (env : Env W) (np : Nat) (c : String) (s : State W) :
    (afterShell env np c s).target = none := by
  simp [afterShell, State.emit]

/-- The call of `remove_target` at make.c:70 finds no target. -/
theorem afterFailure_eq (env : Env W) (np : Nat) (c : String) (s : State W) :
    afterFailure env np c s = (afterShell env np c s).emit (.warning (.failedToBuild np)) := by
  unfold afterFailure
  split_ifs
  · exact remove_target_none env _ (by simp [State.emit, afterShell_target])
  · rfl

/-- What one turn of the loop of `docmds1` adds to the log. -/
theorem docmd_log (env : Env W) (np : Nat) (c : String) (estat : Nat) (s : State W) :
    (docmd env np c estat s).Ends (fun s' => s'.log = s.log ++
      ((if cmdEchoed env np c s then [Event.puts (cmdText env np c s)] else []) ++
        if cmdExecuted env np c s then
          Event.system np (shellText env np c s) (shellStatus env np c s) ::
            (if shellStatus env np c s ≠ -1 ∧ shellStatus env np c s ≠ 0 ∧
                cmdIgnored env np c s = false
              then [Event.warning (.failedToBuild np)] else [])
        else [])) := by
  rw [docmd_eq]
  by_cases h1 : cmdExecuted env np c s = true
  · by_cases h2 : shellStatus env np c s = -1
    · by_cases h4 : cmdEchoed env np c s = true <;>
        simp [Res.Ends, h1, h2, h4, afterShell, State.emit]
    · by_cases h3 : shellStatus env np c s ≠ 0 ∧ cmdIgnored env np c s = false
      · by_cases h4 : cmdEchoed env np c s = true <;> by_cases h5 : env.errcont = true <;>
          simp [Res.Ends, h1, h2, h3, h4, h5, afterFailure_eq, afterShell, State.emit]
      · by_cases h4 : cmdEchoed env np c s = true <;>
          simp [Res.Ends, h1, h2, h3, h4, afterShell, State.emit]
  · by_cases h4 : cmdEchoed env np c s = true <;> simp [Res.Ends, h1, h4, State.emit]

/-- The commands one turn of the loop hands to the shell: the command itself
when it is executed, none otherwise. -/
theorem docmd_submitted (env : Env W) (np : Nat) (c : String) (estat : Nat) (s : State W) :
    (docmd env np c estat s).Ends (fun s' => ∃ d, s'.log = s.log ++ d ∧
      submitted d = if cmdExecuted env np c s then [(np, shellText env np c s)] else []) := by
  have h := docmd_log env np c estat s
  cases hr : docmd env np c estat s with
  | timeout => trivial
  | ok e s' =>
    rw [hr] at h
    refine ⟨_, h, ?_⟩
    by_cases h1 : cmdExecuted env np c s = true <;> by_cases h4 : cmdEchoed env np c s = true <;>
      by_cases h3 : shellStatus env np c s ≠ -1 ∧ shellStatus env np c s ≠ 0 ∧
        cmdIgnored env np c s = false <;>
      simp [submitted, Event.shell, h1, h4, h3]
  | stop e s' =>
    rw [hr] at h
    refine ⟨_, h, ?_⟩
    by_cases h1 : cmdExecuted env np c s = true <;> by_cases h4 : cmdEchoed env np c s = true <;>
      by_cases h3 : shellStatus env np c s ≠ -1 ∧ shellStatus env np c s ≠ 0 ∧
        cmdIgnored env np c s = false <;>
      simp [submitted, Event.shell, h1, h4, h3]

/-- C11: the code does not do what the sentence says. In `docmds1` the global
`target` is reset (make.c:64) before `remove_target` is called (make.c:70), so
for every command the state after a reported failure is the state after the
shell returned plus the warning "failed to build", and the loop adds neither a
call of `unlink` nor the warning "removed" to the log; in the example a command
of `t` is interrupted (status `SIGINT`) with no option set and `t` not precious,
and the file of `t` is not unlinked. -/
theorem docmds1_interrupt_keeps_target :
    (∀ (env : Env Files) (np : Nat) (c : String) (estat : Nat) (s : State Files),
      afterFailure env np c s = (afterShell env np c s).emit (.warning (.failedToBuild np)) ∧
      (docmd env np c estat s).Ends (fun s' => ∃ d, s'.log = s.log ++ d ∧
        ∀ e ∈ d, Event.removal e = false)) ∧
    (docmds1 interrupted 0 ⟨[], ["cc -o t t.c"]⟩ (freshState twoCmds)).final.map
        State.log =
      some [.puts "cc -o t t.c", .system 0 "set -e;cc -o t t.c" 2,
        .warning (.failedToBuild 0)] := by
  refine ⟨fun env np c estat s => ⟨afterFailure_eq env np c s, ?_⟩, by decide⟩
  have h := docmd_log env np c estat s
  cases hr : docmd env np c estat s with
  | timeout => trivial
  | ok e s' =>
    rw [hr] at h
    refine ⟨_, h, ?_⟩
    intro e he
    simp only [List.mem_append] at he
    rcases he with he | he
    · split_ifs at he <;> simp at he; subst he; rfl
    · split_ifs at he <;> simp at he <;>
        first | (subst he; rfl) | (rcases he with rfl | rfl <;> rfl)
  | stop e s' =>
    rw [hr] at h
    refine ⟨_, h, ?_⟩
    intro e he
    simp only [List.mem_append] at he
    rcases he with he | he
    · split_ifs at he <;> simp at he; subst he; rfl
    · split_ifs at he <;> simp at he <;>
        first | (subst he; rfl) | (rcases he with rfl | rfl <;> rfl)

/-- C12: `remove_target` changes nothing, so calls no `unlink`, when dry-run,
print-only or the global precious option is set, when no target is being
built, or when the target being built carries `N_PRECIOUS`; in every other
case it calls `unlink` once, on the file of the target being built, and the
warning "removed" follows exactly when `unlink` returned 0. -/
theorem remove_target_cases (env : Env W) (s : State W) :
    ((env.dryrun = true ∨ env.print = true ∨ env.precious = true ∨ s.target = none ∨
        (∃ t, s.target = some t ∧ (s.names t).n_flag.N_PRECIOUS = true)) →
      remove_target env s = s) ∧
    (∀ t, env.dryrun = false → env.print = false → env.precious = false →
      s.target = some t → (s.names t).n_flag.N_PRECIOUS = false →
      (remove_target env s).world = (env.unlink s.world (s.names t).n_name).2 ∧
      (remove_target env s).log = s.log ++
        Event.unlink t (env.unlink s.world (s.names t).n_name).1 ::
          (if (env.unlink s.world (s.names t).n_name).1 = 0
            then [Event.warning (.removed t)] else [])) := by
  constructor
  · rintro (h | h | h | h | ⟨t, ht, h⟩)
    · simp [remove_target, h]
    · simp [remove_target, h]
    · simp [remove_target, h]
    · exact remove_target_none env s h
    · simp [remove_target, ht, h]
  · intro t h1 h2 h3 ht h4
    by_cases h : (env.unlink s.world (s.names t).n_name).1 = 0 <;>
      simp [remove_target, h1, h2, h3, ht, h4, h, State.emit]

/-- C13: a command is handed to the shell exactly when its leading run of
modifiers contains `+` or neither dry-run nor touch mode is set; one turn of
the loop of `docmds1` then calls `system` once with that command, and not at
all otherwise. -/
theorem docmds1_executes_iff (env : Env W) (np : Nat) (c : String) (estat : Nat)
    (s : State W) :
    (cmdExecuted env np c s = true ↔
      ('+' ∈ modRun env c s ∨ (env.dryrun = false ∧ env.dotouch = false))) ∧
    (docmd env np c estat s).Ends (fun s' => ∃ d, s'.log = s.log ++ d ∧
      submitted d = if cmdExecuted env np c s then [(np, shellText env np c s)] else []) := by
  refine ⟨?_, docmd_submitted env np c estat s⟩
  unfold cmdExecuted cmdFlags modRun
  simp only [scanMods_eq]
  by_cases h : '+' ∈ (env.expand_macros s.macros c).data.takeWhile isMod
  · simp [h]
  · cases h1 : env.dryrun <;> cases h2 : env.dotouch <;> simp [h, b2n]

/-- Whether a command is echoed, in terms of the options and its modifiers. -/
theorem cmdEchoed_iff (env : Env W) (np : Nat) (c : String) (s : State W) :
    cmdEchoed env np c s = true ↔
      if '+' ∈ modRun env c s then
        '@' ∉ modRun env c s ∧ (s.names np).n_flag.N_SILENT = false
      else if env.dotouch = true then False
      else if env.dryrun = true then True
      else '@' ∉ modRun env c s ∧ env.silent = false ∧
        (s.names np).n_flag.N_SILENT = false := by
  unfold cmdEchoed cmdFlags modRun
  simp only [scanMods_eq]
  by_cases h : '+' ∈ (env.expand_macros s.macros c).data.takeWhile isMod <;>
    by_cases h0 : '@' ∈ (env.expand_macros s.macros c).data.takeWhile isMod <;>
    cases h1 : env.dryrun <;> cases h2 : env.dotouch <;> cases h3 : env.silent <;>
    cases h4 : (s.names np).n_flag.N_SILENT <;> simp [h, h0, b2n]

/-- C14, as the code has it: a command with `+` among its leading modifiers is
echoed exactly when it has no `@` there and the target does not carry
`N_SILENT` (the global silent option and touch mode do not count); a command
without `+` is never echoed in touch mode, is always echoed under dry-run
without touch mode (whatever `@`, the silent option and `N_SILENT` say), and
is otherwise echoed exactly when it has no `@`, the silent option is off and
the target does not carry `N_SILENT`. One turn of the loop of `docmds1` writes
the command once when it is echoed and not at all otherwise. -/
theorem docmds1_echoes_iff (env : Env W) (np : Nat) (c : String) (estat : Nat)
    (s : State W) :
    (cmdEchoed env np c s = true ↔
      if '+' ∈ modRun env c s then
        '@' ∉ modRun env c s ∧ (s.names np).n_flag.N_SILENT = false
      else if env.dotouch = true then False
      else if env.dryrun = true then True
      else '@' ∉ modRun env c s ∧ env.silent = false ∧
        (s.names np).n_flag.N_SILENT = false) ∧
    (docmd env np c estat s).Ends (fun s' => ∃ d, s'.log = s.log ++ d ∧
      echoed d = if cmdEchoed env np c s then [cmdText env np c s] else []) := by
  refine ⟨cmdEchoed_iff env np c s, ?_⟩
  have h := docmd_log env np c estat s
  cases hr : docmd env np c estat s with
  | timeout => trivial
  | ok e s' =>
    rw [hr] at h
    refine ⟨_, h, ?_⟩
    by_cases h1 : cmdExecuted env np c s = true <;> by_cases h4 : cmdEchoed env np c s = true <;>
      by_cases h3 : shellStatus env np c s ≠ -1 ∧ shellStatus env np c s ≠ 0 ∧
        cmdIgnored env np c s = false <;>
      simp [echoed, Event.echo, h1, h4, h3]
  | stop e s' =>
    rw [hr] at h
    refine ⟨_, h, ?_⟩
    by_cases h1 : cmdExecuted env np c s = true <;> by_cases h4 : cmdEchoed env np c s = true <;>
      by_cases h3 : shellStatus env np c s ≠ -1 ∧ shellStatus env np c s ≠ 0 ∧
        cmdIgnored env np c s = false <;>
      simp [echoed, Event.echo, h1, h4, h3]

/-- Under dry-run the command `@echo hi` is echoed although it starts with
`@`: the loop of `docmds1` writes `echo hi` and hands nothing to the shell. -/
theorem docmds1_dry_run_echoes_silent :
    '@' ∈ modRun dryEnv "@echo hi" (freshState quiet) ∧
    cmdEchoed dryEnv 0 "@echo hi" (freshState quiet) = true ∧
    (docmds1 dryEnv 0 ⟨[], ["@echo hi"]⟩ (freshState quiet)).final.map State.log =
      some [.puts "echo hi"] := by
  decide

/-! ## The command layer leaves the macros alone -/

theorem afterShell_macros (env : Env W) (np : Nat) (c : String) (s : State W) :
    (afterShell env np c s).macros = s.macros := by
  unfold afterShell
  simp only
  split_ifs <;> rfl

theorem touch_macros (env : Env W) (np : Nat) (s : State W) :
    (touch env np s).macros = s.macros := by
  unfold touch
  simp only
  split_ifs <;> rfl

theorem docmd_macros (env : Env W) (np : Nat) (c : String) (estat : Nat) (s : State W) :
    (docmd env np c estat s).Ends (fun s' => s'.macros = s.macros) := by
  rw [docmd_eq]
  simp only [afterFailure_eq]
  split_ifs
  · exact afterShell_macros env np c s
  · exact afterShell_macros env np c s
  · exact afterShell_macros env np c s
  · exact afterShell_macros env np c s
  · rfl
  · rfl

theorem docmdsFrom_macros (env : Env W) (np : Nat) (cs : List String) (estat : Nat)
    (s : State W) : (docmdsFrom env np cs estat s).Ends (fun s' => s'.macros = s.macros) := by
  induction cs generalizing estat s with
  | nil => rfl
  | cons c cs ih =>
    exact (docmd_macros env np c estat s).bind_ends
      (fun a s1 _ h1 => (ih a s1).weaken (fun _ h => h.trans h1)) (fun _ h => h)

theorem docmdsRules_macros (env : Env W) (np : Nat) (rps : List Rule) (estat : Nat)
    (s : State W) : (docmdsRules env np rps estat s).Ends (fun s' => s'.macros = s.macros) := by
  induction rps generalizing estat s with
  | nil => rfl
  | cons rp rps ih =>
    exact (docmdsFrom_macros env np rp.r_cmd 0 s).bind_ends
      (fun a s1 _ h1 => (ih _ s1).weaken (fun _ h => h.trans h1)) (fun _ h => h)

/-- While the commands of a target run, the macros are as lines 126-136 of
`make1` set them. -/
theorem make1_macros (env : Env W) (np : Nat) (rp : Option Rule) (newer : Option String)
    (implicit : Option Nat) (s : State W) :
    (make1 env np rp newer implicit s).Ends
      (fun s' => s'.macros = (autoMacros env np newer implicit s).macros) := by
  unfold make1
  simp only
  have h1 : (match rp with
      | some rule => docmds1 env np rule (autoMacros env np newer implicit s)
      | none => docmds env np (autoMacros env np newer implicit s)).Ends
      (fun s' => s'.macros = (autoMacros env np newer implicit s).macros) := by
    cases rp with
    | none => exact docmdsRules_macros env np _ 0 _
    | some rule => exact docmdsFrom_macros env np _ 0 _
  refine h1.bind_ends (fun a s1 _ h2 => ?_) (fun _ h => h)
  show (if env.dotouch then touch env np s1 else s1).macros = _
  split_ifs
  · exact (touch_macros env np s1).trans h2
  · exact h2

/-- The value of `$?` is the list handed to `make1`, the empty string for an
empty list. -/
theorem autoMacros_newer (env : Env W) (np : Nat) (newer : Option String)
    (implicit : Option Nat) (s : State W) :
    (autoMacros env np newer implicit s).macros "?" = some (newer.getD "") := by
  cases implicit <;> simp [autoMacros, setmacro, Function.update]

/-- Without an implicit prerequisite `$<` is left as it was. -/
theorem autoMacros_explicit (env : Env W) (np : Nat) (newer : Option String) (s : State W) :
    (autoMacros env np newer none s).macros "<" = s.macros "<" := by
  simp [autoMacros, setmacro, Function.update]

/-- With an implicit prerequisite `$<` is its name. -/
theorem autoMacros_implicit (env : Env W) (np : Nat) (newer : Option String) (ip : Nat)
    (s : State W) :
    (autoMacros env np newer (some ip) s).macros "<" = some (s.names ip).n_name := by
  simp [autoMacros, setmacro, Function.update]

/-- C17, as the code has it: `make1` binds `$<` only when it is given an
implicit prerequisite, to the name of that prerequisite; for a target without
one the binding of `$<` is left as it was, and in both cases the macros stay as
`make1` set them until its commands are through. -/
theorem make1_implicit_source (env : Env W) (np : Nat) (rp : Option Rule)
    (newer : Option String) (s : State W) :
    (autoMacros env np newer none s).macros "<" = s.macros "<" ∧
    (make1 env np rp newer none s).Ends (fun s' => s'.macros "<" = s.macros "<") ∧
    ∀ ip, (autoMacros env np newer (some ip) s).macros "<" = some (s.names ip).n_name ∧
      (make1 env np rp newer (some ip) s).Ends
        (fun s' => s'.macros "<" = some (s.names ip).n_name) := by
  refine ⟨autoMacros_explicit env np newer s, ?_, fun ip =>
    ⟨autoMacros_implicit env np newer ip s, ?_⟩⟩
  · exact (make1_macros env np rp newer none s).weaken
      (fun _ h => by rw [h]; exact autoMacros_explicit env np newer s)
  · exact (make1_macros env np rp newer (some ip) s).weaken
      (fun _ h => by rw [h]; exact autoMacros_implicit env np newer ip s)

/-- The target `t` has the explicit command `echo $<` and no implicit
prerequisite; its prerequisite `p` is built by `.DEFAULT` first, which binds
`$<` to `p`, and the command of `t` is then run as `echo p`: `$<` keeps the
value bound for `p`. -/
theorem make_stale_implicit_source :
    ((makeWalk defaultEnv (make defaultEnv 2) 0 0 (freshState stale)).valueD {}).impdep = none ∧
    (make defaultEnv 3 0 0 (freshState stale)).final.map State.log =
      some [.call 0 0, .call 1 1, .rebuild 1 none 1, .puts "echo default",
        .system 1 "set -e;echo default" 0, .rebuild 0 none 0, .puts "echo p",
        .system 0 "set -e;echo p" 0] ∧
    (make defaultEnv 3 0 0 (freshState stale)).final.map (fun s => s.macros "<") =
      some (some "p") := by
  decide

/-! ## The value of `$?` -/

theorem joinWords_some (acc : String) (ws : List String) :
    joinWords (some acc) ws = some (String.intercalate.go acc " " ws) := by
  induction ws generalizing acc with
  | nil => rfl
  | cons w ws ih =>
    show joinWords (some (acc ++ " " ++ w)) ws = _
    rw [ih]
    rfl

/-- The list that `xappendword` builds from nothing is the words joined by
single spaces. -/
theorem joinWords_eq (ws : List String) :
    (joinWords none ws).getD "" = " ".intercalate ws := by
  cases ws with
  | nil => rfl
  | cons w ws =>
    show (joinWords (some w) ws).getD "" = _
    rw [joinWords_some]
    rfl

/-- What the loop over the prerequisites leaves in `newer`, in terms of what
it read. -/
theorem makeDeps_newer (env : Env W) (hq : env.quest = false)
    (mk : Nat → Nat → State W → Res W Nat) (np level : Nat) (ds : List Nat)
    (l l' : Locals) (s s' : State W) (h : makeDeps env mk np level ds l s = .ok l' s') :
    l'.newer = joinWords l.newer (newerNames (observeNewer mk np level ds s)) := by
  induction ds generalizing l s with
  | nil =>
    simp only [makeDeps, Res.ok.injEq] at h
    rw [← h.1]
    rfl
  | cons d ds ih =>
    simp only [makeDeps] at h
    cases hr : mk d (level + 1) s with
    | timeout => rw [hr] at h; simp at h
    | stop e s1 => rw [hr] at h; simp at h
    | ok r s1 =>
      rw [hr, Res.bind_ok] at h
      rw [ih _ _ h]
      simp only [observeNewer, hr, newerNames, hq]
      by_cases ht : (s1.names np).n_time ≤ (s1.names d).n_time
      · simp [ht, List.filter_cons, joinWords]
      · simp [ht, List.filter_cons, joinWords]

/-- C15, as the code has it: let `np` be a name without `::` that is not
done, outside query mode, whose walk over the rules returned with no failure
recorded and with `n_time <= dtime`, so that its commands are run. Then `$?`
is bound, while the commands run, to the names joined by single spaces, in
the order of the rules and of each list, of exactly those prerequisites `P`
with `np.n_time <= P.n_time`, both read right after `P` was made: a
prerequisite as old as the target is named too. -/
theorem make_newer_names (env : Env W) (hq : env.quest = false) (fuel np level : Nat)
    (s : State W) (hdone : (s.names np).n_flag.N_DONE = false)
    (hdbl : (s.names np).n_flag.N_DOUBLE = false) (l : Locals) (s3 : State W)
    (hw : makeWalk env (make env fuel) np level s = .ok l s3)
    (ht : (s3.names np).n_time ≤ l.dtime) (he : l.estat = false) :
    l.newer = joinWords none (newerNames (observeNewer (make env fuel) np level
      (prereqs (entry env np level s) np) (entry env np level s))) ∧
    make env (fuel + 1) np level s =
      (make1 env np none l.newer l.impdep
          ((s3.setDone np).emit (.rebuild np none level))).bind
        (fun e s4 => .ok (b2n (e ≠ 0))
          ({ s4 with world := (env.time s4.world).2 }.setTime np (env.time s4.world).1)) ∧
    (autoMacros env np l.newer l.impdep
        ((s3.setDone np).emit (.rebuild np none level))).macros "?" =
      some (" ".intercalate (newerNames (observeNewer (make env fuel) np level
        (prereqs (entry env np level s) np) (entry env np level s)))) ∧
    (make1 env np none l.newer l.impdep ((s3.setDone np).emit (.rebuild np none level))).Ends
      (fun s' => s'.macros "?" =
        some (" ".intercalate (newerNames (observeNewer (make env fuel) np level
          (prereqs (entry env np level s) np) (entry env np level s))))) := by
  have hmk : ∀ d s1, (make env fuel d (level + 1) s1).Ends
      (Follows (Event.allowed env.quest (level + 1)) s1) :=
    fun d s1 => make_follows env fuel d (level + 1) s1
  obtain ⟨impdep, h2⟩ := walk_single env _ np level hmk s hdbl l s3 hw
  obtain ⟨_, r2⟩ := walk_single_runs env fuel np level s hdbl l s3 hw
  have hn := makeDeps_newer env hq _ np level _ _ _ _ _ h2
  have hm : (autoMacros env np l.newer l.impdep
        ((s3.setDone np).emit (.rebuild np none level))).macros "?" =
      some (" ".intercalate (newerNames (observeNewer (make env fuel) np level
        (prereqs (entry env np level s) np) (entry env np level s)))) := by
    rw [autoMacros_newer, hn, joinWords_eq]
  refine ⟨hn, ?_, hm, ?_⟩
  · rw [make_eq_finish env fuel np level s hdone l s3 hw]
    exact finish_rebuild env hq np level l s3 r2 ht he
  · exact (make1_macros env np none l.newer l.impdep _).weaken (fun _ h => by rw [h]; exact hm)

/-- C15 at the makefile `t: p` with both files missing: `p` is made and read
as not older than `t`, and the command of `t` runs with `$?` bound to `p`. -/
theorem make_newer_names_witness :
    (make1 plainEnv 0 none
        ((makeWalk plainEnv (make plainEnv 1) 0 0 (freshState pair)).valueD {}).newer
        ((makeWalk plainEnv (make plainEnv 1) 0 0 (freshState pair)).valueD {}).impdep
        ((((makeWalk plainEnv (make plainEnv 1) 0 0 (freshState pair)).stateD
          (freshState pair)).setDone 0).emit (.rebuild 0 none 0))).Ends
      (fun s' => s'.macros "?" =
        some (" ".intercalate (newerNames (observeNewer (make plainEnv 1) 0 0
          (prereqs (entry plainEnv 0 0 (freshState pair)) 0)
          (entry plainEnv 0 0 (freshState pair)))))) :=
  (make_newer_names plainEnv rfl 1 0 0 (freshState pair) rfl rfl
    ((makeWalk plainEnv (make plainEnv 1) 0 0 (freshState pair)).valueD {})
    ((makeWalk plainEnv (make plainEnv 1) 0 0 (freshState pair)).stateD (freshState pair))
    rfl (by decide) rfl).2.2.2

/-- With `t` and `p` both at time 5, `p` is read as 5 against 5, so it is not
strictly newer than `t`, and yet the command of `t` runs with `$?` bound to
`p`. -/
theorem make_names_tie_as_newer :
    observeNewer (make plainEnv 1) 0 0 (prereqs (entry plainEnv 0 0 tieState) 0)
      (entry plainEnv 0 0 tieState) = [("p", 5, 5)] ∧
    (make plainEnv 2 0 0 tieState).final.map State.log =
      some [.call 0 0, .call 1 1, .rebuild 0 none 0, .puts "echo t",
        .system 0 "set -e;echo t" 0] ∧
    (make plainEnv 2 0 0 tieState).final.map (fun s => s.macros "?") = some (some "p") := by
  decide

/-! ## A second call for the same name -/

/-- The final decision leaves the name marked as done. -/
theorem finish_done (env : Env W) (np level : Nat) (l : Locals) (s : State W) :
    (finish env np level l s).Ends (fun s' => (s'.names np).n_flag.N_DONE = true) := by
  have hdn := setDone_done s np
  unfold finish
  simp only
  by_cases hq : env.quest = true
  · rw [if_pos hq]
    split_ifs
    · show ((State.setTime _ np _).names np).n_flag.N_DONE = true
      rw [setTime_flag]; exact hdn
    · exact hdn
  · rw [if_neg hq]
    by_cases h1 : ((s.setDone np).names np).n_time ≤ l.dtime ∧
        (!((s.setDone np).names np).n_flag.N_DOUBLE) = true
    · rw [if_pos h1]
      by_cases h2 : l.estat = false
      · rw [if_pos h2]
        refine (make1_names env np none l.newer l.impdep _).bind_ends
          (fun e s1 _ hn => ?_) (fun s1 hn => by rw [hn]; exact hdn)
        show ((State.setTime _ np _).names np).n_flag.N_DONE = true
        rw [setTime_flag]
        show (s1.names np).n_flag.N_DONE = true
        rw [hn]; exact hdn
      · rw [if_neg h2]; exact hdn
    · rw [if_neg h1]
      split_ifs
      · exact hdn
      · exact hdn

/-- A call of `make` that returns leaves the name marked as done. -/
theorem make_done (env : Env W) (fuel np level : Nat) (s : State W) (r : Nat) (s' : State W)
    (h : make env fuel np level s = .ok r s') : (s'.names np).n_flag.N_DONE = true := by
  cases fuel with
  | zero => simp [make] at h
  | succ fuel =>
    change makeBody env (make env fuel) np level s = .ok r s' at h
    cases hd : (s.names np).n_flag.N_DONE with
    | true =>
      rw [makeBody_done env _ np level s hd] at h
      simp only [Res.ok.injEq] at h
      rw [← h.2]; exact hd
    | false =>
      rw [makeBody_eq env _ np level s hd] at h
      cases hw : makeWalk env (make env fuel) np level s with
      | timeout => rw [hw] at h; simp at h
      | stop e s3 => rw [hw] at h; simp at h
      | ok l s3 =>
        rw [hw, Res.bind_ok] at h
        have h2 := finish_done env np level l s3
        rw [h] at h2
        exact h2

/-- C20, as the code has it: when a call of `make` for `np` has returned, a
second call for `np` in the state the first one left returns 0 at once: it
runs no command, changes no time and nothing in the world, and it prints
nothing, so the message "is up to date" is not written. -/
theorem make_second_call (env : Env W) (fuel np level : Nat) (s : State W) (r : Nat)
    (s' : State W) (h : make env fuel np level s = .ok r s') (fuel2 level2 : Nat) :
    make env (fuel2 + 1) np level2 s' = .ok 0 (s'.emit (.call np level2)) :=
  makeBody_done env _ np level2 s' (make_done env fuel np level s r s' h)

/-- C20 at the makefile `t: p`: the second call for `t` returns 0 at once. -/
theorem make_second_call_witness :
    make plainEnv (0 + 1) 0 0 ((make plainEnv 2 0 0 (freshState pair)).stateD (freshState pair)) =
      .ok 0 (((make plainEnv 2 0 0 (freshState pair)).stateD (freshState pair)).emit
        (.call 0 0)) :=
  make_second_call plainEnv 2 0 0 (freshState pair) 0
    ((make plainEnv 2 0 0 (freshState pair)).stateD (freshState pair)) rfl 0 0

/-- After `make` has built `t` from `p`, a second call for `t` at level 0 adds
nothing to the log but the mark of the call: no command is run and the
message "is up to date" is not printed. -/
theorem make_second_call_silent :
    (make plainEnv 2 0 0 (freshState pair)).valueD 7 = 0 ∧
    (make plainEnv 2 0 0
        ((make plainEnv 2 0 0 (freshState pair)).stateD (freshState pair))).final.map
      (fun s => s.log.drop
        ((make plainEnv 2 0 0 (freshState pair)).stateD (freshState pair)).log.length) =
      some [.call 0 0] := by
  decide

/-! ## The time of a target after `make` -/

theorem le_foldl_max (os : List (Nat × Int)) (a : Int) :
    a ≤ os.foldl (fun a o => max a o.2) a := by
  induction os generalizing a with
  | nil => exact le_refl a
  | cons o os ih => exact le_trans (le_max_left a o.2) (ih (max a o.2))

theorem mem_le_foldl_max (os : List (Nat × Int)) (a : Int) (o : Nat × Int) (h : o ∈ os) :
    o.2 ≤ os.foldl (fun a o => max a o.2) a := by
  induction os generalizing a with
  | nil => simp at h
  | cons x os ih =>
    rcases List.mem_cons.1 h with h1 | h1
    · subst h1
      exact le_trans (le_max_right a o.2) (le_foldl_max os (max a o.2))
    · exact ih (max a x.2) h1

/-- C19, as the code has it: let `np` be a name without `::` that is not
done, outside query mode, and let the clock never read less than `T0`. When
`make` returns 0 for `np`, every prerequisite of `np` has been made and read,
and either `n_time` of `np` is greater than the time of every prerequisite as
read right after it was made, or `n_time` of `np` is at least `T0` (it was set
from the clock after the commands of `np`). -/
theorem make_time_after (env : Env W) (hq : env.quest = false) (T0 : Int)
    (hclock : ∀ w, T0 ≤ (env.time w).1) (fuel np level : Nat) (s : State W)
    (hdone : (s.names np).n_flag.N_DONE = false)
    (hdbl : (s.names np).n_flag.N_DOUBLE = false) (s' : State W)
    (h : make env (fuel + 1) np level s = .ok 0 s') :
    (observe (make env fuel) level (prereqs (entry env np level s) np)
      (entry env np level s)).length = (prereqs (entry env np level s) np).length ∧
    ((∀ o ∈ observe (make env fuel) level (prereqs (entry env np level s) np)
        (entry env np level s), o.2 < (s'.names np).n_time) ∨
      T0 ≤ (s'.names np).n_time) := by
  have hmk : ∀ d s1, (make env fuel d (level + 1) s1).Ends
      (Follows (Event.allowed env.quest (level + 1)) s1) :=
    fun d s1 => make_follows env fuel d (level + 1) s1
  have hb : makeBody env (make env fuel) np level s = .ok 0 s' := h
  rw [makeBody_eq env _ np level s hdone] at hb
  cases hw : makeWalk env (make env fuel) np level s with
  | timeout => rw [hw] at hb; simp at hb
  | stop e s3 => rw [hw] at hb; simp at hb
  | ok l s3 =>
    rw [hw, Res.bind_ok] at hb
    obtain ⟨impdep, h2⟩ := walk_single env _ np level hmk s hdbl l s3 hw
    obtain ⟨_, o2, o3, _, _⟩ := makeDeps_observe env _ np level _ _ _ _ _ h2
    obtain ⟨_, r2⟩ := walk_single_runs env fuel np level s hdbl l s3 hw
    refine ⟨o3, ?_⟩
    by_cases ht : (s3.names np).n_time ≤ l.dtime
    · right
      cases he : l.estat with
      | true =>
        rw [finish_skip env hq np level l s3 r2 ht he] at hb
        simp at hb
      | false =>
        rw [finish_rebuild env hq np level l s3 r2 ht he] at hb
        cases hm : make1 env np none l.newer l.impdep
            ((s3.setDone np).emit (.rebuild np none level)) with
        | timeout => rw [hm] at hb; simp at hb
        | stop e s4 => rw [hm] at hb; simp at hb
        | ok e s4 =>
          rw [hm] at hb
          simp only [Res.bind_ok, Res.ok.injEq] at hb
          rw [← hb.2]
          simpa [State.setTime, State.modify] using hclock s4.world
    · left
      have ht2 : l.dtime < (s3.names np).n_time := not_le.1 ht
      rw [finish_up_to_date env hq np level l s3 ht2] at hb
      simp only [Res.ok.injEq] at hb
      have hs : (s'.names np).n_time = (s3.names np).n_time := by
        rw [← hb.2]
        split_ifs <;> simp [State.emit]
      intro o ho
      rw [hs]
      exact lt_of_le_of_lt (by rw [o2]; exact mem_le_foldl_max _ 1 o ho) ht2

/-- C19 at the makefile `t: p` with both files missing and a clock that
reads at least 100: `t` is rebuilt and its time is then at least 100. -/
theorem make_time_after_witness :
    (observe (make clockEnv 1) 0 (prereqs (entry clockEnv 0 0 (freshState pair)) 0)
      (entry clockEnv 0 0 (freshState pair))).length =
        (prereqs (entry clockEnv 0 0 (freshState pair)) 0).length ∧
    ((∀ o ∈ observe (make clockEnv 1) 0 (prereqs (entry clockEnv 0 0 (freshState pair)) 0)
        (entry clockEnv 0 0 (freshState pair)),
        o.2 < (((make clockEnv 2 0 0 (freshState pair)).stateD (freshState pair)).names 0).n_time) ∨
      100 ≤ (((make clockEnv 2 0 0 (freshState pair)).stateD (freshState pair)).names 0).n_time) :=
  make_time_after clockEnv rfl 100 (fun w => le_max_left 100 w.clock) 1 0 0 (freshState pair)
    rfl rfl ((make clockEnv 2 0 0 (freshState pair)).stateD (freshState pair)) rfl

/-- The `::` target `n` is from time 10 and its prerequisite `p` from time 50;
the invocation starts at time 100. `make` runs the rule of `n` and returns 0,
and `n_time` of `n` is still 10: less than the time of `p` and less than the
time at which the invocation started. -/
theorem make_double_keeps_time :
    oldTwice.world.clock = 100 ∧
    (make plainEnv 2 0 0 oldTwice).valueD 7 = 0 ∧
    (make plainEnv 2 0 0 oldTwice).final.map State.log =
      some [.call 0 0, .call 1 1, .rebuild 0 (some 0) 0, .puts "echo n",
        .system 0 "set -e;echo n" 0] ∧
    (make plainEnv 2 0 0 oldTwice).final.map
      (fun s => ((s.names 0).n_time, (s.names 1).n_time)) = some (10, 50) := by
  decide

/-! ## A frame changes its own entry and entries below it only -/

theorem modify_other (s : State W) (np m : Nat) (f : Name → Name) (h : m ≠ np) :
    (s.modify np f).names m = s.names m := by
  simp [State.modify, Function.update_noteq h]

theorem untouched_refl (rank : Nat → Nat) (np : Nat) (s : State W) : Untouched rank np s s :=
  fun _ _ _ => rfl

theorem untouched_trans {rank : Nat → Nat} {np : Nat} {s s1 s2 : State W}
    (h1 : Untouched rank np s s1) (h2 : Untouched rank np s1 s2) : Untouched rank np s s2 :=
  fun m hm hr => (h2 m hm hr).trans (h1 m hm hr)

theorem untouched_of_names {rank : Nat → Nat} {np : Nat} {s s1 t : State W}
    (h : Untouched rank np s s1) (hn : t.names = s1.names) : Untouched rank np s t :=
  fun m hm hr => by rw [hn]; exact h m hm hr

theorem untouched_modify (rank : Nat → Nat) (np m : Nat) (s : State W) (f : Name → Name)
    (hm : m = np ∨ rank m < rank np) : Untouched rank np s (s.modify m f) := by
  intro k hk hr
  refine modify_other s m k f (fun h => ?_)
  subst h
  rcases hm with h1 | h1
  · exact hk h1
  · exact Nat.lt_irrefl _ (Nat.lt_of_lt_of_le h1 hr)

/-- What the call of a prerequisite left alone, the frame above it sees as
left alone, its own entry included. -/
theorem untouched_below {rank : Nat → Nat} {np d : Nat} {s s' : State W}
    (h : Untouched rank d s s') (hd : rank d < rank np) :
    Untouched rank np s s' ∧ s'.names np = s.names np := by
  have hne : ∀ m, rank np ≤ rank m → m ≠ d := fun m hr hm => by
    subst hm
    exact Nat.lt_irrefl _ (Nat.lt_of_lt_of_le hd hr)
  exact ⟨fun m _ hr => h m (hne m hr) (le_trans (le_of_lt hd) hr),
    h np (hne np (le_refl _)) (le_of_lt hd)⟩

theorem steady_refl {rank : Nat → Nat} (np : Nat) {s : State W} (h : Ranked rank s) :
    Steady rank np s s :=
  ⟨h, untouched_refl rank np s, rfl⟩

theorem steady_step {rank : Nat → Nat} {np : Nat} {sb s s' : State W}
    (h : Steady rank np sb s) (hr : Ranked rank s') (hu : Untouched rank np s s')
    (ht : (s'.names np).n_time = (s.names np).n_time) : Steady rank np sb s' :=
  ⟨hr, untouched_trans h.2.1 hu, ht.trans h.2.2⟩

theorem steady_of_names {rank : Nat → Nat} {np : Nat} {sb s t : State W}
    (h : Steady rank np sb s) (hn : t.names = s.names) : Steady rank np sb t :=
  ⟨ranked_of_names h.1 hn, untouched_of_names h.2.1 hn, by rw [hn]; exact h.2.2⟩

theorem untouched_setTime (rank : Nat → Nat) (np m : Nat) (s : State W) (t : Int)
    (hm : m = np ∨ rank m < rank np) : Untouched rank np s (s.setTime m t) :=
  untouched_modify rank np m s _ hm

theorem untouched_setRule (rank : Nat → Nat) (np : Nat) (s : State W) (i : Nat) (r : Rule) :
    Untouched rank np s (s.setRule np i r) :=
  untouched_modify rank np np s _ (Or.inl rfl)

theorem untouched_addrule (rank : Nat → Nat) (np : Nat) (s : State W) (dp : List Nat)
    (cp : List String) (flag : Bool) : Untouched rank np s (addrule np dp cp flag s) :=
  untouched_modify rank np np s _ (Or.inl rfl)

theorem dyndep_untouched {rank : Nat → Nat} {env : Env W} (hsearch : RankedSearch rank env)
    (np : Nat) (infrule : Option Nat) (s : State W) :
    Untouched rank np s (dyndep env np infrule s).2 ∧
    ((dyndep env np infrule s).2.names np).n_time = (s.names np).n_time := by
  unfold dyndep
  cases hi : env.implicit s.world s.names np infrule with
  | none => exact ⟨untouched_refl rank np s, rfl⟩
  | some x =>
    obtain ⟨pp, cmds⟩ := x
    have hpp : rank pp < rank np := hsearch _ _ _ _ _ _ hi
    have hne : np ≠ pp := fun h => by rw [h] at hpp; exact Nat.lt_irrefl _ hpp
    have h1 : Untouched rank np s (if (s.names pp).n_time = 0 then modtime env pp s else s) ∧
        ((if (s.names pp).n_time = 0 then modtime env pp s else s).names np).n_time =
          (s.names np).n_time := by
      split_ifs
      · exact ⟨untouched_setTime rank np pp s _ (Or.inr hpp),
          by rw [modtime, State.setTime, modify_other s pp np _ hne]⟩
      · exact ⟨untouched_refl rank np s, rfl⟩
    cases infrule with
    | none =>
      exact ⟨untouched_trans h1.1 (untouched_addrule rank np _ _ _ _),
        by rw [← h1.2]; simp [addrule, State.modify]⟩
    | some i =>
      exact ⟨untouched_trans h1.1 (untouched_setRule rank np _ _ _),
        by rw [← h1.2]; simp [State.setRule, State.modify]⟩

theorem makeDeps_steady {rank : Nat → Nat} (env : Env W)
    (mk : Nat → Nat → State W → Res W Nat) (np level : Nat)
    (hmk : ∀ d s, Ranked rank s →
      (mk d (level + 1) s).Ends (fun s' => Ranked rank s' ∧ Untouched rank d s s'))
    (ds : List Nat) (hds : ∀ d ∈ ds, rank d < rank np) (l : Locals) (sb s : State W)
    (h : Steady rank np sb s) :
    (makeDeps env mk np level ds l s).Ends (Steady rank np sb) := by
  induction ds generalizing l s with
  | nil => exact h
  | cons d ds ih =>
    unfold makeDeps
    have hd : rank d < rank np := hds d (List.mem_cons_self _ _)
    refine Res.Ends.bind_ends (A := Steady rank np sb)
      ((hmk d s h.1).weaken (fun s1 hq => ?_))
      (fun a s1 _ hq => ih (fun x hx => hds x (List.mem_cons_of_mem _ hx)) _ s1 hq)
      (fun _ hq => hq)
    obtain ⟨hu, hn⟩ := untouched_below hq.2 hd
    exact steady_step h hq.1 hu (by rw [hn])

theorem ruleHead_steady {rank : Nat → Nat} {env : Env W} (hsearch : RankedSearch rank env)
    (np i : Nat) (rp : Rule) (l : Locals) (sb s : State W)
    (hrp : ∀ d ∈ rp.r_dep, rank d < rank np) (h : Steady rank np sb s) :
    (ruleHead env np i rp l s).Ends (Steady rank np sb) ∧
    ∀ rp1 l1 s1, ruleHead env np i rp l s = .ok (rp1, l1) s1 →
      ∀ d ∈ rp1.r_dep, rank d < rank np := by
  unfold ruleHead
  by_cases hD : (s.names np).n_flag.N_DOUBLE = true
  · rw [if_pos hD]
    by_cases hc : rp.r_cmd.isEmpty = true
    · rw [if_pos hc]
      have h1 := ranked_dyndep hsearch h.1 np (some i)
      have h2 := dyndep_untouched hsearch np (some i) s
      rcases hd : dyndep env np (some i) s with ⟨_ | pp, s1⟩
      · rw [hd] at h1 h2
        simp only [Res.bind_stop]
        exact ⟨steady_step h h1 h2.1 h2.2, fun _ _ _ hh => Res.noConfusion hh⟩
      · rw [hd] at h1 h2
        simp only [Res.bind_ok]
        refine ⟨steady_step h h1 h2.1 h2.2, ?_⟩
        intro rp1 l1 s2 hh
        simp only [Res.ok.injEq, Prod.mk.injEq] at hh
        obtain ⟨⟨hh1, _⟩, hh2⟩ := hh
        subst hh1
        exact ranked_ruleAt h1 np i
    · rw [if_neg hc]
      simp only [Res.bind_ok]
      refine ⟨h, ?_⟩
      intro rp1 l1 s2 hh
      simp only [Res.ok.injEq, Prod.mk.injEq] at hh
      obtain ⟨⟨hh1, _⟩, _⟩ := hh
      subst hh1
      exact hrp
  · rw [if_neg hD]
    refine ⟨h, ?_⟩
    intro rp1 l1 s2 hh
    simp only [Res.ok.injEq, Prod.mk.injEq] at hh
    obtain ⟨⟨hh1, _⟩, _⟩ := hh
    subst hh1
    exact hrp

theorem ruleTail_steady {rank : Nat → Nat} (env : Env W) (np level i : Nat) (rp : Rule)
    (l : Locals) (sb s : State W) (h : Steady rank np sb s) :
    (ruleTail env np level i rp l s).Ends (Steady rank np sb) := by
  unfold ruleTail
  by_cases hD : (s.names np).n_flag.N_DOUBLE = true
  · rw [if_pos hD]
    refine Res.Ends.bind_ends (A := Steady rank np sb) ?_ ?_ (fun _ hq => hq)
    · by_cases h2 : (!env.quest) = true ∧ (s.names np).n_time ≤ l.dtime
      · rw [if_pos h2]
        by_cases h3 : l.estat = false
        · rw [if_pos h3]
          exact Res.Ends.bind_ends
            (make1_names env np (some rp) l.newer l.impdep (s.emit (.rebuild np (some i) level)))
            (fun a s1 _ hq => steady_of_names h hq) (fun s1 hq => steady_of_names h hq)
        · rw [if_neg h3]
          exact h
      · rw [if_neg h2]
        exact h
    · intro l1 s1 _ hq
      cases l1.impdep with
      | none => exact hq
      | some ip =>
        simp only
        cases hdp : (s1.ruleAt np i).r_dep with
        | nil => exact hq
        | cons d dp =>
          refine steady_step hq (ranked_setRule hq.1 np i _ (fun x hx => ?_))
            (untouched_setRule rank np s1 i _) (by simp [State.setRule, State.modify])
          exact ranked_ruleAt hq.1 np i x (by rw [hdp]; exact List.mem_cons_of_mem _ hx)
  · rw [if_neg hD]
    exact h

theorem makeRules_steady {rank : Nat → Nat} {env : Env W} (hsearch : RankedSearch rank env)
    (mk : Nat → Nat → State W → Res W Nat) (np level : Nat)
    (hmk : ∀ d s, Ranked rank s →
      (mk d (level + 1) s).Ends (fun s' => Ranked rank s' ∧ Untouched rank d s s'))
    (i : Nat) (rps : List Rule) (hrps : ∀ rp ∈ rps, ∀ d ∈ rp.r_dep, rank d < rank np)
    (l : Locals) (sb s : State W) (h : Steady rank np sb s) :
    (makeRules env mk np level i rps l s).Ends (Steady rank np sb) := by
  induction rps generalizing i l s with
  | nil => exact h
  | cons rp rps ih =>
    unfold makeRules
    obtain ⟨h1, h2⟩ := ruleHead_steady hsearch np i rp l sb s
      (hrps rp (List.mem_cons_self _ _)) h
    refine Res.Ends.bind_ends h1 (fun a s1 hr hq => ?_) (fun _ hq => hq)
    obtain ⟨rp1, l1⟩ := a
    refine Res.Ends.bind_ends
      (makeDeps_steady env mk np level hmk rp1.r_dep (h2 rp1 l1 s1 hr) l1 sb s1 hq)
      (fun l2 s2 _ hq2 => ?_) (fun _ hq => hq)
    refine Res.Ends.bind_ends (ruleTail_steady env np level i rp1 l2 sb s2 hq2)
      (fun l3 s3 _ hq3 => ?_) (fun _ hq => hq)
    exact ih (i + 1) (fun x hx => hrps x (List.mem_cons_of_mem _ hx)) l3 s3 hq3

theorem probed_untouched (rank : Nat → Nat) (env : Env W) (np level : Nat) (s : State W) :
    Untouched rank np s (probed env np level s) := by
  have h0 : Untouched rank np s (s.emit (.call np level)) := fun _ _ _ => rfl
  unfold probed
  simp only
  split_ifs
  · exact untouched_trans h0 (untouched_setTime rank np np _ _ (Or.inl rfl))
  · exact h0

theorem resolve_untouched {rank : Nat → Nat} {env : Env W} (hsearch : RankedSearch rank env)
    (np : Nat) (s : State W) : (resolve env np s).Ends (Untouched rank np s) := by
  unfold resolve
  by_cases hD : (!(s.names np).n_flag.N_DOUBLE) = true
  · rw [if_pos hD]
    simp only
    have h2 : Untouched rank np s
        (if (!(s.names np).n_rule.any (fun rp => !rp.r_cmd.isEmpty)) = true
          then dyndep env np none s else (none, s)).2 := by
      split_ifs
      · exact (dyndep_untouched hsearch np none s).1
      · exact untouched_refl rank np s
    generalize (if (!(s.names np).n_rule.any (fun rp => !rp.r_cmd.isEmpty)) = true
          then dyndep env np none s else (none, s)) = x at h2
    obtain ⟨impdep, s1⟩ := x
    simp only
    split_ifs
    · cases env.findname ".DEFAULT" with
      | none => exact h2
      | some dflt =>
        simp only
        cases (s1.names dflt).n_rule with
        | nil => exact h2
        | cons r rs => exact untouched_trans h2 (untouched_addrule rank np s1 _ _ _)
    · exact h2
  · rw [if_neg hD]
    exact untouched_refl rank np s

theorem finish_untouched {rank : Nat → Nat} (env : Env W) (np level : Nat) (l : Locals)
    (s : State W) (hr : Ranked rank s) :
    (finish env np level l s).Ends (fun s' => Ranked rank s' ∧ Untouched rank np s s') := by
  have hR : Ranked rank (s.setDone np) := ranked_setDone hr np
  have hU : Untouched rank np s (s.setDone np) := untouched_modify rank np np s _ (Or.inl rfl)
  unfold finish
  simp only
  by_cases hq : env.quest = true
  · rw [if_pos hq]
    split_ifs
    · exact ⟨ranked_setTime (ranked_of_names hR
          (t := { s.setDone np with world := (env.time (s.setDone np).world).2 }) rfl) np _,
        untouched_trans hU (untouched_setTime rank np np
          { s.setDone np with world := (env.time (s.setDone np).world).2 } _ (Or.inl rfl))⟩
    · exact ⟨hR, hU⟩
  · rw [if_neg hq]
    by_cases h1 : ((s.setDone np).names np).n_time ≤ l.dtime ∧
        (!((s.setDone np).names np).n_flag.N_DOUBLE) = true
    · rw [if_pos h1]
      by_cases h2 : l.estat = false
      · rw [if_pos h2]
        refine (make1_names env np none l.newer l.impdep _).bind_ends
          (fun e s1 _ hn => ?_) (fun s1 hn => ⟨ranked_of_names hR hn, untouched_of_names hU hn⟩)
        exact ⟨ranked_setTime (ranked_of_names hR
            (t := { s1 with world := (env.time s1.world).2 }) hn) np _,
          untouched_trans (untouched_of_names hU (t := { s1 with world := (env.time s1.world).2 })
            hn) (untouched_setTime rank np np _ _ (Or.inl rfl))⟩
      · rw [if_neg h2]; exact ⟨hR, hU⟩
    · rw [if_neg h1]
      split_ifs
      · exact ⟨hR, hU⟩
      · exact ⟨hR, hU⟩

theorem makeBody_untouched {rank : Nat → Nat} {env : Env W} (hsearch : RankedSearch rank env)
    (mk : Nat → Nat → State W → Res W Nat) (np level : Nat)
    (hmk : ∀ d s, Ranked rank s →
      (mk d (level + 1) s).Ends (fun s' => Ranked rank s' ∧ Untouched rank d s s'))
    (s : State W) (hr : Ranked rank s) :
    (makeBody env mk np level s).Ends (fun s' => Ranked rank s' ∧ Untouched rank np s s') := by
  cases hd : (s.names np).n_flag.N_DONE with
  | true =>
    rw [makeBody_done env mk np level s hd]
    exact ⟨hr, fun _ _ _ => rfl⟩
  | false =>
    rw [makeBody_eq env mk np level s hd]
    have h0 := ranked_probed hr env np level
    have u0 := probed_untouched rank env np level s
    have h1 := ranked_resolve hsearch h0 np
    have u1 : (resolve env np (probed env np level s)).Ends
        (Untouched rank np (probed env np level s)) := resolve_untouched hsearch np _
    refine Res.Ends.bind_ends (A := fun s' => Ranked rank s' ∧ Untouched rank np s s') ?_
      (fun l s3 _ hq => ?_) (fun _ hq => hq)
    · unfold makeWalk
      cases hres : resolve env np (probed env np level s) with
      | timeout => trivial
      | stop e s2 =>
        rw [hres] at h1 u1
        exact ⟨h1.1, untouched_trans u0 u1⟩
      | ok impdep s2 =>
        rw [hres] at h1 u1
        simp only [Res.bind_ok]
        exact (makeRules_steady hsearch mk np level hmk 0 _ (fun rp hrp => h1.1 np rp hrp)
          _ s2 s2 (steady_refl np h1.1)).weaken
          (fun _ hq => ⟨hq.1, untouched_trans (untouched_trans u0 u1) hq.2.1⟩)
    · exact (finish_untouched env np level l s3 hq.1).weaken
        (fun _ h => ⟨h.1, untouched_trans hq.2 h.2⟩)

/-- On an acyclic graph a call of `make` for `np` changes no entry of the
table but that of `np` and those of names below it. -/
theorem make_untouched {rank : Nat → Nat} {env : Env W} (hsearch : RankedSearch rank env)
    (fuel np level : Nat) (s : State W) (hr : Ranked rank s) :
    (make env fuel np level s).Ends (fun s' => Ranked rank s' ∧ Untouched rank np s s') := by
  induction fuel generalizing np level s with
  | zero => trivial
  | succ fuel ih =>
    exact makeBody_untouched hsearch _ np level (fun d s1 h1 => ih d (level + 1) s1 h1) s hr

/-! ## The rules of a `::` target are decided one by one -/

theorem foldl_max_from (os : List (Nat × Int)) (a c : Int) (h : c ≤ a) :
    os.foldl (fun a o => max a o.2) a = max a (os.foldl (fun a o => max a o.2) c) := by
  induction os generalizing a c with
  | nil => exact (max_eq_left h).symm
  | cons o os ih =>
    show os.foldl (fun a o => max a o.2) (max a o.2) =
      max a (os.foldl (fun a o => max a o.2) (max c o.2))
    rw [ih (max a o.2) (max c o.2) (max_le_max h (le_refl _)), max_assoc]
    congr 1
    exact max_eq_right (le_trans (le_max_right c o.2) (le_foldl_max os (max c o.2)))

theorem makeRules_append (env : Env W) (mk : Nat → Nat → State W → Res W Nat)
    (np level i : Nat) (as bs : List Rule) (l : Locals) (s : State W) :
    makeRules env mk np level i (as ++ bs) l s =
      (makeRules env mk np level i as l s).bind
        (fun l1 s1 => makeRules env mk np level (i + as.length) bs l1 s1) := by
  induction as generalizing i l s with
  | nil => rfl
  | cons a as ih =>
    simp only [List.cons_append, makeRules, List.length_cons]
    cases ruleHead env np i a l s with
    | timeout => rfl
    | stop e s1 => rfl
    | ok x s1 =>
      obtain ⟨rp1, l1⟩ := x
      simp only [Res.bind_ok]
      cases makeDeps env mk np level rp1.r_dep l1 s1 with
      | timeout => rfl
      | stop e s2 => rfl
      | ok l2 s2 =>
        simp only [Res.bind_ok]
        cases ruleTail env np level i rp1 l2 s2 with
        | timeout => rfl
        | stop e s3 => rfl
        | ok l3 s3 =>
          simp only [Res.bind_ok]
          show makeRules env mk np level (i + 1) (as ++ bs) l3 s3 = _
          rw [ih (i + 1) l3 s3, Nat.add_assoc, Nat.add_comm 1]

theorem Res.bind_pure {α : Type} (r : Res W α) : r.bind (fun a s => .ok a s) = r := by
  cases r <;> rfl

/-- The head of a turn for a rule with commands of a `::` target. -/
theorem ruleHead_double (env : Env W) (np i : Nat) (rp : Rule) (l : Locals) (s : State W)
    (hD : (s.names np).n_flag.N_DOUBLE = true) (hcmd : rp.r_cmd ≠ []) :
    ruleHead env np i rp l s =
      .ok (rp, if rp.r_dep.isEmpty then { l with impdep := none, dtime := (s.names np).n_time }
        else { l with impdep := none }) s := by
  have hc : rp.r_cmd.isEmpty = false := by
    cases h : rp.r_cmd with
    | nil => exact (hcmd h).elim
    | cons c cs => rfl
  unfold ruleHead
  simp [hD, hc]

/-- What the head of a turn does to the locals, for a `::` target. -/
theorem ruleHead_locals (env : Env W) (np i : Nat) (rp : Rule) (l : Locals) (s : State W)
    (hD : (s.names np).n_flag.N_DOUBLE = true) (rp1 : Rule) (l1 : Locals) (s1 : State W)
    (h : ruleHead env np i rp l s = .ok (rp1, l1) s1) :
    l1.newer = l.newer ∧ l1.estat = l.estat ∧
    (l1.dtime = l.dtime ∨ (rp1.r_dep = [] ∧ l1.dtime = (s1.names np).n_time)) := by
  unfold ruleHead at h
  rw [if_pos hD] at h
  by_cases hc : rp.r_cmd.isEmpty = true
  · rw [if_pos hc] at h
    rcases hd : dyndep env np (some i) s with ⟨_ | pp, s2⟩
    · rw [hd] at h; simp at h
    · rw [hd] at h
      simp only [Res.bind_ok, Res.ok.injEq, Prod.mk.injEq] at h
      obtain ⟨⟨h1, h2⟩, h3⟩ := h
      subst h1 h3
      by_cases he : (s2.ruleAt np i).r_dep.isEmpty = true
      · rw [if_pos he] at h2
        subst h2
        exact ⟨rfl, rfl, Or.inr ⟨List.isEmpty_iff.1 he, rfl⟩⟩
      · rw [if_neg he] at h2
        subst h2
        exact ⟨rfl, rfl, Or.inl rfl⟩
  · rw [if_neg hc] at h
    simp only [Res.bind_ok, Res.ok.injEq, Prod.mk.injEq] at h
    obtain ⟨⟨h1, h2⟩, h3⟩ := h
    subst h1 h3
    by_cases he : rp.r_dep.isEmpty = true
    · rw [if_pos he] at h2
      subst h2
      exact ⟨rfl, rfl, Or.inr ⟨List.isEmpty_iff.1 he, rfl⟩⟩
    · rw [if_neg he] at h2
      subst h2
      exact ⟨rfl, rfl, Or.inl rfl⟩

theorem Res.bind_eq_ok {α β : Type} {r : Res W α} {f : α → State W → Res W β} {b : β}
    {s' : State W} (h : r.bind f = .ok b s') : ∃ a s1, r = .ok a s1 ∧ f a s1 = .ok b s' := by
  cases r with
  | ok a s1 => exact ⟨a, s1, rfl, h⟩
  | stop e s1 => exact Res.noConfusion h
  | timeout => exact Res.noConfusion h

/-- On an acyclic graph, what line 208 reads while the prerequisites `ds` of
`np` are made: `n_time` of `np` is the same every time, and no prerequisite
is newer than the `dtime` the loop ends with. -/
theorem makeDeps_seen {rank : Nat → Nat} (env : Env W)
    (mk : Nat → Nat → State W → Res W Nat) (np level : Nat)
    (hmk : ∀ d s, Ranked rank s →
      (mk d (level + 1) s).Ends (fun s' => Ranked rank s' ∧ Untouched rank d s s'))
    (ds : List Nat) (hds : ∀ d ∈ ds, rank d < rank np) (l l2 : Locals) (s s2 : State W)
    (hr : Ranked rank s) (h : makeDeps env mk np level ds l s = .ok l2 s2) :
    ∀ o ∈ observeNewer mk np level ds s, o.2.1 = (s.names np).n_time ∧ o.2.2 ≤ l2.dtime := by
  induction ds generalizing l s with
  | nil => intro o ho; simp [observeNewer] at ho
  | cons d ds ih =>
    have hd : rank d < rank np := hds d (List.mem_cons_self _ _)
    simp only [makeDeps] at h
    have hk := hmk d s hr
    cases hr1 : mk d (level + 1) s with
    | timeout => rw [hr1] at h; simp at h
    | stop e s1 => rw [hr1] at h; simp at h
    | ok r s1 =>
      rw [hr1] at hk
      rw [hr1, Res.bind_ok] at h
      obtain ⟨_, hn⟩ := untouched_below hk.2 hd
      have hdt := (makeDeps_observe env mk np level ds _ _ _ _ h).2.1
      simp only [observeNewer, hr1]
      intro o ho
      rcases List.mem_cons.1 ho with h1 | h1
      · subst h1
        refine ⟨by rw [hn], ?_⟩
        rw [hdt]
        exact le_trans (le_max_right l.dtime (s1.names d).n_time) (le_foldl_max _ _)
      · have h2 := ih (fun x hx => hds x (List.mem_cons_of_mem _ hx)) _ s1 hk.1 h o h1
        exact ⟨by rw [h2.1, hn], h2.2⟩

/-- What the tail of a turn leaves in the locals, for a `::` target outside
query mode: the rule was run, or a failure is recorded, or nothing
happened. -/
theorem ruleTail_locals (env : Env W) (hq : env.quest = false) (np level i : Nat) (rp : Rule)
    (l : Locals) (s : State W) (hD : (s.names np).n_flag.N_DOUBLE = true) (l3 : Locals)
    (s3 : State W) (h : ruleTail env np level i rp l s = .ok l3 s3) :
    ((s.names np).n_time ≤ l.dtime ∧ l.estat = false ∧ l3.newer = none ∧ l3.dtime = 1) ∨
    l3.estat = true ∨ (l.dtime < (s.names np).n_time ∧ l3 = l) := by
  unfold ruleTail at h
  rw [if_pos hD] at h
  obtain ⟨l1, s1, hran, hcons⟩ := Res.bind_eq_ok h
  have hl : l3 = l1 := by
    cases hi : l1.impdep with
    | none => rw [hi] at hcons; simp only [Res.ok.injEq] at hcons; exact hcons.1.symm
    | some ip =>
      rw [hi] at hcons
      simp only at hcons
      cases hdp : (s1.ruleAt np i).r_dep with
      | nil => rw [hdp] at hcons; simp at hcons
      | cons d dp => rw [hdp] at hcons; simp only [Res.ok.injEq] at hcons; exact hcons.1.symm
  subst hl
  by_cases ht : (s.names np).n_time ≤ l.dtime
  · have h2 : (!env.quest) = true ∧ (s.names np).n_time ≤ l.dtime := ⟨by simp [hq], ht⟩
    rw [if_pos h2] at hran
    cases he : l.estat with
    | false =>
      rw [if_pos he] at hran
      obtain ⟨e, s4, _, h4⟩ := Res.bind_eq_ok hran
      simp only [Res.ok.injEq] at h4
      left
      rw [← h4.1]
      exact ⟨ht, rfl, rfl, rfl⟩
    | true =>
      rw [if_neg (by simp [he])] at hran
      simp only [Res.ok.injEq] at hran
      right; left
      rw [← hran.1]
      exact he
  · have h2 : ¬ ((!env.quest) = true ∧ (s.names np).n_time ≤ l.dtime) := fun h3 => ht h3.2
    rw [if_neg h2] at hran
    simp only [Res.ok.injEq] at hran
    right; right
    exact ⟨not_le.1 ht, hran.1.symm⟩

/-- The tail of a turn for a rule with commands that is out of date. -/
theorem ruleTail_run (env : Env W) (hq : env.quest = false) (np level i : Nat) (rp : Rule)
    (l : Locals) (s : State W) (hD : (s.names np).n_flag.N_DOUBLE = true)
    (ht : (s.names np).n_time ≤ l.dtime) (he : l.estat = false) (hi : l.impdep = none) :
    ruleTail env np level i rp l s =
      (make1 env np (some rp) l.newer none (s.emit (.rebuild np (some i) level))).bind
        (fun e s1 => .ok { l with estat := e ≠ 0, dtime := 1, didsomething := true,
                                  newer := none } s1) := by
  unfold ruleTail
  have h2 : (!env.quest) = true ∧ (s.names np).n_time ≤ l.dtime := ⟨by simp [hq], ht⟩
  rw [if_pos hD, if_pos h2, if_pos he, hi]
  cases make1 env np (some rp) l.newer none (s.emit (.rebuild np (some i) level)) with
  | timeout => rfl
  | stop e s1 => rfl
  | ok e s1 => simp [hi]

/-- The tail of a turn for a rule with commands that is up to date. -/
theorem ruleTail_idle (env : Env W) (np level i : Nat) (rp : Rule)
    (l : Locals) (s : State W) (hD : (s.names np).n_flag.N_DOUBLE = true)
    (ht : l.dtime < (s.names np).n_time) (hi : l.impdep = none) :
    ruleTail env np level i rp l s = .ok l s := by
  unfold ruleTail
  have h2 : ¬ ((!env.quest) = true ∧ (s.names np).n_time ≤ l.dtime) :=
    fun h3 => not_le.2 ht h3.2
  rw [if_pos hD, if_neg h2]
  simp [hi]

/-- One turn of the loop over the rules of a `::` target, on an acyclic graph
and outside query mode: if no failure is recorded afterwards, none was
recorded before, and locals that carried nothing over carry nothing over
afterwards. -/
theorem turn_settled {rank : Nat → Nat} {env : Env W} (hsearch : RankedSearch rank env)
    (hq : env.quest = false) (fuel np level i : Nat) (rp : Rule)
    (hrp : ∀ d ∈ rp.r_dep, rank d < rank np) (l : Locals) (s : State W)
    (hr : Ranked rank s) (hD : (s.names np).n_flag.N_DOUBLE = true)
    (rp1 : Rule) (l1 : Locals) (s1 : State W)
    (hH : ruleHead env np i rp l s = .ok (rp1, l1) s1)
    (l2 : Locals) (s2 : State W)
    (hM : makeDeps env (make env fuel) np level rp1.r_dep l1 s1 = .ok l2 s2)
    (l3 : Locals) (s3 : State W)
    (hT : ruleTail env np level i rp1 l2 s2 = .ok l3 s3) (he : l3.estat = false) :
    l.estat = false ∧ Ranked rank s3 ∧ (s3.names np).n_flag.N_DOUBLE = true ∧
    (Settled np l s → Settled np l3 s3) := by
  have hmk : ∀ d s, Ranked rank s → (make env fuel d (level + 1) s).Ends
      (fun s' => Ranked rank s' ∧ Untouched rank d s s') :=
    fun d s h => make_untouched hsearch fuel d (level + 1) s h
  have hmkF : ∀ d s1, (make env fuel d (level + 1) s1).Ends
      (Follows (Event.allowed env.quest (level + 1)) s1) :=
    fun d s1 => make_follows env fuel d (level + 1) s1
  -- the three pieces keep the graph, the flag and the time of `np`
  obtain ⟨a1, a2⟩ := ruleHead_steady hsearch np i rp l s s hrp (steady_refl np hr)
  rw [hH] at a1
  have hrp1 := a2 rp1 l1 s1 hH
  have b1 := makeDeps_steady env _ np level hmk rp1.r_dep hrp1 l1 s s1 a1
  rw [hM] at b1
  have c1 := ruleTail_steady env np level i rp1 l2 s s2 b1
  rw [hT] at c1
  have f1 := ruleHead_follows (fun _ => True) env np i rp l s
  rw [hH] at f1
  have f2 := makeDeps_follows env _ np level hmkF rp1.r_dep l1 s1
  rw [hM] at f2
  have f3 := ruleTail_follows env np level i rp1 l2 s2
  rw [hT] at f3
  have hD1 : (s1.names np).n_flag.N_DOUBLE = true := by rw [(f1.2 np).1]; exact hD
  have hD2 : (s2.names np).n_flag.N_DOUBLE = true := by rw [(f2.2 np).1]; exact hD1
  have hD3 : (s3.names np).n_flag.N_DOUBLE = true := by rw [(f3.2 np).1]; exact hD2
  -- the locals
  obtain ⟨n1, e1, d1⟩ := ruleHead_locals env np i rp l s hD rp1 l1 s1 hH
  obtain ⟨e2, d2, _, _, _⟩ := makeDeps_observe env _ np level _ _ _ _ _ hM
  have n2 := makeDeps_newer env hq _ np level _ _ _ _ _ hM
  have seen := makeDeps_seen env _ np level hmk rp1.r_dep hrp1 l1 l2 s1 s2 a1.1 hM
  have t21 : (s2.names np).n_time = (s1.names np).n_time := by rw [b1.2.2, a1.2.2]
  have t32 : (s3.names np).n_time = (s2.names np).n_time := by rw [c1.2.2, b1.2.2]
  have hl2 : l2.estat = false → l.estat = false := by
    intro h
    rw [e2, Bool.or_eq_false_iff] at h
    rw [← e1]; exact h.1
  rcases ruleTail_locals env hq np level i rp1 l2 s2 hD2 l3 s3 hT with
    ⟨_, h2, h3, h4⟩ | h2 | ⟨h2, h3⟩
  · exact ⟨hl2 h2, c1.1, hD3, fun _ => ⟨h3, by rw [h4], Or.inl h4⟩⟩
  · rw [h2] at he; exact Bool.noConfusion he
  · subst h3
    refine ⟨hl2 he, c1.1, hD3, fun hs => ?_⟩
    obtain ⟨s1', s2', _⟩ := hs
    have hge : l1.dtime ≤ l3.dtime := by rw [d2]; exact le_foldl_max _ _
    have hd1 : l1.dtime = l.dtime := by
      rcases d1 with h | ⟨_, h⟩
      · exact h
      · exfalso
        rw [h, ← t21] at hge
        exact not_le.2 h2 hge
    refine ⟨?_, by rw [← hd1] at s2'; exact le_trans s2' hge, Or.inr (by rw [t32]; exact h2)⟩
    have hnone : newerNames (observeNewer (make env fuel) np level rp1.r_dep s1) = [] := by
      unfold newerNames
      rw [List.map_eq_nil_iff, List.filter_eq_nil_iff]
      intro o ho
      obtain ⟨o1, o2⟩ := seen o ho
      have : ¬ o.2.1 ≤ o.2.2 := by
        rw [o1, ← t21]
        exact not_le.2 (lt_of_le_of_lt o2 h2)
      simpa using this
    rw [n2, hnone, n1, s1']
    rfl

theorem makeRules_settled {rank : Nat → Nat} {env : Env W} (hsearch : RankedSearch rank env)
    (hq : env.quest = false) (fuel np level i : Nat) (rps : List Rule)
    (hrps : ∀ rp ∈ rps, ∀ d ∈ rp.r_dep, rank d < rank np) (l : Locals) (s : State W)
    (hr : Ranked rank s) (hD : (s.names np).n_flag.N_DOUBLE = true) (l' : Locals) (s' : State W)
    (h : makeRules env (make env fuel) np level i rps l s = .ok l' s') (he : l'.estat = false) :
    l.estat = false ∧ Ranked rank s' ∧ (s'.names np).n_flag.N_DOUBLE = true ∧
    (Settled np l s → Settled np l' s') := by
  induction rps generalizing i l s with
  | nil =>
    simp only [makeRules, Res.ok.injEq] at h
    obtain ⟨h1, h2⟩ := h
    subst h1 h2
    exact ⟨he, hr, hD, fun h => h⟩
  | cons rp rps ih =>
    unfold makeRules at h
    obtain ⟨x, s1, hH, h1⟩ := Res.bind_eq_ok h
    obtain ⟨rp1, l1⟩ := x
    obtain ⟨l2, s2, hM, h2⟩ := Res.bind_eq_ok h1
    obtain ⟨l3, s3, hT, h3⟩ := Res.bind_eq_ok h2
    have hrest : ∀ hr3 : Ranked rank s3, ∀ hD3 : (s3.names np).n_flag.N_DOUBLE = true, _ :=
      fun hr3 hD3 => ih (i + 1) (fun x hx => hrps x (List.mem_cons_of_mem _ hx)) l3 s3 hr3 hD3 h3
    have f1 := ruleHead_follows (fun _ => True) env np i rp l s
    rw [hH] at f1
    have f2 := makeDeps_follows env _ np level
      (fun d s1 => make_follows env fuel d (level + 1) s1) rp1.r_dep l1 s1
    rw [hM] at f2
    have f3 := ruleTail_follows env np level i rp1 l2 s2
    rw [hT] at f3
    have hD3 : (s3.names np).n_flag.N_DOUBLE = true := by
      rw [(f3.2 np).1, (f2.2 np).1, (f1.2 np).1]; exact hD
    have c1 : Ranked rank s3 := by
      obtain ⟨a1, a2⟩ := ruleHead_steady hsearch np i rp l s s
        (hrps rp (List.mem_cons_self _ _)) (steady_refl np hr)
      rw [hH] at a1
      have b1 := makeDeps_steady env _ np level
        (fun d s h => make_untouched hsearch fuel d (level + 1) s h) rp1.r_dep
        (a2 rp1 l1 s1 hH) l1 s s1 a1
      rw [hM] at b1
      have c1 := ruleTail_steady env np level i rp1 l2 s s2 b1
      rw [hT] at c1
      exact c1.1
    obtain ⟨g1, g2, g3, g4⟩ := hrest c1 hD3
    obtain ⟨t1, _, _, t4⟩ := turn_settled hsearch hq fuel np level i rp
      (hrps rp (List.mem_cons_self _ _)) l s hr hD rp1 l1 s1 hH l2 s2 hM l3 s3 hT g1
    exact ⟨t1, g2, g3, fun hs => g4 (t4 hs)⟩

/-- C18: let `np` be a `::` target on an acyclic graph, outside query mode,
and let the loop over its rules, started with the rules as read at line 189,
have reached the rule `rp` with commands after the rules `before`, with no
failure recorded, and let the prerequisites of `rp` have been made with no
failure recorded. Then the locals carry nothing over from the rules before
(`newer` is NULL, `dtime` is 1 or less than `n_time`), `n_time` of `np` is the
same whenever it is read, and the commands of `rp` are run, by `make1` on `rp`
alone, exactly when `rp` has no prerequisites or `n_time` of `np` is at most
the maximum of 1 and the times of the prerequisites of `rp`, each read right
after it was made; `$?` is then made of names of prerequisites of `rp`
only. -/
theorem make_double_rule {rank : Nat → Nat} {env : Env W} (hsearch : RankedSearch rank env)
    (hq : env.quest = false) (fuel np level : Nat) (s0 : State W) (hr : Ranked rank s0)
    (hdbl : (s0.names np).n_flag.N_DOUBLE = true)
    (before after : List Rule) (rp : Rule)
    (hrules : (s0.names np).n_rule = before ++ rp :: after) (hcmd : rp.r_cmd ≠ [])
    (l : Locals) (s : State W)
    (hw : makeRules env (make env fuel) np level 0 before { impdep := none } s0 = .ok l s)
    (he : l.estat = false) (l2 : Locals) (s2 : State W)
    (hd : makeDeps env (make env fuel) np level rp.r_dep
      (if rp.r_dep.isEmpty then { l with impdep := none, dtime := (s.names np).n_time }
        else { l with impdep := none }) s = .ok l2 s2)
    (he2 : l2.estat = false) :
    Settled np l s ∧
    makeRules env (make env fuel) np level 0 (before ++ [rp]) { impdep := none } s0 =
      ruleTail env np level before.length rp l2 s2 ∧
    (s2.names np).n_time = (s.names np).n_time ∧
    (∀ o ∈ observeNewer (make env fuel) np level rp.r_dep s, o.2.1 = (s.names np).n_time) ∧
    l2.newer = joinWords none (newerNames (observeNewer (make env fuel) np level rp.r_dep s)) ∧
    ((rp.r_dep = [] ∨ (s.names np).n_time ≤
        (observe (make env fuel) level rp.r_dep s).foldl (fun a o => max a o.2) 1) →
      ruleTail env np level before.length rp l2 s2 =
        (make1 env np (some rp) l2.newer none
            (s2.emit (.rebuild np (some before.length) level))).bind
          (fun e s1 => .ok { l2 with estat := e ≠ 0, dtime := 1, didsomething := true,
                                     newer := none } s1)) ∧
    (¬ (rp.r_dep = [] ∨ (s.names np).n_time ≤
        (observe (make env fuel) level rp.r_dep s).foldl (fun a o => max a o.2) 1) →
      ruleTail env np level before.length rp l2 s2 = .ok l2 s2) := by
  have hmk : ∀ d s, Ranked rank s → (make env fuel d (level + 1) s).Ends
      (fun s' => Ranked rank s' ∧ Untouched rank d s s') :=
    fun d s h => make_untouched hsearch fuel d (level + 1) s h
  have hmkF : ∀ d s1, (make env fuel d (level + 1) s1).Ends
      (Follows (Event.allowed env.quest (level + 1)) s1) :=
    fun d s1 => make_follows env fuel d (level + 1) s1
  have hbefore : ∀ r ∈ before, ∀ d ∈ r.r_dep, rank d < rank np := fun r hr1 =>
    hr np r (by rw [hrules]; exact List.mem_append_left _ hr1)
  have hrp : ∀ d ∈ rp.r_dep, rank d < rank np :=
    hr np rp (by rw [hrules]; exact List.mem_append_right _ (List.mem_cons_self _ _))
  obtain ⟨_, hrs, hDs, hset⟩ := makeRules_settled hsearch hq fuel np level 0 before hbefore
    _ s0 hr hdbl l s hw he
  have hS : Settled np l s := hset ⟨rfl, le_refl 1, Or.inl rfl⟩
  obtain ⟨l1, hl1⟩ : ∃ l1 : Locals, l1 =
      (if rp.r_dep.isEmpty then { l with impdep := none, dtime := (s.names np).n_time }
        else { l with impdep := none }) := ⟨_, rfl⟩
  rw [← hl1] at hd
  have hl1n : l1.newer = none := by rw [hl1]; split_ifs <;> exact hS.1
  have hl1i : l1.impdep = none := by rw [hl1]; split_ifs <;> rfl
  have b1 := makeDeps_steady env _ np level hmk rp.r_dep hrp l1 s s (steady_refl np hrs)
  rw [hd] at b1
  have f2 := makeDeps_follows env _ np level hmkF rp.r_dep l1 s
  rw [hd] at f2
  have hD2 : (s2.names np).n_flag.N_DOUBLE = true := by rw [(f2.2 np).1]; exact hDs
  have seen := makeDeps_seen env _ np level hmk rp.r_dep hrp l1 l2 s s2 hrs hd
  obtain ⟨_, d2, _, i2, _⟩ := makeDeps_observe env _ np level _ _ _ _ _ hd
  have n2 := makeDeps_newer env hq _ np level _ _ _ _ _ hd
  have hi2 : l2.impdep = none := by rw [i2]; exact hl1i
  have hn2 : l2.newer = joinWords none
      (newerNames (observeNewer (make env fuel) np level rp.r_dep s)) := by
    rw [n2, hl1n]
  have hiff : (rp.r_dep = [] ∨ (s.names np).n_time ≤
        (observe (make env fuel) level rp.r_dep s).foldl (fun a o => max a o.2) 1) ↔
      (s2.names np).n_time ≤ l2.dtime := by
    rw [b1.2.2, d2, hl1]
    by_cases hE : rp.r_dep = []
    · simp [hE, observe]
    · have hE2 : rp.r_dep.isEmpty = false := by
        cases h : rp.r_dep with
        | nil => exact (hE h).elim
        | cons c cs => rfl
      simp only [hE, hE2, false_or, Bool.false_eq_true, if_false]
      rw [foldl_max_from _ l.dtime 1 hS.2.1]
      have hM := le_foldl_max (observe (make env fuel) level rp.r_dep s) 1
      rcases hS.2.2 with h1 | h1
      · rw [h1, max_eq_right hM]
      · rw [le_max_iff]
        exact ⟨fun h => Or.inr h, fun h => h.resolve_left (not_le.2 h1)⟩
  refine ⟨hS, ?_, b1.2.2, fun o ho => (seen o ho).1, hn2, fun hc => ?_, fun hc => ?_⟩
  · rw [makeRules_append, hw, Res.bind_ok, Nat.zero_add]
    unfold makeRules
    rw [ruleHead_double env np before.length rp l s hDs hcmd, Res.bind_ok]
    simp only
    rw [← hl1, hd, Res.bind_ok]
    exact Res.bind_pure _
  · exact ruleTail_run env hq np level before.length rp l2 s2 hD2 (hiff.1 hc) he2 hi2
  · exact ruleTail_idle env np level before.length rp l2 s2 hD2
      (not_le.1 (fun h => hc (hiff.2 h))) hi2

/-- C18 at the rules `n:: a` and `n:: b` with `a` older and `b` newer than
`n`: the first rule is not run and leaves `dtime` at the time of `a`, which
is less than the time of `n`; the second rule is then run because of `b`
alone. -/
theorem make_double_rule_witness :
    Settled 0
      ((makeRules plainEnv (make plainEnv 1) 0 0 0 [⟨[1], ["echo one"]⟩] { impdep := none }
        (freshState twoRules)).valueD {})
      ((makeRules plainEnv (make plainEnv 1) 0 0 0 [⟨[1], ["echo one"]⟩] { impdep := none }
        (freshState twoRules)).stateD (freshState twoRules)) ∧
    ((makeRules plainEnv (make plainEnv 1) 0 0 0 [⟨[1], ["echo one"]⟩] { impdep := none }
        (freshState twoRules)).valueD {}).dtime = 5 ∧
    (makeRules plainEnv (make plainEnv 1) 0 0 0
        ([⟨[1], ["echo one"]⟩] ++ [⟨[2], ["echo two"]⟩]) { impdep := none }
        (freshState twoRules)).final.map State.log =
      some [.call 1 1, .call 2 1, .rebuild 0 (some 1) 0, .puts "echo two",
        .system 0 "set -e;echo two" 0] := by
  have h := @make_double_rule Files targetRank plainEnv
    (fun _ _ _ _ _ _ h => Option.noConfusion h) rfl 1 0 0 (freshState twoRules)
    (by
      intro n rp hrp d hd
      rcases n with _ | _ | _ | n
      · simp only [freshState, twoRules, List.mem_cons, List.mem_singleton,
          List.not_mem_nil, or_false] at hrp
        rcases hrp with hrp | hrp <;> subst hrp <;>
          simp only [List.mem_singleton] at hd <;> subst hd <;> decide
      · simp [freshState, twoRules] at hrp
      · simp [freshState, twoRules] at hrp
      · simp [freshState, twoRules] at hrp)
    rfl [⟨[1], ["echo one"]⟩] [] ⟨[2], ["echo two"]⟩ rfl (by decide)
    ((makeRules plainEnv (make plainEnv 1) 0 0 0 [⟨[1], ["echo one"]⟩] { impdep := none }
      (freshState twoRules)).valueD {})
    ((makeRules plainEnv (make plainEnv 1) 0 0 0 [⟨[1], ["echo one"]⟩] { impdep := none }
      (freshState twoRules)).stateD (freshState twoRules))
    rfl rfl
    ((makeDeps plainEnv (make plainEnv 1) 0 0 [2]
      { (makeRules plainEnv (make plainEnv 1) 0 0 0 [⟨[1], ["echo one"]⟩] { impdep := none }
        (freshState twoRules)).valueD {} with impdep := none }
      ((makeRules plainEnv (make plainEnv 1) 0 0 0 [⟨[1], ["echo one"]⟩] { impdep := none }
        (freshState twoRules)).stateD (freshState twoRules))).valueD {})
    ((makeDeps plainEnv (make plainEnv 1) 0 0 [2]
      { (makeRules plainEnv (make plainEnv 1) 0 0 0 [⟨[1], ["echo one"]⟩] { impdep := none }
        (freshState twoRules)).valueD {} with impdep := none }
      ((makeRules plainEnv (make plainEnv 1) 0 0 0 [⟨[1], ["echo one"]⟩] { impdep := none }
        (freshState twoRules)).stateD (freshState twoRules))).stateD (freshState twoRules))
    rfl rfl
  exact ⟨h.1, by decide, by decide⟩

/-! ## What a frame adds to the log -/

theorem Event.inside_of_plain {e : Event} (np level : Nat) (h : e.plain) :
    Event.inside np level e := by
  cases e <;> first | exact h.elim | exact True.intro

theorem Event.inside_of_allowed {quest : Bool} {np level : Nat} {e : Event}
    (h : Event.allowed quest (level + 1) e) : Event.inside np level e := by
  cases e with
  | call m l => exact h
  | rebuild m rp l => exact Or.inr h.2
  | _ => exact True.intro

theorem ruleTail_inside (env : Env W) (np level i : Nat) (rp : Rule) (l : Locals)
    (s : State W) :
    (ruleTail env np level i rp l s).Ends (Follows (Event.inside np level) s) := by
  unfold ruleTail
  by_cases hD : (s.names np).n_flag.N_DOUBLE = true
  · rw [if_pos hD]
    refine Res.Ends.bind ?_ ?_
    · by_cases h2 : (!env.quest) = true ∧ (s.names np).n_time ≤ l.dtime
      · rw [if_pos h2]
        by_cases h3 : l.estat = false
        · rw [if_pos h3]
          refine Res.Ends.after (Follows.emit s (.rebuild np (some i) level) ?_)
            (Res.Ends.bind ?_ ?_)
          · exact Or.inl ⟨rfl, rfl⟩
          · refine (make1_follows env np (some rp) l.newer l.impdep _).weaken (fun _ h => ?_)
            exact h.mono (fun e he => Event.inside_of_plain np level he)
          · intro a s1 _
            exact Follows.refl _ s1
        · rw [if_neg h3]
          exact Follows.refl _ s
      · rw [if_neg h2]
        exact Follows.refl _ s
    · intro l1 s1 _
      cases l1.impdep with
      | none => exact Follows.refl _ s1
      | some ip =>
        simp only
        cases (s1.ruleAt np i).r_dep with
        | nil => exact Follows.refl _ s1
        | cons d dp => exact Follows.setRule s1 np i _
  · rw [if_neg hD]
    exact Follows.refl _ s

theorem finish_inside (env : Env W) (np level : Nat) (l : Locals) (s : State W) :
    (finish env np level l s).Ends (Follows (Event.inside np level) s) := by
  unfold finish
  simp only
  have hd : Follows (Event.inside np level) s (s.setDone np) := Follows.setDone s np
  split_ifs with h1 h2 h3 h4 h5
  · exact (hd.then_world).trans (Follows.setTime _ np _)
  · exact hd
  · have hr : Event.inside np level (.rebuild np none level) := Or.inl ⟨rfl, rfl⟩
    refine Res.Ends.after (hd.then_emit hr) (Res.Ends.bind ?_ ?_)
    · refine (make1_follows env np none l.newer l.impdep _).weaken (fun _ h => ?_)
      exact h.mono (fun e he => Event.inside_of_plain np level he)
    · intro a s1 _
      exact (Follows.then_world (Follows.refl _ s1)).trans (Follows.setTime _ np _)
  · have hw : Event.inside np level (.warning (.notBuilt np)) := True.intro
    exact hd.then_emit hw
  · have hw : Event.inside np level (.printf (.upToDate np)) := True.intro
    exact hd.then_emit hw
  · exact hd

theorem makeRules_inside (env : Env W) (mk : Nat → Nat → State W → Res W Nat)
    (np level : Nat)
    (hmk : ∀ d s, (mk d (level + 1) s).Ends (Follows (Event.allowed env.quest (level + 1)) s))
    (i : Nat) (rps : List Rule) (l : Locals) (s : State W) :
    (makeRules env mk np level i rps l s).Ends (Follows (Event.inside np level) s) := by
  have hmk2 : ∀ d s, (mk d (level + 1) s).Ends (Follows (Event.inside np level) s) :=
    fun d s => (hmk d s).weaken (fun _ h => h.mono (fun _ he => Event.inside_of_allowed he))
  induction rps generalizing i l s with
  | nil => exact Follows.refl _ s
  | cons rp rps ih =>
    unfold makeRules
    refine Res.Ends.bind (ruleHead_follows _ env np i rp l s) (fun a s1 _ => ?_)
    obtain ⟨rp1, l1⟩ := a
    refine Res.Ends.bind (makeDeps_follows_any _ env mk np level hmk2 _ _ s1)
      (fun l2 s2 _ => ?_)
    exact Res.Ends.bind (ruleTail_inside env np level i _ l2 s2) (fun l3 s3 _ => ih _ _ s3)

/-- After the mark of its call, a call of `make` adds to the log only calls
below it, its own runs of `make1`, runs from frames below it and events that
are neither. -/
theorem make_inside (env : Env W) (fuel np level : Nat) (s : State W) :
    (make env fuel np level s).Ends (fun s' =>
      ∃ rest, s'.log = s.log ++ .call np level :: rest ∧
        ∀ e ∈ rest, Event.inside np level e) := by
  cases fuel with
  | zero => trivial
  | succ fuel =>
    have hmk : ∀ d s1, (make env fuel d (level + 1) s1).Ends
        (Follows (Event.allowed env.quest (level + 1)) s1) :=
      fun d s1 => make_follows env fuel d (level + 1) s1
    have h : (makeBody env (make env fuel) np level s).Ends
        (Follows (Event.inside np level) (s.emit (.call np level))) := by
      cases hd : (s.names np).n_flag.N_DONE with
      | true =>
        rw [makeBody_done env _ np level s hd]
        exact Follows.refl _ _
      | false =>
        rw [makeBody_eq env _ np level s hd]
        refine Res.Ends.bind ?_ (fun l s3 _ => finish_inside env np level l s3)
        unfold makeWalk
        refine Res.Ends.after (Follows.probed _ env np level s) ?_
        exact Res.Ends.bind (resolve_follows _ env np _)
          (fun impdep s2 _ => makeRules_inside env _ np level hmk 0 _ _ s2)
    refine Res.Ends.weaken h (fun s' h1 => ?_)
    obtain ⟨⟨d, hd, hp⟩, _⟩ := h1
    exact ⟨d, by rw [hd]; simp [State.emit], hp⟩

/-! ## The steps of one frame, in order -/

theorem frameView_append (np level : Nat) (a b : List Event) :
    frameView np level (a ++ b) = frameView np level a ++ frameView np level b :=
  List.filter_append a b

/-- What the call for a prerequisite adds after its own mark is no step of
the frame above. -/
theorem frameView_below (np level m : Nat) (d : List Event)
    (h : ∀ e ∈ d, Event.inside m (level + 1) e) : frameView np level d = [] := by
  unfold frameView
  rw [List.filter_eq_nil_iff]
  intro e he
  have h1 := h e he
  cases e with
  | call k l =>
    have h2 : level + 1 + 1 ≤ l := h1
    simp only [Event.ofFrame, decide_eq_true_eq]
    omega
  | rebuild k rp l =>
    have h2 : (k = m ∧ l = level + 1) ∨ level + 1 + 1 ≤ l := h1
    simp only [Event.ofFrame, Bool.and_eq_true, decide_eq_true_eq, not_and]
    intro _
    omega
  | _ => simp [Event.ofFrame]

theorem frameView_plain (np level : Nat) (d : List Event) (h : ∀ e ∈ d, Event.plain e) :
    frameView np level d = [] := by
  unfold frameView
  rw [List.filter_eq_nil_iff]
  intro e he
  have h1 := h e he
  cases e with
  | call k l => exact h1.elim
  | rebuild k rp l => exact h1.elim
  | _ => simp [Event.ofFrame]

/-- The loop over the prerequisites calls `make` for each of them, in the
order of the list. -/
theorem makeDeps_view (env : Env W) (fuel np level : Nat) (ds : List Nat) (l l2 : Locals)
    (s s2 : State W) (h : makeDeps env (make env fuel) np level ds l s = .ok l2 s2) :
    ∃ d, s2.log = s.log ++ d ∧
      frameView np level d = ds.map (fun p => Event.call p (level + 1)) := by
  induction ds generalizing l s with
  | nil =>
    simp only [makeDeps, Res.ok.injEq] at h
    exact ⟨[], by rw [← h.2]; simp, rfl⟩
  | cons p ds ih =>
    simp only [makeDeps] at h
    have hin := make_inside env fuel p (level + 1) s
    cases hr1 : make env fuel p (level + 1) s with
    | timeout => rw [hr1] at h; simp at h
    | stop e s1 => rw [hr1] at h; simp at h
    | ok r s1 =>
      rw [hr1] at hin
      rw [hr1, Res.bind_ok] at h
      obtain ⟨rest, hlog, hrest⟩ := hin
      obtain ⟨d, hd, hv⟩ := ih _ s1 h
      refine ⟨.call p (level + 1) :: rest ++ d, by rw [hd, hlog]; simp, ?_⟩
      rw [frameView_append]
      show frameView np level ([.call p (level + 1)] ++ rest) ++ _ = _
      rw [frameView_append, frameView_below np level p rest hrest, hv]
      simp [frameView, Event.ofFrame]

theorem ruleHead_log (env : Env W) (np i : Nat) (rp : Rule) (l : Locals) (s : State W)
    (rp1 : Rule) (l1 : Locals) (s1 : State W)
    (h : ruleHead env np i rp l s = .ok (rp1, l1) s1) :
    s1.log = s.log ∧ (((s.names np).n_flag.N_DOUBLE = false ∨ rp.r_cmd ≠ []) → rp1 = rp) := by
  have hf := ruleHead_follows (fun _ => False) env np i rp l s
  rw [h] at hf
  obtain ⟨⟨d, hd, hp⟩, _⟩ := hf
  refine ⟨?_, fun hc => ?_⟩
  · cases d with
    | nil => simpa using hd
    | cons e d => exact (hp e (List.mem_cons_self _ _)).elim
  · cases hD : (s.names np).n_flag.N_DOUBLE with
    | false =>
      rw [ruleHead_single env np i rp l s hD] at h
      simp only [Res.ok.injEq, Prod.mk.injEq] at h
      exact h.1.1.symm
    | true =>
      have hcmd : rp.r_cmd ≠ [] := by
        rcases hc with h1 | h1
        · rw [hD] at h1; exact Bool.noConfusion h1
        · exact h1
      rw [ruleHead_double env np i rp l s hD hcmd] at h
      simp only [Res.ok.injEq, Prod.mk.injEq] at h
      exact h.1.1.symm

/-- The tail of a turn adds no step of the frame, or the run of the rule. -/
theorem ruleTail_view (env : Env W) (np level i : Nat) (rp : Rule) (l : Locals) (s : State W)
    (l3 : Locals) (s3 : State W) (h : ruleTail env np level i rp l s = .ok l3 s3) :
    ∃ d b, s3.log = s.log ++ d ∧
      frameView np level d = (if b = true then [Event.rebuild np (some i) level] else []) ∧
      ((s.names np).n_flag.N_DOUBLE = false → b = false) := by
  cases hD : (s.names np).n_flag.N_DOUBLE with
  | false =>
    rw [ruleTail_single env np level i rp l s hD] at h
    simp only [Res.ok.injEq] at h
    exact ⟨[], false, by rw [← h.2]; simp, rfl, fun _ => rfl⟩
  | true =>
    unfold ruleTail at h
    rw [if_pos hD] at h
    obtain ⟨l1, s1, hran, hcons⟩ := Res.bind_eq_ok h
    have hl : s3.log = s1.log := by
      cases hi : l1.impdep with
      | none => rw [hi] at hcons; simp only [Res.ok.injEq] at hcons; rw [← hcons.2]
      | some ip =>
        rw [hi] at hcons
        simp only at hcons
        cases hdp : (s1.ruleAt np i).r_dep with
        | nil => rw [hdp] at hcons; simp at hcons
        | cons d dp =>
          rw [hdp] at hcons; simp only [Res.ok.injEq] at hcons
          rw [← hcons.2]; rfl
    rw [hl]
    by_cases h2 : (!env.quest) = true ∧ (s.names np).n_time ≤ l.dtime
    · rw [if_pos h2] at hran
      by_cases h3 : l.estat = false
      · rw [if_pos h3] at hran
        obtain ⟨e, s4, hm, h4⟩ := Res.bind_eq_ok hran
        simp only [Res.ok.injEq] at h4
        have hf := make1_follows env np (some rp) l.newer l.impdep
          (s.emit (.rebuild np (some i) level))
        rw [hm] at hf
        obtain ⟨⟨d, hd, hp⟩, _⟩ := hf
        refine ⟨.rebuild np (some i) level :: d, true, by rw [← h4.2, hd]; simp [State.emit],
          ?_, fun hc => Bool.noConfusion hc⟩
        show frameView np level ([.rebuild np (some i) level] ++ d) = _
        rw [frameView_append, frameView_plain np level d hp]
        simp [frameView, Event.ofFrame]
      · rw [if_neg h3] at hran
        simp only [Res.ok.injEq] at hran
        exact ⟨[], false, by rw [← hran.2]; simp, rfl, fun _ => rfl⟩
    · rw [if_neg h2] at hran
      simp only [Res.ok.injEq] at hran
      exact ⟨[], false, by rw [← hran.2]; simp, rfl, fun _ => rfl⟩

/-- The loop over the rules takes the rules in order: in each turn it calls
`make` for the prerequisites of the rule, in the order of the list, and then
runs the rule or not. -/
theorem makeRules_view (env : Env W) (fuel np level i : Nat) (rps : List Rule)
    (l l' : Locals) (s s' : State W)
    (h : makeRules env (make env fuel) np level i rps l s = .ok l' s') :
    ∃ d turns, s'.log = s.log ++ d ∧ frameView np level d = walkShape np level i turns ∧
      List.Forall₂ (turnOf (s.names np).n_flag.N_DOUBLE) turns rps := by
  induction rps generalizing i l s with
  | nil =>
    simp only [makeRules, Res.ok.injEq] at h
    exact ⟨[], [], by rw [← h.2]; simp, rfl, List.Forall₂.nil⟩
  | cons rp rps ih =>
    unfold makeRules at h
    obtain ⟨x, s1, hH, h1⟩ := Res.bind_eq_ok h
    obtain ⟨rp1, l1⟩ := x
    obtain ⟨l2, s2, hM, h2⟩ := Res.bind_eq_ok h1
    obtain ⟨l3, s3, hT, h3⟩ := Res.bind_eq_ok h2
    have f1 := ruleHead_follows (fun _ => True) env np i rp l s
    rw [hH] at f1
    have f2 := makeDeps_follows env _ np level
      (fun d s1 => make_follows env fuel d (level + 1) s1) rp1.r_dep l1 s1
    rw [hM] at f2
    have f3 := ruleTail_follows env np level i rp1 l2 s2
    rw [hT] at f3
    have hD2 : (s2.names np).n_flag.N_DOUBLE = (s.names np).n_flag.N_DOUBLE := by
      rw [(f2.2 np).1, (f1.2 np).1]
    have hD3 : (s3.names np).n_flag.N_DOUBLE = (s.names np).n_flag.N_DOUBLE := by
      rw [(f3.2 np).1, hD2]
    obtain ⟨hl1, hrp1⟩ := ruleHead_log env np i rp l s rp1 l1 s1 hH
    obtain ⟨d2, hd2, hv2⟩ := makeDeps_view env fuel np level rp1.r_dep l1 l2 s1 s2 hM
    obtain ⟨d3, b, hd3, hv3, hb⟩ := ruleTail_view env np level i rp1 l2 s2 l3 s3 hT
    obtain ⟨d4, turns, hd4, hv4, hall⟩ := ih (i + 1) l3 s3 h3
    rw [hD3] at hall
    refine ⟨d2 ++ d3 ++ d4, (rp1.r_dep, b) :: turns, ?_, ?_, List.Forall₂.cons ⟨?_, ?_⟩ hall⟩
    · rw [hd4, hd3, hd2, hl1]; simp
    · rw [frameView_append, frameView_append, hv2, hv3, hv4]
      rfl
    · intro hc
      show rp1.r_dep = rp.r_dep
      rw [hrp1 hc]
    · intro hc
      exact hb (by rw [hD2]; exact hc)

/-! ## The commands of a target, in order -/

theorem cmdFlags_congr (env : Env W) (np : Nat) (c : String) (s s' : State W)
    (hn : s'.names = s.names) (hm : s'.macros = s.macros) :
    cmdExecuted env np c s' = cmdExecuted env np c s ∧
    shellText env np c s' = shellText env np c s := by
  simp only [cmdExecuted, shellText, cmdIgnored, cmdText, hn, hm, and_self]

theorem shellLines_congr (env : Env W) (np : Nat) (cs : List String) (s s' : State W)
    (hn : s'.names = s.names) (hm : s'.macros = s.macros) :
    shellLines env np cs s' = shellLines env np cs s := by
  unfold shellLines
  have h1 : (fun c => cmdExecuted env np c s') = (fun c => cmdExecuted env np c s) :=
    funext (fun c => (cmdFlags_congr env np c s s' hn hm).1)
  have h2 : (fun c => (np, shellText env np c s')) = (fun c => (np, shellText env np c s)) :=
    funext (fun c => by rw [(cmdFlags_congr env np c s s' hn hm).2])
  rw [h1, h2]

theorem shellLines_cons (env : Env W) (np : Nat) (c : String) (cs : List String)
    (s : State W) :
    shellLines env np (c :: cs) s =
      (if cmdExecuted env np c s then [(np, shellText env np c s)] else []) ++
        shellLines env np cs s := by
  unfold shellLines
  by_cases h : cmdExecuted env np c s = true
  · simp [List.filter_cons, h]
  · simp [List.filter_cons, h]

theorem shellLines_append (env : Env W) (np : Nat) (as bs : List String) (s : State W) :
    shellLines env np (as ++ bs) s = shellLines env np as s ++ shellLines env np bs s := by
  unfold shellLines
  rw [List.filter_append, List.map_append]

theorem submitted_append (a b : List Event) :
    submitted (a ++ b) = submitted a ++ submitted b :=
  List.filterMap_append a b _

theorem Res.Holds.imp {α : Type} {r : Res W α} {A B C D : State W → Prop}
    (h : r.Holds A B) (h1 : ∀ s, A s → C s) (h2 : ∀ s, B s → D s) : r.Holds C D := by
  cases r with
  | ok a s1 => exact h1 _ h
  | stop e s1 => exact h2 _ h
  | timeout => trivial

theorem handed_refl (s : State W) : Handed [] s s :=
  ⟨rfl, rfl, [], by simp, rfl⟩

theorem handed_trans {a b : List (Nat × String)} {s s1 s2 : State W}
    (h1 : Handed a s s1) (h2 : Handed b s1 s2) : Handed (a ++ b) s s2 := by
  obtain ⟨n1, m1, d1, l1, e1⟩ := h1
  obtain ⟨n2, m2, d2, l2, e2⟩ := h2
  exact ⟨n2.trans n1, m2.trans m1, d1 ++ d2, by rw [l2, l1, List.append_assoc],
    by rw [submitted_append, e1, e2]⟩

theorem handed_some {a : List (Nat × String)} (b : List (Nat × String)) {s s1 : State W}
    (h1 : Handed a s s1) : HandedSome (a ++ b) s s1 := by
  obtain ⟨_, _, d1, l1, e1⟩ := h1
  exact ⟨d1, l1, by rw [e1]; exact List.prefix_append a b⟩

theorem handed_then_some {a b : List (Nat × String)} {s s1 s2 : State W}
    (h1 : Handed a s s1) (h2 : HandedSome b s1 s2) : HandedSome (a ++ b) s s2 := by
  obtain ⟨_, _, d1, l1, e1⟩ := h1
  obtain ⟨d2, l2, e2⟩ := h2
  exact ⟨d1 ++ d2, by rw [l2, l1, List.append_assoc],
    by rw [submitted_append, e1]; exact (List.prefix_append_right_inj a).2 e2⟩

theorem docmd_handed (env : Env W) (np : Nat) (c : String) (estat : Nat) (s : State W) :
    (docmd env np c estat s).Ends
      (Handed (if cmdExecuted env np c s then [(np, shellText env np c s)] else []) s) := by
  have h1 := docmd_names env np c estat s
  have h2 := docmd_macros env np c estat s
  have h3 := docmd_submitted env np c estat s
  cases hr : docmd env np c estat s with
  | timeout => trivial
  | ok a s1 => rw [hr] at h1 h2 h3; exact ⟨h1, h2, h3⟩
  | stop e s1 => rw [hr] at h1 h2 h3; exact ⟨h1, h2, h3⟩

/-- The loop of `docmds1` hands the commands to the shell in the order of the
list: all that are executed if it returns, the first few of them if it
stops. -/
theorem docmdsFrom_handed (env : Env W) (np : Nat) (cs : List String) (estat : Nat)
    (s : State W) :
    (docmdsFrom env np cs estat s).Holds (Handed (shellLines env np cs s) s)
      (HandedSome (shellLines env np cs s) s) := by
  induction cs generalizing estat s with
  | nil => exact handed_refl s
  | cons c cs ih =>
    unfold docmdsFrom
    rw [shellLines_cons]
    refine Res.Holds.bind_holds
      (Res.Holds.of_ends (docmd_handed env np c estat s) (fun _ h => h))
      (fun a s1 _ h1 => ?_) (fun s1 h1 => handed_some _ h1)
    have h2 := ih a s1
    rw [shellLines_congr env np cs s s1 h1.1 h1.2.1] at h2
    exact h2.imp (fun _ h => handed_trans h1 h) (fun _ h => handed_then_some h1 h)

/-- The loop of `docmds` hands the commands of the rules to the shell rule by
rule, in the order of the rules. -/
theorem docmdsRules_handed (env : Env W) (np : Nat) (rps : List Rule) (estat : Nat)
    (s : State W) :
    (docmdsRules env np rps estat s).Holds
      (Handed (shellLines env np (rps.flatMap (fun rp => rp.r_cmd)) s) s)
      (HandedSome (shellLines env np (rps.flatMap (fun rp => rp.r_cmd)) s) s) := by
  induction rps generalizing estat s with
  | nil => exact handed_refl s
  | cons rp rps ih =>
    unfold docmdsRules docmds1
    rw [List.flatMap_cons, shellLines_append]
    refine Res.Holds.bind_holds (docmdsFrom_handed env np rp.r_cmd 0 s)
      (fun a s1 _ h1 => ?_) (fun s1 h1 => ?_)
    · have h2 := ih (estat ||| a) s1
      rw [shellLines_congr env np _ s s1 h1.1 h1.2.1] at h2
      exact h2.imp (fun _ h => handed_trans h1 h) (fun _ h => handed_then_some h1 h)
    · obtain ⟨d, hd, hp⟩ := h1
      exact ⟨d, hd, hp.trans (List.prefix_append _ _)⟩

theorem touch_handed (env : Env W) (np : Nat) (s : State W) :
    Handed [] s (touch env np s) := by
  refine ⟨touch_names env np s, touch_macros env np s, ?_⟩
  unfold touch
  simp only
  split_ifs <;> simp [State.emit, submitted, Event.shell]

/-- A run of `make1` hands the commands of its rule, or of all rules of the
target rule by rule, to the shell in order, each as expanded with the macros
`make1` has set. -/
theorem make1_handed (env : Env W) (np : Nat) (rp : Option Rule) (newer : Option String)
    (implicit : Option Nat) (s : State W) :
    (make1 env np rp newer implicit s).Holds
      (fun s' => ∃ d, s'.log = s.log ++ d ∧ (∀ e ∈ d, Event.plain e) ∧
        submitted d = shellLines env np (cmdsOf s np rp) (autoMacros env np newer implicit s))
      (fun s' => ∃ d, s'.log = s.log ++ d ∧ (∀ e ∈ d, Event.plain e) ∧
        submitted d <+: shellLines env np (cmdsOf s np rp)
          (autoMacros env np newer implicit s)) := by
  have hf := make1_follows env np rp newer implicit s
  have h1 : (make1 env np rp newer implicit s).Holds
      (Handed (shellLines env np (cmdsOf s np rp) (autoMacros env np newer implicit s))
        (autoMacros env np newer implicit s))
      (HandedSome (shellLines env np (cmdsOf s np rp) (autoMacros env np newer implicit s))
        (autoMacros env np newer implicit s)) := by
    unfold make1
    simp only
    have h0 : (match rp with
        | some rule => docmds1 env np rule (autoMacros env np newer implicit s)
        | none => docmds env np (autoMacros env np newer implicit s)).Holds
        (Handed (shellLines env np (cmdsOf s np rp) (autoMacros env np newer implicit s))
          (autoMacros env np newer implicit s))
        (HandedSome (shellLines env np (cmdsOf s np rp) (autoMacros env np newer implicit s))
          (autoMacros env np newer implicit s)) := by
      cases rp with
      | none =>
        have hn : (s.names np).n_rule =
            ((autoMacros env np newer implicit s).names np).n_rule := by
          rw [autoMacros_names]
        unfold cmdsOf
        simp only
        rw [hn]
        exact docmdsRules_handed env np _ 0 (autoMacros env np newer implicit s)
      | some rule => exact docmdsFrom_handed env np rule.r_cmd 0 _
    refine Res.Holds.bind_holds h0 (fun a s1 _ hq => ?_) (fun _ hq => hq)
    show Handed _ _ (if env.dotouch then touch env np s1 else s1)
    split_ifs
    · have h2 := handed_trans hq (touch_handed env np s1)
      rw [List.append_nil] at h2
      exact h2
    · exact hq
  have hl := autoMacros_log env np newer implicit s
  cases hr : make1 env np rp newer implicit s with
  | timeout => trivial
  | ok a s1 =>
    rw [hr] at h1 hf
    obtain ⟨_, _, d, hd, hs⟩ := h1
    obtain ⟨⟨d2, hd2, hp⟩, _⟩ := hf
    rw [hl] at hd
    have : d2 = d := List.append_cancel_left (hd2.symm.trans hd)
    subst this
    exact ⟨d2, hd, hp, hs⟩
  | stop e s1 =>
    rw [hr] at h1 hf
    obtain ⟨d, hd, hs⟩ := h1
    obtain ⟨⟨d2, hd2, hp⟩, _⟩ := hf
    rw [hl] at hd
    have : d2 = d := List.append_cancel_left (hd2.symm.trans hd)
    subst this
    exact ⟨d2, hd, hp, hs⟩

/-- A run of `make1` right after its mark in the log. -/
theorem make1_run (env : Env W) (np level : Nat) (tag : Option Nat) (rp : Option Rule)
    (newer : Option String) (implicit : Option Nat) (s : State W) :
    (make1 env np rp newer implicit (s.emit (.rebuild np tag level))).Holds
      (fun s' => ∃ d, s'.log = s.log ++ d ∧ RunLog np level tag
        (shellLines env np (cmdsOf s np rp) (autoMacros env np newer implicit s)) d)
      (fun s' => ∃ d, s'.log = s.log ++ d ∧ RunLogSome np level tag
        (shellLines env np (cmdsOf s np rp) (autoMacros env np newer implicit s)) d) := by
  have h := make1_handed env np rp newer implicit (s.emit (.rebuild np tag level))
  have hc : shellLines env np (cmdsOf (s.emit (.rebuild np tag level)) np rp)
      (autoMacros env np newer implicit (s.emit (.rebuild np tag level))) =
      shellLines env np (cmdsOf s np rp) (autoMacros env np newer implicit s) := by
    refine shellLines_congr env np _ _ _ ?_ ?_
    · rw [autoMacros_names, autoMacros_names]; rfl
    · cases implicit <;> rfl
  rw [hc] at h
  exact h.imp
    (fun s' ⟨d, hd, hp, hs⟩ => ⟨.rebuild np tag level :: d, by rw [hd]; simp [State.emit],
      d, rfl, hp, hs⟩)
    (fun s' ⟨d, hd, hp, hs⟩ => ⟨.rebuild np tag level :: d, by rw [hd]; simp [State.emit],
      d, rfl, hp, hs⟩)

/-! ## The order in which a frame calls `make` and runs commands -/

theorem runLog_some {np level : Nat} {tag : Option Nat} {lines : List (Nat × String)}
    {d : List Event} (h : RunLog np level tag lines d) : RunLogSome np level tag lines d := by
  obtain ⟨d', hd, hp, hs⟩ := h
  exact ⟨d', hd, hp, by rw [hs]⟩

/-- The tail of a turn adds nothing to the log, or a run of `make1` on the
rule of the turn: the mark of the run, followed by the commands of that rule
in the order of the rule. -/
theorem ruleTail_order (env : Env W) (np level i : Nat) (rp : Rule) (l : Locals)
    (s : State W) :
    (ruleTail env np level i rp l s).Holds
      (fun s' => ∃ d, s'.log = s.log ++ d ∧ (d = [] ∨ RunLog np level (some i)
        (shellLines env np rp.r_cmd (autoMacros env np l.newer l.impdep s)) d))
      (fun s' => ∃ d, s'.log = s.log ++ d ∧ (d = [] ∨ RunLogSome np level (some i)
        (shellLines env np rp.r_cmd (autoMacros env np l.newer l.impdep s)) d)) := by
  unfold ruleTail
  by_cases hD : (s.names np).n_flag.N_DOUBLE = true
  · rw [if_pos hD]
    refine Res.Holds.bind_holds
      (A := fun s' => ∃ d, s'.log = s.log ++ d ∧ (d = [] ∨ RunLog np level (some i)
        (shellLines env np rp.r_cmd (autoMacros env np l.newer l.impdep s)) d))
      (B := fun s' => ∃ d, s'.log = s.log ++ d ∧ (d = [] ∨ RunLogSome np level (some i)
        (shellLines env np rp.r_cmd (autoMacros env np l.newer l.impdep s)) d))
      ?_ ?_ (fun _ hq => hq)
    · by_cases h2 : (!env.quest) = true ∧ (s.names np).n_time ≤ l.dtime
      · rw [if_pos h2]
        by_cases h3 : l.estat = false
        · rw [if_pos h3]
          refine Res.Holds.bind_holds
            (make1_run env np level (some i) (some rp) l.newer l.impdep s)
            (fun e s1 _ hq => ?_) (fun s1 hq => ?_)
          · obtain ⟨d, hd, hr⟩ := hq
            exact ⟨d, hd, Or.inr hr⟩
          · obtain ⟨d, hd, hr⟩ := hq
            exact ⟨d, hd, Or.inr hr⟩
        · rw [if_neg h3]
          exact ⟨[], by simp, Or.inl rfl⟩
      · rw [if_neg h2]
        exact ⟨[], by simp, Or.inl rfl⟩
    · intro l1 s1 _ hq
      cases l1.impdep with
      | none => exact hq
      | some ip =>
        simp only
        cases (s1.ruleAt np i).r_dep with
        | nil =>
          obtain ⟨d, hd, hr⟩ := hq
          exact ⟨d, hd, hr.imp (fun h => h) runLog_some⟩
        | cons d dp => exact hq
  · rw [if_neg hD]
    exact ⟨[], by simp, Or.inl rfl⟩

/-- The final decision adds to the log events that are no marks and no
commands, or a run of `make1` on all rules: the mark of the run, followed by
the commands of the target rule by rule, in the order of the rules and of
each rule. -/
theorem finish_order (env : Env W) (np level : Nat) (l : Locals) (s : State W) :
    (finish env np level l s).Holds
      (fun s' => ∃ d, s'.log = s.log ++ d ∧
        ((∀ e ∈ d, Event.plain e ∧ Event.shell e = none) ∨ RunLog np level none
          (shellLines env np (cmdsOf (s.setDone np) np none)
            (autoMacros env np l.newer l.impdep (s.setDone np))) d))
      (fun s' => ∃ d, s'.log = s.log ++ d ∧ RunLogSome np level none
          (shellLines env np (cmdsOf (s.setDone np) np none)
            (autoMacros env np l.newer l.impdep (s.setDone np))) d) := by
  unfold finish
  simp only
  by_cases hq : env.quest = true
  · rw [if_pos hq]
    split_ifs
    · exact ⟨[], by simp [State.setTime, State.modify, State.setDone], Or.inl (by simp)⟩
    · exact ⟨[], by simp [State.setDone, State.modify], Or.inl (by simp)⟩
  · rw [if_neg hq]
    by_cases h1 : ((s.setDone np).names np).n_time ≤ l.dtime ∧
        (!((s.setDone np).names np).n_flag.N_DOUBLE) = true
    · rw [if_pos h1]
      by_cases h2 : l.estat = false
      · rw [if_pos h2]
        refine Res.Holds.bind_holds
          (make1_run env np level none none l.newer l.impdep (s.setDone np))
          (fun e s1 _ hq => ?_) (fun s1 hq => ?_)
        · obtain ⟨d, hd, hr⟩ := hq
          refine ⟨d, ?_, Or.inr hr⟩
          show (State.setTime _ np _).log = _
          simpa [State.setTime, State.modify, State.setDone] using hd
        · obtain ⟨d, hd, hr⟩ := hq
          exact ⟨d, by simpa [State.setDone, State.modify] using hd, hr⟩
      · rw [if_neg h2]
        exact ⟨[.warning (.notBuilt np)], by simp [State.emit, State.setDone, State.modify],
          Or.inl (by simp [Event.plain, Event.shell])⟩
    · rw [if_neg h1]
      split_ifs
      · exact ⟨[.printf (.upToDate np)], by simp [State.emit, State.setDone, State.modify],
          Or.inl (by simp [Event.plain, Event.shell])⟩
      · exact ⟨[], by simp [State.setDone, State.modify], Or.inl (by simp)⟩

/-- C16: let the frame `make(np, level)` have walked the rules of `np`. Then
the steps of the frame after the mark of its call are, rule by rule in the
order of the rules, the calls of `make` for the prerequisites of the rule, in
the order of its list, followed by the run of that rule if it is run in the
turn (a `::` target only). For a target without `::` the steps of the walk
are the calls for all prerequisites of all rules in that order, and only then
the final decision adds its run of `make1`, if any. A run of `make1` is a
mark followed by the commands it hands to the shell: those of the rule of the
turn in the order of the rule, or at the final decision those of all rules,
rule by rule. -/
theorem make_declaration_order (env : Env W) (fuel np level : Nat) (s : State W)
    (l : Locals) (s3 : State W) (hw : makeWalk env (make env fuel) np level s = .ok l s3) :
    (∃ d turns, s3.log = s.log ++ .call np level :: d ∧
      frameView np level d = walkShape np level 0 turns ∧
      List.Forall₂ (turnOf (s.names np).n_flag.N_DOUBLE) turns
        ((entry env np level s).names np).n_rule) ∧
    ((s.names np).n_flag.N_DOUBLE = false →
      ∃ d, s3.log = s.log ++ .call np level :: d ∧
        frameView np level d =
          (prereqs (entry env np level s) np).map (fun p => Event.call p (level + 1))) ∧
    (∀ i rp l2 s2, (ruleTail env np level i rp l2 s2).Holds
      (fun s' => ∃ d, s'.log = s2.log ++ d ∧ (d = [] ∨ RunLog np level (some i)
        (shellLines env np rp.r_cmd (autoMacros env np l2.newer l2.impdep s2)) d))
      (fun s' => ∃ d, s'.log = s2.log ++ d ∧ (d = [] ∨ RunLogSome np level (some i)
        (shellLines env np rp.r_cmd (autoMacros env np l2.newer l2.impdep s2)) d))) ∧
    (finish env np level l s3).Holds
      (fun s' => ∃ d, s'.log = s3.log ++ d ∧
        ((∀ e ∈ d, Event.plain e ∧ Event.shell e = none) ∨ RunLog np level none
          (shellLines env np (cmdsOf (s3.setDone np) np none)
            (autoMacros env np l.newer l.impdep (s3.setDone np))) d))
      (fun s' => ∃ d, s'.log = s3.log ++ d ∧ RunLogSome np level none
          (shellLines env np (cmdsOf (s3.setDone np) np none)
            (autoMacros env np l.newer l.impdep (s3.setDone np))) d) := by
  have hmk : ∀ d s1, (make env fuel d (level + 1) s1).Ends
      (Follows (Event.allowed env.quest (level + 1)) s1) :=
    fun d s1 => make_follows env fuel d (level + 1) s1
  refine ⟨?_, fun hdbl => ?_, fun i rp l2 s2 => ruleTail_order env np level i rp l2 s2,
    finish_order env np level l s3⟩
  · obtain ⟨impdep, _, h2⟩ := entry_of_walk env _ np level s l s3 hw
    obtain ⟨d, turns, hd, hv, hall⟩ := makeRules_view env fuel np level 0 _ _ _ _ _ h2
    rw [entry_double] at hall
    exact ⟨d, turns, by rw [hd, entry_log]; simp, hv, hall⟩
  · obtain ⟨impdep, h2⟩ := walk_single env _ np level hmk s hdbl l s3 hw
    obtain ⟨d, hd, hv⟩ := makeDeps_view env fuel np level _ _ _ _ _ h2
    exact ⟨d, by rw [hd, entry_log]; simp, hv⟩

/-- C16 at the rules `n:: a` and `n:: b`: the frame of `n` calls `make` for
`a`, then for `b`, and then runs the second rule. -/
theorem make_declaration_order_witness :
    ∃ d turns,
      ((makeWalk plainEnv (make plainEnv 1) 0 0 (freshState twoRules)).stateD
        (freshState twoRules)).log = (freshState twoRules).log ++ .call 0 0 :: d ∧
      frameView 0 0 d = walkShape 0 0 0 turns ∧
      List.Forall₂ (turnOf ((freshState twoRules).names 0).n_flag.N_DOUBLE) turns
        ((entry plainEnv 0 0 (freshState twoRules)).names 0).n_rule :=
  (make_declaration_order plainEnv 1 0 0 (freshState twoRules)
    ((makeWalk plainEnv (make plainEnv 1) 0 0 (freshState twoRules)).valueD {})
    ((makeWalk plainEnv (make plainEnv 1) 0 0 (freshState twoRules)).stateD
      (freshState twoRules)) rfl).1

/-! ## The modifiers `+`, `@` and `-` in front of a command -/

/-- C23: for a command with `+` among its leading modifiers, the command is
echoed exactly when there is no `@` among them and the target does not carry
`N_SILENT`; neither the order of the modifiers nor the silent, dry-run and
touch options enter. One turn of the loop of `docmds1` writes the command
once when it is echoed and not at all otherwise. -/
theorem docmds1_plus_echo (env : Env W) (np : Nat) (c : String) (estat : Nat) (s : State W)
    (hplus : '+' ∈ modRun env c s) :
    (cmdEchoed env np c s = true ↔
      ('@' ∉ modRun env c s ∧ (s.names np).n_flag.N_SILENT = false)) ∧
    (docmd env np c estat s).Ends (fun s' => ∃ d, s'.log = s.log ++ d ∧
      echoed d = if '@' ∉ modRun env c s ∧ (s.names np).n_flag.N_SILENT = false
        then [cmdText env np c s] else []) := by
  have hiff : cmdEchoed env np c s = true ↔
      ('@' ∉ modRun env c s ∧ (s.names np).n_flag.N_SILENT = false) := by
    rw [cmdEchoed_iff, if_pos hplus]
  refine ⟨hiff, ?_⟩
  have h := docmd_log env np c estat s
  have hech : ∀ d, d = ((if cmdEchoed env np c s then [Event.puts (cmdText env np c s)] else []) ++
        if cmdExecuted env np c s then
          Event.system np (shellText env np c s) (shellStatus env np c s) ::
            (if shellStatus env np c s ≠ -1 ∧ shellStatus env np c s ≠ 0 ∧
                cmdIgnored env np c s = false
              then [Event.warning (.failedToBuild np)] else [])
        else []) →
      echoed d = if '@' ∉ modRun env c s ∧ (s.names np).n_flag.N_SILENT = false
        then [cmdText env np c s] else [] := by
    intro d hd
    subst hd
    by_cases h4 : cmdEchoed env np c s = true
    · rw [if_pos (hiff.1 h4)]
      by_cases h1 : cmdExecuted env np c s = true <;>
        by_cases h3 : shellStatus env np c s ≠ -1 ∧ shellStatus env np c s ≠ 0 ∧
          cmdIgnored env np c s = false <;>
        simp [echoed, Event.echo, h1, h4, h3]
    · rw [if_neg (fun hc => h4 (hiff.2 hc))]
      by_cases h1 : cmdExecuted env np c s = true <;>
        by_cases h3 : shellStatus env np c s ≠ -1 ∧ shellStatus env np c s ≠ 0 ∧
          cmdIgnored env np c s = false <;>
        simp [echoed, Event.echo, h1, h4, h3]
  cases hr : docmd env np c estat s with
  | timeout => trivial
  | ok e s' => rw [hr] at h; exact ⟨_, h, hech _ rfl⟩
  | stop e s' => rw [hr] at h; exact ⟨_, h, hech _ rfl⟩

/-- C23 at the command `+@echo hi` under dry-run with the silent option: the
`@` keeps it from being echoed, the command is still run. -/
theorem docmds1_plus_echo_witness :
    (docmd { dryEnv with silent := true } 0 "+@echo hi" 0 (freshState quiet)).Ends
      (fun s' => ∃ d, s'.log = (freshState quiet).log ++ d ∧
        echoed d = if '@' ∉ modRun { dryEnv with silent := true } "+@echo hi"
            (freshState quiet) ∧ ((freshState quiet).names 0).n_flag.N_SILENT = false
          then [cmdText { dryEnv with silent := true } 0 "+@echo hi" (freshState quiet)]
          else []) :=
  (docmds1_plus_echo { dryEnv with silent := true } 0 "+@echo hi" 0 (freshState quiet)
    (by decide)).2

/-- C24: the text after the modifiers is the expanded command without its
whole leading run of `@`, `-` and `+`; the string handed to the shell is that
text, with `set -e;` in front exactly when a failure is not ignored (no `-`
in the run, no ignore option, target without `N_IGNORE`); and a command that
is executed is handed to the shell as that string, once. -/
theorem docmds1_shell_text (env : Env W) (np : Nat) (c : String) (estat : Nat) (s : State W)
    (hexec : cmdExecuted env np c s = true) :
    cmdText env np c s = String.mk ((env.expand_macros s.macros c).data.dropWhile isMod) ∧
    shellText env np c s =
      (if env.ignore = false ∧ (s.names np).n_flag.N_IGNORE = false ∧ '-' ∉ modRun env c s
        then "set -e;" ++ cmdText env np c s else cmdText env np c s) ∧
    (docmd env np c estat s).Ends (fun s' => ∃ d, s'.log = s.log ++ d ∧
      submitted d = [(np, shellText env np c s)]) := by
  refine ⟨?_, ?_, ?_⟩
  · unfold cmdText cmdFlags
    simp only [scanMods_eq]
  · unfold shellText
    by_cases hi : cmdIgnored env np c s = true
    · have h := (cmdIgnored_iff env np c s).1 hi
      rw [if_pos hi, if_neg]
      rintro ⟨h1, h2, h3⟩
      rcases h with h | h | h
      · rw [h1] at h; exact Bool.noConfusion h
      · rw [h2] at h; exact Bool.noConfusion h
      · exact h3 h
    · have h := fun hc => hi ((cmdIgnored_iff env np c s).2 hc)
      rw [if_neg hi, if_pos]
      refine ⟨?_, ?_, fun hc => h (Or.inr (Or.inr hc))⟩
      · cases he : env.ignore with
        | false => rfl
        | true => exact (h (Or.inl he)).elim
      · cases he : (s.names np).n_flag.N_IGNORE with
        | false => rfl
        | true => exact (h (Or.inr (Or.inl he))).elim
  · have h := docmd_submitted env np c estat s
    rw [hexec] at h
    exact h

/-- C24 at the command `-@+echo hi` under dry-run: `echo hi` is handed to the
shell without `set -e;`. -/
theorem docmds1_shell_text_witness :
    cmdText dryEnv 0 "-@+echo hi" (freshState quiet) =
      String.mk ((dryEnv.expand_macros (freshState quiet).macros "-@+echo hi").data.dropWhile
        isMod) ∧
    shellText dryEnv 0 "-@+echo hi" (freshState quiet) = "echo hi" :=
  ⟨(docmds1_shell_text dryEnv 0 "-@+echo hi" 0 (freshState quiet) (by decide)).1, by decide⟩

/-! ## The three outcomes of the final decision -/

theorem follows_of_names {P : Event → Prop} {s s' : State W} (hn : s'.names = s.names)
    (d : List Event) (hl : s'.log = s.log ++ d) (hp : ∀ e ∈ d, P e) : Follows P s s' :=
  ⟨⟨d, hl, hp⟩, fun m => by rw [hn]; exact ⟨rfl, id, id⟩⟩

theorem docmd_commands (env : Env W) (np : Nat) (c : String) (estat : Nat) (s : State W) :
    (docmd env np c estat s).Ends (Follows Event.ofCommand s) := by
  have h1 := docmd_names env np c estat s
  have h2 := docmd_log env np c estat s
  have hall : ∀ e ∈ ((if cmdEchoed env np c s then [Event.puts (cmdText env np c s)] else []) ++
        if cmdExecuted env np c s then
          Event.system np (shellText env np c s) (shellStatus env np c s) ::
            (if shellStatus env np c s ≠ -1 ∧ shellStatus env np c s ≠ 0 ∧
                cmdIgnored env np c s = false
              then [Event.warning (.failedToBuild np)] else [])
        else []), Event.ofCommand e := by
    intro e he
    simp only [List.mem_append] at he
    rcases he with he | he
    · split_ifs at he <;> simp at he; subst he; exact True.intro
    · split_ifs at he <;> simp at he <;>
        first | (subst he; exact True.intro) | (rcases he with rfl | rfl <;> exact True.intro)
  cases hr : docmd env np c estat s with
  | timeout => trivial
  | ok a s1 => rw [hr] at h1 h2; exact follows_of_names h1 _ h2 hall
  | stop e s1 => rw [hr] at h1 h2; exact follows_of_names h1 _ h2 hall

theorem docmdsFrom_commands (env : Env W) (np : Nat) (cs : List String) (estat : Nat)
    (s : State W) : (docmdsFrom env np cs estat s).Ends (Follows Event.ofCommand s) := by
  induction cs generalizing estat s with
  | nil => exact Follows.refl _ s
  | cons c cs ih => exact (docmd_commands env np c estat s).bind (fun a s1 _ => ih a s1)

theorem docmdsRules_commands (env : Env W) (np : Nat) (rps : List Rule) (estat : Nat)
    (s : State W) : (docmdsRules env np rps estat s).Ends (Follows Event.ofCommand s) := by
  induction rps generalizing estat s with
  | nil => exact Follows.refl _ s
  | cons rp rps ih =>
    exact (docmdsFrom_commands env np rp.r_cmd 0 s).bind (fun a s1 _ => ih _ s1)

theorem touch_commands (env : Env W) (np : Nat) (s : State W) :
    Follows Event.ofCommand s (touch env np s) := by
  unfold touch
  simp only
  split_ifs <;>
    repeat' first
      | exact Follows.refl _ _
      | exact True.intro
      | apply Follows.then_emit

/-- Running the commands of a target adds neither a mark nor a message of
the final decision to the log. -/
theorem make1_commands (env : Env W) (np : Nat) (rp : Option Rule) (newer : Option String)
    (implicit : Option Nat) (s : State W) :
    (make1 env np rp newer implicit s).Ends (Follows Event.ofCommand s) := by
  unfold make1
  simp only
  refine Res.Ends.after (Follows.of_eq (autoMacros_names env np newer implicit s)
    (autoMacros_log env np newer implicit s)) (Res.Ends.bind ?_ ?_)
  · cases rp with
    | none => exact docmdsRules_commands env np _ 0 _
    | some rule => exact docmdsFrom_commands env np _ 0 _
  · intro a s1 _
    show Follows Event.ofCommand s1 (if env.dotouch then touch env np s1 else s1)
    split_ifs
    · exact touch_commands env np s1
    · exact Follows.refl _ s1

/-- C25: let `np` be a name without `::` that is not done, outside query
mode, whose walk over the rules returned, so that `make` reaches the final
decision. The recorded failure is that some call of `make` for a prerequisite
returned non-zero. Then exactly one of three things happens: with
`n_time <= dtime` and no failure the commands of `np` are run (one run of
`make1`); with `n_time <= dtime` and a failure the warning "not built due to
errors" is given; with `n_time > dtime` the target counts as up to date and
nothing is run. The message "is up to date" is printed exactly in the third
case at level 0. -/
theorem make_three_outcomes (env : Env W) (hq : env.quest = false) (fuel np level : Nat)
    (s : State W) (hdone : (s.names np).n_flag.N_DONE = false)
    (hdbl : (s.names np).n_flag.N_DOUBLE = false) (l : Locals) (s3 : State W)
    (hw : makeWalk env (make env fuel) np level s = .ok l s3) :
    l.estat = (observe (make env fuel) level (prereqs (entry env np level s) np)
      (entry env np level s)).any (fun o => o.1 ≠ 0) ∧
    (((s3.names np).n_time ≤ l.dtime ∧ l.estat = false) →
      make env (fuel + 1) np level s =
        (make1 env np none l.newer l.impdep
            ((s3.setDone np).emit (.rebuild np none level))).bind
          (fun e s4 => .ok (b2n (e ≠ 0))
            ({ s4 with world := (env.time s4.world).2 }.setTime np (env.time s4.world).1))) ∧
    (((s3.names np).n_time ≤ l.dtime ∧ l.estat = true) →
      make env (fuel + 1) np level s =
        .ok 1 ((s3.setDone np).emit (.warning (.notBuilt np)))) ∧
    (l.dtime < (s3.names np).n_time →
      make env (fuel + 1) np level s =
        .ok (b2n l.estat) (if level = 0 then (s3.setDone np).emit (.printf (.upToDate np))
          else s3.setDone np)) ∧
    (make env (fuel + 1) np level s).Ends (fun s' => ∃ d, s'.log = s3.log ++ d ∧
      (Event.rebuild np none level ∈ d ↔ ((s3.names np).n_time ≤ l.dtime ∧ l.estat = false)) ∧
      (Event.warning (.notBuilt np) ∈ d ↔ ((s3.names np).n_time ≤ l.dtime ∧ l.estat = true)) ∧
      (Event.printf (.upToDate np) ∈ d ↔ (l.dtime < (s3.names np).n_time ∧ level = 0))) := by
  have hmk : ∀ d s1, (make env fuel d (level + 1) s1).Ends
      (Follows (Event.allowed env.quest (level + 1)) s1) :=
    fun d s1 => make_follows env fuel d (level + 1) s1
  obtain ⟨impdep, h2⟩ := walk_single env _ np level hmk s hdbl l s3 hw
  obtain ⟨o1, _, _, _, o5⟩ := makeDeps_observe env _ np level _ _ _ _ _ h2
  obtain ⟨_, r2⟩ := walk_single_runs env fuel np level s hdbl l s3 hw
  have hds : l.didsomething = false := o5
  have hmake := make_eq_finish env fuel np level s hdone l s3 hw
  have hrun : ((s3.names np).n_time ≤ l.dtime ∧ l.estat = false) →
      make env (fuel + 1) np level s =
        (make1 env np none l.newer l.impdep
            ((s3.setDone np).emit (.rebuild np none level))).bind
          (fun e s4 => .ok (b2n (e ≠ 0))
            ({ s4 with world := (env.time s4.world).2 }.setTime np (env.time s4.world).1)) :=
    fun h => hmake.trans (finish_rebuild env hq np level l s3 r2 h.1 h.2)
  have hskip : ((s3.names np).n_time ≤ l.dtime ∧ l.estat = true) →
      make env (fuel + 1) np level s =
        .ok 1 ((s3.setDone np).emit (.warning (.notBuilt np))) :=
    fun h => hmake.trans (finish_skip env hq np level l s3 r2 h.1 h.2)
  have hup : l.dtime < (s3.names np).n_time →
      make env (fuel + 1) np level s =
        .ok (b2n l.estat) (if level = 0 then (s3.setDone np).emit (.printf (.upToDate np))
          else s3.setDone np) := by
    intro h
    rw [hmake, finish_up_to_date env hq np level l s3 h]
    simp [hds]
  refine ⟨by rw [o1]; rfl, hrun, hskip, hup, ?_⟩
  by_cases ht : (s3.names np).n_time ≤ l.dtime
  · have hnt : ¬ l.dtime < (s3.names np).n_time := not_lt.2 ht
    cases he : l.estat with
    | false =>
      rw [hrun ⟨ht, he⟩]
      have hc := make1_commands env np none l.newer l.impdep
        ((s3.setDone np).emit (.rebuild np none level))
      refine Res.Ends.bind_ends hc (fun e s4 _ hq4 => ?_) (fun s4 hq4 => ?_)
      · obtain ⟨⟨d, hd, hp⟩, _⟩ := hq4
        refine ⟨.rebuild np none level :: d, ?_, ?_, ?_, ?_⟩
        · show (State.setTime _ np _).log = _
          simpa [State.setTime, State.modify, State.emit] using hd
        · simp [ht]
        · simp only [List.mem_cons, ht, true_and]
          constructor
          · rintro (h | h)
            · exact Event.noConfusion h
            · exact (hp _ h).elim
          · intro h; exact Bool.noConfusion h
        · simp only [List.mem_cons]
          constructor
          · rintro (h | h)
            · exact Event.noConfusion h
            · exact (hp _ h).elim
          · intro h; exact (hnt h.1).elim
      · obtain ⟨⟨d, hd, hp⟩, _⟩ := hq4
        refine ⟨.rebuild np none level :: d, ?_, ?_, ?_, ?_⟩
        · simpa [State.emit] using hd
        · simp [ht]
        · simp only [List.mem_cons, ht, true_and]
          constructor
          · rintro (h | h)
            · exact Event.noConfusion h
            · exact (hp _ h).elim
          · intro h; exact Bool.noConfusion h
        · simp only [List.mem_cons]
          constructor
          · rintro (h | h)
            · exact Event.noConfusion h
            · exact (hp _ h).elim
          · intro h; exact (hnt h.1).elim
    | true =>
      rw [hskip ⟨ht, he⟩]
      refine ⟨[.warning (.notBuilt np)], by simp [State.emit], ?_, ?_, ?_⟩
      · simp
      · simp [ht]
      · simp [hnt]
  · have hlt : l.dtime < (s3.names np).n_time := not_le.1 ht
    rw [hup hlt]
    by_cases h0 : level = 0
    · rw [if_pos h0]
      refine ⟨[.printf (.upToDate np)], by simp [State.emit], ?_, ?_, ?_⟩
      · simp [ht]
      · simp [ht]
      · simp [hlt, h0]
    · rw [if_neg h0]
      refine ⟨[], by simp, ?_, ?_, ?_⟩
      · simp [ht]
      · simp [ht]
      · simp [h0]

/-- C25 at the makefile `t: p` with both files missing: `t` is out of date
and no call failed, so the commands of `t` are run. -/
theorem make_three_outcomes_witness :
    ((makeWalk plainEnv (make plainEnv 1) 0 0 (freshState pair)).valueD {}).estat =
      (observe (make plainEnv 1) 0 (prereqs (entry plainEnv 0 0 (freshState pair)) 0)
        (entry plainEnv 0 0 (freshState pair))).any (fun o => o.1 ≠ 0) ∧
    make plainEnv (1 + 1) 0 0 (freshState pair) =
      (make1 plainEnv 0 none
          ((makeWalk plainEnv (make plainEnv 1) 0 0 (freshState pair)).valueD {}).newer
          ((makeWalk plainEnv (make plainEnv 1) 0 0 (freshState pair)).valueD {}).impdep
          ((((makeWalk plainEnv (make plainEnv 1) 0 0 (freshState pair)).stateD
            (freshState pair)).setDone 0).emit (.rebuild 0 none 0))).bind
        (fun e s4 => .ok (b2n (e ≠ 0))
          ({ s4 with world := (plainEnv.time s4.world).2 }.setTime 0
            (plainEnv.time s4.world).1)) := by
  have h := make_three_outcomes plainEnv rfl 1 0 0 (freshState pair) rfl rfl
    ((makeWalk plainEnv (make plainEnv 1) 0 0 (freshState pair)).valueD {})
    ((makeWalk plainEnv (make plainEnv 1) 0 0 (freshState pair)).stateD (freshState pair)) rfl
  exact ⟨h.1, h.2.1 ⟨by decide, rfl⟩⟩

/-! ## Termination on acyclic graphs -/

theorem Res.bind_ne_timeout {α β : Type} {r : Res W α} {f : α → State W → Res W β}
    (h : r ≠ .timeout) (hf : ∀ a s1, r = .ok a s1 → f a s1 ≠ .timeout) :
    r.bind f ≠ .timeout := by
  cases r with
  | ok a s1 => exact hf a s1 rfl
  | stop e s1 => exact fun hc => Res.noConfusion hc
  | timeout => exact (h rfl).elim

theorem Res.ne_timeout_of_bind {α β : Type} {r : Res W α} {f : α → State W → Res W β}
    (h : r.bind f ≠ .timeout) :
    r ≠ .timeout ∧ ∀ a s1, r = .ok a s1 → f a s1 ≠ .timeout := by
  cases r with
  | ok a s1 =>
    refine ⟨fun hc => Res.noConfusion hc, fun b s2 hb => ?_⟩
    simp only [Res.ok.injEq] at hb
    obtain ⟨h1, h2⟩ := hb
    subst h1 h2
    exact h
  | stop e s1 => exact ⟨fun hc => Res.noConfusion hc, fun b s2 hb => Res.noConfusion hb⟩
  | timeout => exact (h rfl).elim

theorem docmd_returns (env : Env W) (np : Nat) (c : String) (estat : Nat) (s : State W) :
    docmd env np c estat s ≠ .timeout := by
  rw [docmd_eq]
  split_ifs <;> exact fun hc => Res.noConfusion hc

theorem docmdsFrom_returns (env : Env W) (np : Nat) (cs : List String) (estat : Nat)
    (s : State W) : docmdsFrom env np cs estat s ≠ .timeout := by
  induction cs generalizing estat s with
  | nil => exact fun hc => Res.noConfusion hc
  | cons c cs ih =>
    exact Res.bind_ne_timeout (docmd_returns env np c estat s) (fun a s1 _ => ih a s1)

theorem docmdsRules_returns (env : Env W) (np : Nat) (rps : List Rule) (estat : Nat)
    (s : State W) : docmdsRules env np rps estat s ≠ .timeout := by
  induction rps generalizing estat s with
  | nil => exact fun hc => Res.noConfusion hc
  | cons rp rps ih =>
    exact Res.bind_ne_timeout (docmdsFrom_returns env np rp.r_cmd 0 s) (fun a s1 _ => ih _ s1)

/-- Running the commands of a target needs no recursion. -/
theorem make1_returns (env : Env W) (np : Nat) (rp : Option Rule) (newer : Option String)
    (implicit : Option Nat) (s : State W) : make1 env np rp newer implicit s ≠ .timeout := by
  unfold make1
  simp only
  refine Res.bind_ne_timeout ?_ (fun a s1 _ hc => Res.noConfusion hc)
  cases rp with
  | none => exact docmdsRules_returns env np _ 0 _
  | some rule => exact docmdsFrom_returns env np _ 0 _

theorem resolve_returns (env : Env W) (np : Nat) (s : State W) :
    resolve env np s ≠ .timeout := by
  unfold resolve
  by_cases hD : (!(s.names np).n_flag.N_DOUBLE) = true
  · rw [if_pos hD]
    simp only
    generalize (if (!(s.names np).n_rule.any (fun rp => !rp.r_cmd.isEmpty)) = true
          then dyndep env np none s else (none, s)) = x
    obtain ⟨impdep, s1⟩ := x
    simp only
    split_ifs
    · cases env.findname ".DEFAULT" with
      | none => exact fun hc => Res.noConfusion hc
      | some dflt =>
        simp only
        cases (s1.names dflt).n_rule with
        | nil => exact fun hc => Res.noConfusion hc
        | cons r rs => exact fun hc => Res.noConfusion hc
    · exact fun hc => Res.noConfusion hc
  · rw [if_neg hD]
    exact fun hc => Res.noConfusion hc

theorem ruleHead_returns (env : Env W) (np i : Nat) (rp : Rule) (l : Locals) (s : State W) :
    ruleHead env np i rp l s ≠ .timeout := by
  unfold ruleHead
  by_cases hD : (s.names np).n_flag.N_DOUBLE = true
  · rw [if_pos hD]
    refine Res.bind_ne_timeout ?_ (fun a s1 _ hc => Res.noConfusion hc)
    by_cases hc : rp.r_cmd.isEmpty = true
    · rw [if_pos hc]
      rcases dyndep env np (some i) s with ⟨_ | pp, s1⟩ <;> exact fun hc => Res.noConfusion hc
    · rw [if_neg hc]
      exact fun hc => Res.noConfusion hc
  · rw [if_neg hD]
    exact fun hc => Res.noConfusion hc

theorem ruleTail_returns (env : Env W) (np level i : Nat) (rp : Rule) (l : Locals)
    (s : State W) : ruleTail env np level i rp l s ≠ .timeout := by
  unfold ruleTail
  by_cases hD : (s.names np).n_flag.N_DOUBLE = true
  · rw [if_pos hD]
    refine Res.bind_ne_timeout ?_ (fun l1 s1 _ => ?_)
    · by_cases h2 : (!env.quest) = true ∧ (s.names np).n_time ≤ l.dtime
      · rw [if_pos h2]
        by_cases h3 : l.estat = false
        · rw [if_pos h3]
          exact Res.bind_ne_timeout (make1_returns env np _ _ _ _)
            (fun a s1 _ hc => Res.noConfusion hc)
        · rw [if_neg h3]
          exact fun hc => Res.noConfusion hc
      · rw [if_neg h2]
        exact fun hc => Res.noConfusion hc
    · cases l1.impdep with
      | none => exact fun hc => Res.noConfusion hc
      | some ip =>
        simp only
        cases (s1.ruleAt np i).r_dep with
        | nil => exact fun hc => Res.noConfusion hc
        | cons d dp => exact fun hc => Res.noConfusion hc
  · rw [if_neg hD]
    exact fun hc => Res.noConfusion hc

theorem finish_returns (env : Env W) (np level : Nat) (l : Locals) (s : State W) :
    finish env np level l s ≠ .timeout := by
  unfold finish
  simp only
  split_ifs <;>
    first
    | exact fun hc => Res.noConfusion hc
    | exact Res.bind_ne_timeout (make1_returns env np _ _ _ _)
        (fun a s1 _ hc => Res.noConfusion hc)

theorem makeDeps_returns {rank : Nat → Nat} (env : Env W)
    (mk : Nat → Nat → State W → Res W Nat) (np level : Nat)
    (hmk : ∀ d s, Ranked rank s →
      (mk d (level + 1) s).Ends (fun s' => Ranked rank s' ∧ Untouched rank d s s'))
    (hmkT : ∀ d s, Ranked rank s → rank d < rank np → mk d (level + 1) s ≠ .timeout)
    (ds : List Nat) (hds : ∀ d ∈ ds, rank d < rank np) (l : Locals) (s : State W)
    (hr : Ranked rank s) : makeDeps env mk np level ds l s ≠ .timeout := by
  induction ds generalizing l s with
  | nil => exact fun hc => Res.noConfusion hc
  | cons d ds ih =>
    unfold makeDeps
    refine Res.bind_ne_timeout (hmkT d s hr (hds d (List.mem_cons_self _ _)))
      (fun a s1 h1 => ?_)
    have h2 := hmk d s hr
    rw [h1] at h2
    exact ih (fun x hx => hds x (List.mem_cons_of_mem _ hx)) _ s1 h2.1

theorem makeRules_returns {rank : Nat → Nat} {env : Env W} (hsearch : RankedSearch rank env)
    (mk : Nat → Nat → State W → Res W Nat) (np level : Nat)
    (hmk : ∀ d s, Ranked rank s →
      (mk d (level + 1) s).Ends (fun s' => Ranked rank s' ∧ Untouched rank d s s'))
    (hmkT : ∀ d s, Ranked rank s → rank d < rank np → mk d (level + 1) s ≠ .timeout)
    (i : Nat) (rps : List Rule) (hrps : ∀ rp ∈ rps, ∀ d ∈ rp.r_dep, rank d < rank np)
    (l : Locals) (s : State W) (hr : Ranked rank s) :
    makeRules env mk np level i rps l s ≠ .timeout := by
  induction rps generalizing i l s with
  | nil => exact fun hc => Res.noConfusion hc
  | cons rp rps ih =>
    unfold makeRules
    obtain ⟨a1, a2⟩ := ruleHead_steady hsearch np i rp l s s
      (hrps rp (List.mem_cons_self _ _)) (steady_refl np hr)
    refine Res.bind_ne_timeout (ruleHead_returns env np i rp l s) (fun x s1 hH => ?_)
    obtain ⟨rp1, l1⟩ := x
    rw [hH] at a1
    have hrp1 := a2 rp1 l1 s1 hH
    have b1 := makeDeps_steady env mk np level hmk rp1.r_dep hrp1 l1 s s1 a1
    refine Res.bind_ne_timeout
      (makeDeps_returns env mk np level hmk hmkT rp1.r_dep hrp1 l1 s1 a1.1)
      (fun l2 s2 hM => ?_)
    rw [hM] at b1
    have c1 := ruleTail_steady env np level i rp1 l2 s s2 b1
    refine Res.bind_ne_timeout (ruleTail_returns env np level i rp1 l2 s2)
      (fun l3 s3 hT => ?_)
    rw [hT] at c1
    exact ih (i + 1) (fun x hx => hrps x (List.mem_cons_of_mem _ hx)) l3 s3 c1.1

theorem makeBody_returns {rank : Nat → Nat} {env : Env W} (hsearch : RankedSearch rank env)
    (mk : Nat → Nat → State W → Res W Nat) (np level : Nat)
    (hmk : ∀ d s, Ranked rank s →
      (mk d (level + 1) s).Ends (fun s' => Ranked rank s' ∧ Untouched rank d s s'))
    (hmkT : ∀ d s, Ranked rank s → rank d < rank np → mk d (level + 1) s ≠ .timeout)
    (s : State W) (hr : Ranked rank s) : makeBody env mk np level s ≠ .timeout := by
  cases hd : (s.names np).n_flag.N_DONE with
  | true =>
    rw [makeBody_done env mk np level s hd]
    exact fun hc => Res.noConfusion hc
  | false =>
    rw [makeBody_eq env mk np level s hd]
    refine Res.bind_ne_timeout ?_ (fun l s3 _ => finish_returns env np level l s3)
    unfold makeWalk
    have h0 := ranked_probed hr env np level
    have h1 := ranked_resolve hsearch h0 np
    refine Res.bind_ne_timeout (resolve_returns env np _) (fun impdep s2 hres => ?_)
    rw [hres] at h1
    exact makeRules_returns hsearch mk np level hmk hmkT 0 _ (fun rp hrp => h1.1 np rp hrp)
      _ s2 h1.1

/-- On an acyclic graph a recursion bound above the rank of `np` is enough
for `make` to come to an end. -/
theorem make_returns {rank : Nat → Nat} {env : Env W} (hsearch : RankedSearch rank env)
    (fuel np level : Nat) (s : State W) (hr : Ranked rank s) (hf : rank np < fuel) :
    make env fuel np level s ≠ .timeout := by
  induction fuel generalizing np level s with
  | zero => exact (Nat.not_lt_zero _ hf).elim
  | succ fuel ih =>
    exact makeBody_returns hsearch _ np level
      (fun d s1 h1 => make_untouched hsearch fuel d (level + 1) s1 h1)
      (fun d s1 h1 hd => ih d (level + 1) s1 h1 (by omega)) s hr

/-! ## The depth of the recursion and the recursion bound -/

theorem plain_not_call {P : Event → Prop} (hP : ∀ e, (∀ m k, e ≠ .call m k) → P e)
    (e : Event) (h : Event.plain e) : P e := by
  refine hP e (fun m k hc => ?_)
  subst hc
  exact h

theorem ruleTail_follows_of (P : Event → Prop) (hP : ∀ e, (∀ m k, e ≠ .call m k) → P e)
    (env : Env W) (np level i : Nat) (rp : Rule) (l : Locals) (s : State W) :
    (ruleTail env np level i rp l s).Ends (Follows P s) := by
  unfold ruleTail
  by_cases hD : (s.names np).n_flag.N_DOUBLE = true
  · rw [if_pos hD]
    refine Res.Ends.bind ?_ ?_
    · by_cases h2 : (!env.quest) = true ∧ (s.names np).n_time ≤ l.dtime
      · rw [if_pos h2]
        by_cases h3 : l.estat = false
        · rw [if_pos h3]
          refine Res.Ends.after (Follows.emit s (.rebuild np (some i) level) ?_)
            (Res.Ends.bind ?_ ?_)
          · exact hP _ (fun m k hc => Event.noConfusion hc)
          · refine (make1_follows env np (some rp) l.newer l.impdep _).weaken (fun _ h => ?_)
            exact h.mono (plain_not_call hP)
          · intro a s1 _
            exact Follows.refl _ s1
        · rw [if_neg h3]
          exact Follows.refl _ s
      · rw [if_neg h2]
        exact Follows.refl _ s
    · intro l1 s1 _
      cases l1.impdep with
      | none => exact Follows.refl _ s1
      | some ip =>
        simp only
        cases (s1.ruleAt np i).r_dep with
        | nil => exact Follows.refl _ s1
        | cons d dp => exact Follows.setRule s1 np i _
  · rw [if_neg hD]
    exact Follows.refl _ s

theorem finish_follows_of (P : Event → Prop) (hP : ∀ e, (∀ m k, e ≠ .call m k) → P e)
    (env : Env W) (np level : Nat) (l : Locals) (s : State W) :
    (finish env np level l s).Ends (Follows P s) := by
  unfold finish
  simp only
  have hd : Follows P s (s.setDone np) := Follows.setDone s np
  split_ifs with h1 h2 h3 h4 h5
  · exact (hd.then_world).trans (Follows.setTime _ np _)
  · exact hd
  · have hr : P (.rebuild np none level) := hP _ (fun m k hc => Event.noConfusion hc)
    refine Res.Ends.after (hd.then_emit hr) (Res.Ends.bind ?_ ?_)
    · refine (make1_follows env np none l.newer l.impdep _).weaken (fun _ h => ?_)
      exact h.mono (plain_not_call hP)
    · intro a s1 _
      exact (Follows.then_world (Follows.refl _ s1)).trans (Follows.setTime _ np _)
  · have hw : P (.warning (.notBuilt np)) := hP _ (fun m k hc => Event.noConfusion hc)
    exact hd.then_emit hw
  · have hw : P (.printf (.upToDate np)) := hP _ (fun m k hc => Event.noConfusion hc)
    exact hd.then_emit hw
  · exact hd

theorem makeRules_follows_of (P : Event → Prop) (hP : ∀ e, (∀ m k, e ≠ .call m k) → P e)
    (env : Env W) (mk : Nat → Nat → State W → Res W Nat) (np level : Nat)
    (hmk : ∀ d s, (mk d (level + 1) s).Ends (Follows P s))
    (i : Nat) (rps : List Rule) (l : Locals) (s : State W) :
    (makeRules env mk np level i rps l s).Ends (Follows P s) := by
  induction rps generalizing i l s with
  | nil => exact Follows.refl _ s
  | cons rp rps ih =>
    unfold makeRules
    refine Res.Ends.bind (ruleHead_follows _ env np i rp l s) (fun a s1 _ => ?_)
    obtain ⟨rp1, l1⟩ := a
    refine Res.Ends.bind (makeDeps_follows_any _ env mk np level hmk _ _ s1)
      (fun l2 s2 _ => ?_)
    exact Res.Ends.bind (ruleTail_follows_of P hP env np level i _ l2 s2)
      (fun l3 s3 _ => ih _ _ s3)

/-- The recursion bound bounds the depth: a call of `make` at `level` with
the bound `fuel` adds no call at a level of `level + fuel` or more. -/
theorem make_shallow (env : Env W) (fuel np level : Nat) (s : State W) :
    (make env fuel np level s).Ends (Follows (Event.shallow (level + fuel)) s) := by
  induction fuel generalizing np level s with
  | zero => trivial
  | succ fuel ih =>
    have hP : ∀ e, (∀ m k, e ≠ .call m k) → Event.shallow (level + (fuel + 1)) e := by
      intro e he
      cases e with
      | call m k => exact (he m k rfl).elim
      | _ => exact True.intro
    have hmk : ∀ d s1, (make env fuel d (level + 1) s1).Ends
        (Follows (Event.shallow (level + (fuel + 1))) s1) := by
      intro d s1
      have h := ih d (level + 1) s1
      rw [Nat.add_right_comm] at h
      exact h
    show (makeBody env (make env fuel) np level s).Ends _
    have hc : Event.shallow (level + (fuel + 1)) (.call np level) := by
      show level < level + (fuel + 1)
      omega
    cases hd : (s.names np).n_flag.N_DONE with
    | true =>
      rw [makeBody_done env _ np level s hd]
      exact Follows.emit s _ hc
    | false =>
      rw [makeBody_eq env _ np level s hd]
      refine Res.Ends.after (Follows.emit s (.call np level) hc) ?_
      refine Res.Ends.bind ?_ (fun l s3 _ => finish_follows_of _ hP env np level l s3)
      unfold makeWalk
      refine Res.Ends.after (Follows.probed _ env np level s) ?_
      exact Res.Ends.bind (resolve_follows _ env np _)
        (fun impdep s2 _ => makeRules_follows_of _ hP env _ np level hmk 0 _ _ s2)

theorem makeDeps_congr (env : Env W) (mk1 mk2 : Nat → Nat → State W → Res W Nat)
    (np level : Nat) (hmk : ∀ d s, mk2 d (level + 1) s ≠ .timeout →
      mk1 d (level + 1) s = mk2 d (level + 1) s)
    (ds : List Nat) (l : Locals) (s : State W)
    (h : makeDeps env mk2 np level ds l s ≠ .timeout) :
    makeDeps env mk1 np level ds l s = makeDeps env mk2 np level ds l s := by
  induction ds generalizing l s with
  | nil => rfl
  | cons d ds ih =>
    unfold makeDeps at h ⊢
    obtain ⟨h1, h2⟩ := Res.ne_timeout_of_bind h
    rw [hmk d s h1]
    cases hr : mk2 d (level + 1) s with
    | timeout => exact (h1 hr).elim
    | stop e s1 => rfl
    | ok r s1 =>
      simp only [Res.bind_ok]
      exact ih _ s1 (h2 r s1 hr)

theorem makeRules_congr (env : Env W) (mk1 mk2 : Nat → Nat → State W → Res W Nat)
    (np level : Nat) (hmk : ∀ d s, mk2 d (level + 1) s ≠ .timeout →
      mk1 d (level + 1) s = mk2 d (level + 1) s)
    (i : Nat) (rps : List Rule) (l : Locals) (s : State W)
    (h : makeRules env mk2 np level i rps l s ≠ .timeout) :
    makeRules env mk1 np level i rps l s = makeRules env mk2 np level i rps l s := by
  induction rps generalizing i l s with
  | nil => rfl
  | cons rp rps ih =>
    unfold makeRules at h ⊢
    obtain ⟨_, h2⟩ := Res.ne_timeout_of_bind h
    cases hH : ruleHead env np i rp l s with
    | timeout => rfl
    | stop e s1 => rfl
    | ok x s1 =>
      obtain ⟨rp1, l1⟩ := x
      have h3 := h2 (rp1, l1) s1 hH
      simp only [Res.bind_ok] at h3 ⊢
      obtain ⟨h4, h5⟩ := Res.ne_timeout_of_bind h3
      rw [makeDeps_congr env mk1 mk2 np level hmk rp1.r_dep l1 s1 h4]
      cases hM : makeDeps env mk2 np level rp1.r_dep l1 s1 with
      | timeout => rfl
      | stop e s2 => rfl
      | ok l2 s2 =>
        have h6 := h5 l2 s2 hM
        simp only [Res.bind_ok] at h6 ⊢
        obtain ⟨_, h7⟩ := Res.ne_timeout_of_bind h6
        cases hT : ruleTail env np level i rp1 l2 s2 with
        | timeout => rfl
        | stop e s3 => rfl
        | ok l3 s3 =>
          simp only [Res.bind_ok]
          exact ih (i + 1) l3 s3 (h7 l3 s3 hT)

theorem makeBody_congr (env : Env W) (mk1 mk2 : Nat → Nat → State W → Res W Nat)
    (np level : Nat) (hmk : ∀ d s, mk2 d (level + 1) s ≠ .timeout →
      mk1 d (level + 1) s = mk2 d (level + 1) s)
    (s : State W) (h : makeBody env mk2 np level s ≠ .timeout) :
    makeBody env mk1 np level s = makeBody env mk2 np level s := by
  cases hd : (s.names np).n_flag.N_DONE with
  | true => rw [makeBody_done env mk1 np level s hd, makeBody_done env mk2 np level s hd]
  | false =>
    rw [makeBody_eq env mk2 np level s hd] at h
    rw [makeBody_eq env mk1 np level s hd, makeBody_eq env mk2 np level s hd]
    obtain ⟨h1, _⟩ := Res.ne_timeout_of_bind h
    have hw : makeWalk env mk1 np level s = makeWalk env mk2 np level s := by
      unfold makeWalk at h1 ⊢
      obtain ⟨_, h2⟩ := Res.ne_timeout_of_bind h1
      cases hres : resolve env np (probed env np level s) with
      | timeout => rfl
      | stop e s2 => rfl
      | ok impdep s2 =>
        simp only [Res.bind_ok]
        exact makeRules_congr env mk1 mk2 np level hmk 0 _ _ s2 (h2 impdep s2 hres)
    rw [hw]

/-- Once `make` comes to an end within a recursion bound, a larger bound
gives the same result. -/
theorem make_fuel_succ (env : Env W) (fuel np level : Nat) (s : State W)
    (h : make env fuel np level s ≠ .timeout) :
    make env (fuel + 1) np level s = make env fuel np level s := by
  induction fuel generalizing np level s with
  | zero => exact (h rfl).elim
  | succ fuel ih =>
    exact makeBody_congr env (make env (fuel + 1)) (make env fuel) np level
      (fun d s1 h1 => ih d (level + 1) s1 h1) s h

theorem make_fuel_le (env : Env W) (fuel k np level : Nat) (s : State W)
    (h : make env fuel np level s ≠ .timeout) :
    make env (fuel + k) np level s = make env fuel np level s := by
  induction k with
  | zero => rfl
  | succ k ih =>
    have h1 : make env (fuel + k) np level s ≠ .timeout := by rw [ih]; exact h
    exact (make_fuel_succ env (fuel + k) np level s h1).trans ih

/-- C27: on an acyclic graph (a rank falls from every name to each of its
prerequisites, and the search for implicit rules keeps it so) `make` comes to
an end: with a recursion bound above the rank of `np` the run returns or
stops, every larger bound gives the same result, and no call of `make` is
nested deeper than the rank of `np` below the first call. -/
theorem make_terminates {rank : Nat → Nat} {env : Env W} (hsearch : RankedSearch rank env)
    (np level : Nat) (s : State W) (hr : Ranked rank s) :
    make env (rank np + 1) np level s ≠ .timeout ∧
    (∀ fuel, rank np < fuel →
      make env fuel np level s = make env (rank np + 1) np level s) ∧
    (make env (rank np + 1) np level s).Ends (fun s' => ∃ d, s'.log = s.log ++ d ∧
      ∀ m k, Event.call m k ∈ d → level ≤ k ∧ k ≤ level + rank np) := by
  have h1 := make_returns hsearch (rank np + 1) np level s hr (Nat.lt_succ_self _)
  refine ⟨h1, fun fuel hf => ?_, ?_⟩
  · obtain ⟨k, hk⟩ := Nat.exists_eq_add_of_le (Nat.succ_le_of_lt hf)
    rw [hk]
    exact make_fuel_le env (rank np + 1) k np level s h1
  · have h2 := make_shallow env (rank np + 1) np level s
    have h3 := make_follows env (rank np + 1) np level s
    cases hm : make env (rank np + 1) np level s with
    | timeout => trivial
    | ok r s' =>
      rw [hm] at h2 h3
      obtain ⟨⟨d, hd, hp⟩, _⟩ := h2
      obtain ⟨⟨d', hd', hp'⟩, _⟩ := h3
      have : d' = d := List.append_cancel_left (hd'.symm.trans hd)
      subst this
      refine ⟨d', hd, fun m k hmem => ⟨hp' _ hmem, ?_⟩⟩
      have h4 : k < level + (rank np + 1) := hp _ hmem
      omega
    | stop e s' =>
      rw [hm] at h2 h3
      obtain ⟨⟨d, hd, hp⟩, _⟩ := h2
      obtain ⟨⟨d', hd', hp'⟩, _⟩ := h3
      have : d' = d := List.append_cancel_left (hd'.symm.trans hd)
      subst this
      refine ⟨d', hd, fun m k hmem => ⟨hp' _ hmem, ?_⟩⟩
      have h4 : k < level + (rank np + 1) := hp _ hmem
      omega

/-- C27 at the rules `n:: a` and `n:: b`, where `n` has rank 1: the bound 2
is enough and no call is nested deeper than level 1. -/
theorem make_terminates_witness :
    make plainEnv (targetRank 0 + 1) 0 0 (freshState twoRules) ≠ .timeout ∧
    (∀ fuel, targetRank 0 < fuel →
      make plainEnv fuel 0 0 (freshState twoRules) =
        make plainEnv (targetRank 0 + 1) 0 0 (freshState twoRules)) ∧
    (make plainEnv (targetRank 0 + 1) 0 0 (freshState twoRules)).Ends (fun s' =>
      ∃ d, s'.log = (freshState twoRules).log ++ d ∧
        ∀ m k, Event.call m k ∈ d → 0 ≤ k ∧ k ≤ 0 + targetRank 0) :=
  @make_terminates Files targetRank plainEnv (fun _ _ _ _ _ _ h => Option.noConfusion h) 0 0
    (freshState twoRules)
    (by
      intro n rp hrp d hd
      rcases n with _ | _ | _ | n
      · simp only [freshState, twoRules, List.mem_cons, List.mem_singleton,
          List.not_mem_nil, or_false] at hrp
        rcases hrp with hrp | hrp <;> subst hrp <;>
          simp only [List.mem_singleton] at hd <;> subst hd <;> decide
      · simp [freshState, twoRules] at hrp
      · simp [freshState, twoRules] at hrp
      · simp [freshState, twoRules] at hrp)

/-! ## The command line: finding and removing an option -/

/-- The loop of `args_option_index` returns the first index from `i` on at
which the option stands before any `--`, and -1 if there is none. -/
theorem indexFrom_spec (v : List (Option String)) (option : String) (i k : Nat)
    (hstr : ∀ j, i ≤ j → j < i + k → ∃ str, v[j]? = some (some str)) :
    (∃ j : Nat, indexFrom v option i k = .ok (j : Int) ∧ i ≤ j ∧ j < i + k ∧
      v[j]? = some (some option) ∧
      (∀ j', i ≤ j' → j' ≤ j → v[j']? ≠ some (some "--")) ∧
      (∀ j', i ≤ j' → j' < j → v[j']? ≠ some (some option))) ∨
    (indexFrom v option i k = .ok (-1) ∧
      ∀ j, i ≤ j → j < i + k → v[j]? = some (some option) →
        ∃ j', i ≤ j' ∧ j' ≤ j ∧ v[j']? = some (some "--")) := by
  induction k generalizing i with
  | zero =>
    right
    exact ⟨rfl, fun j h1 h2 => by omega⟩
  | succ k ih =>
    obtain ⟨str, hs⟩ := hstr i (le_refl i) (by omega)
    unfold indexFrom
    rw [hs]
    simp only
    by_cases h1 : str = "--"
    · rw [if_pos h1]
      right
      refine ⟨rfl, fun j hj1 _ _ => ⟨i, le_refl i, hj1, by rw [hs, h1]⟩⟩
    · rw [if_neg h1]
      by_cases h2 : str = option
      · rw [if_pos h2]
        left
        refine ⟨i, rfl, le_refl i, by omega, by rw [hs, h2], fun j' h3 h4 => ?_,
          fun j' h3 h4 => by omega⟩
        have : j' = i := le_antisymm h4 h3
        subst this
        rw [hs]
        intro hc
        simp only [Option.some.injEq] at hc
        exact h1 hc
      · rw [if_neg h2]
        have hne1 : v[i]? ≠ some (some "--") := by
          rw [hs]; intro hc; simp only [Option.some.injEq] at hc; exact h1 hc
        have hne2 : v[i]? ≠ some (some option) := by
          rw [hs]; intro hc; simp only [Option.some.injEq] at hc; exact h2 hc
        rcases ih (i + 1) (fun j hj1 hj2 => hstr j (by omega) (by omega)) with
          ⟨j, e1, e2, e3, e4, e5, e6⟩ | ⟨e1, e2⟩
        · left
          refine ⟨j, e1, by omega, by omega, e4, fun j' h3 h4 => ?_, fun j' h3 h4 => ?_⟩
          · by_cases h5 : j' = i
            · subst h5; exact hne1
            · exact e5 j' (by omega) h4
          · by_cases h5 : j' = i
            · subst h5; exact hne2
            · exact e6 j' (by omega) h4
        · right
          refine ⟨e1, fun j hj1 hj2 hj3 => ?_⟩
          by_cases h5 : j = i
          · subst h5; exact (hne2 hj3).elim
          · obtain ⟨j', h6, h7, h8⟩ := e2 j (by omega) (by omega) hj3
            exact ⟨j', by omega, h7, h8⟩

/-- What `args_option_index` returns for arguments as `main` gets them: the
first index at which the option is found, or -1 when it is found nowhere. -/
theorem args_option_index_spec (a : Args) (option : String) (ha : a.Argv) :
    (∃ i : Nat, args_option_index a option = .ok (i : Int) ∧ FoundAt a option i ∧
      ∀ j, j < i → ¬ FoundAt a option j) ∨
    (args_option_index a option = .ok (-1) ∧ ∀ i, ¬ FoundAt a option i) := by
  obtain ⟨h0, _, hstr⟩ := ha
  unfold args_option_index
  rcases indexFrom_spec a.v option 1 (a.c - 1).toNat
      (fun j _ hj2 => hstr j (by omega)) with
    ⟨j, e1, e2, e3, e4, e5, e6⟩ | ⟨e1, e2⟩
  · left
    refine ⟨j, e1, ⟨e2, by omega, e4, e5⟩, fun j' hj' hf => ?_⟩
    exact e6 j' hf.1 hj' hf.2.2.1
  · right
    refine ⟨e1, fun i hf => ?_⟩
    obtain ⟨j', h1, h2, h3⟩ := e2 i hf.1 (by have := hf.2.1; omega) hf.2.2.1
    exact hf.2.2.2 j' h1 h2 h3

/-- The loop of `args_remove_at` moves the slots after `i` one down. -/
theorem shiftFrom_spec (v : List (Option String)) (i k : Nat) (h : i + k < v.length) :
    ∃ v', shiftFrom v i k = .ok v' ∧ v'.length = v.length ∧
      ∀ j, v'[j]? = if i ≤ j ∧ j < i + k then v[j + 1]? else v[j]? := by
  induction k generalizing v i with
  | zero =>
    refine ⟨v, rfl, rfl, fun j => ?_⟩
    rw [if_neg (by omega)]
  | succ k ih =>
    have hx : i + 1 < v.length := by omega
    unfold shiftFrom
    rw [List.getElem?_eq_getElem hx]
    simp only
    obtain ⟨v', e1, e2, e3⟩ := ih (v.set i v[i + 1]) (i + 1)
      (by rw [List.length_set]; omega)
    refine ⟨v', e1, by rw [e2, List.length_set], fun j => ?_⟩
    rw [e3 j]
    by_cases h1 : i + 1 ≤ j ∧ j < i + 1 + k
    · rw [if_pos h1, if_pos (by omega), List.getElem?_set_ne (by omega)]
    · rw [if_neg h1]
      by_cases h2 : j = i
      · subst h2
        rw [if_pos (by omega), List.getElem?_set_self (by omega),
          List.getElem?_eq_getElem hx]
      · rw [if_neg (by omega), List.getElem?_set_ne (fun hc => h2 hc.symm)]

/-- What `args_remove_at` does when the index is in range and the slot at
`args.c` is there. -/
theorem args_remove_at_spec (a : Args) (ix : Nat) (h1 : 1 ≤ ix) (h2 : (ix : Int) < a.c)
    (hcap : a.c.toNat < a.v.length) :
    ∃ a', args_remove_at a ix = .ok a' ∧ a'.c = a.c - 1 ∧ a'.v.length = a.v.length ∧
      ∀ j, a'.v[j]? = if j = a.c.toNat - 1 then some (some "")
        else if ix ≤ j ∧ j < a.c.toNat then a.v[j + 1]? else a.v[j]? := by
  have hc : 0 < a.c := by omega
  obtain ⟨v', e1, e2, e3⟩ := shiftFrom_spec a.v ix (a.c - ix).toNat (by omega)
  unfold args_remove_at
  rw [if_pos hc, if_pos ⟨by omega, h2⟩]
  have hix : ((ix : Int)).toNat = ix := Int.toNat_ofNat ix
  rw [hix, e1]
  refine ⟨_, rfl, rfl, by simp only [List.length_set]; exact e2, fun j => ?_⟩
  have hk : (a.c - 1).toNat = a.c.toNat - 1 := by omega
  simp only [hk]
  by_cases hj : j = a.c.toNat - 1
  · subst hj
    rw [if_pos rfl, List.getElem?_set_self (by omega)]
  · rw [if_neg hj, List.getElem?_set_ne (fun hc => hj hc.symm), e3 j]
    have : ix + (a.c - ix).toNat = a.c.toNat := by omega
    rw [this]

/-- Removing an argument: the other arguments keep their values and their
order, and the arguments are still as `main` gets them. -/
theorem args_remove_at_list (a : Args) (ix : Nat) (h1 : 1 ≤ ix) (h2 : (ix : Int) < a.c)
    (ha : a.Argv) :
    ∃ a', args_remove_at a ix = .ok a' ∧ a'.c = a.c - 1 ∧ a'.v.length = a.v.length ∧
      a'.list = a.list.eraseIdx ix ∧ a'.Argv := by
  obtain ⟨h0, hcap, hstr⟩ := ha
  obtain ⟨a', e1, e2, e3, e4⟩ := args_remove_at_spec a ix h1 h2 hcap
  refine ⟨a', e1, e2, e3, ?_, ⟨by omega, by omega, fun i hi => ?_⟩⟩
  · unfold Args.list
    refine List.ext_getElem? (fun j => ?_)
    rw [List.getElem?_take, List.getElem?_eraseIdx, List.getElem?_take, List.getElem?_take,
      e4 j, e2]
    have hk : (a.c - 1).toNat = a.c.toNat - 1 := by omega
    rw [hk]
    by_cases hj : j < a.c.toNat - 1
    · rw [if_pos hj, if_neg (by omega)]
      by_cases hji : j < ix
      · rw [if_pos hji, if_neg (by omega), if_pos (by omega)]
      · rw [if_neg hji, if_pos (by omega), if_pos (by omega)]
    · rw [if_neg hj, if_neg (by omega), if_neg (by omega)]
  · rw [e4 i, if_neg (by omega)]
    by_cases hji : ix ≤ i ∧ i < a.c.toNat
    · rw [if_pos hji]
      exact hstr (i + 1) (by push_cast; omega)
    · rw [if_neg hji]
      exact hstr i (by omega)

/-- C22: for arguments as `main` gets them, `args_option_bool` returns true
exactly when the option stands at some index from 1 on, below `args.c`, with
no `--` among the arguments from 1 up to that index. It then removes the
first such occurrence: `args.c` goes down by one and the other arguments keep
their values and their order. When it returns false, `args` is as it was. -/
theorem args_option_bool_spec (a : Args) (option : String) (ha : a.Argv) :
    ((∃ a', args_option_bool a option = .ok (true, a')) ↔ ∃ i, FoundAt a option i) ∧
    ((∃ i, FoundAt a option i) →
      ∃ i a', args_option_bool a option = .ok (true, a') ∧ FoundAt a option i ∧
        (∀ j, j < i → ¬ FoundAt a option j) ∧ a'.c = a.c - 1 ∧
        a'.list = a.list.eraseIdx i) ∧
    ((¬ ∃ i, FoundAt a option i) → args_option_bool a option = .ok (false, a)) := by
  have hyes : (∃ i, FoundAt a option i) →
      ∃ i a', args_option_bool a option = .ok (true, a') ∧ FoundAt a option i ∧
        (∀ j, j < i → ¬ FoundAt a option j) ∧ a'.c = a.c - 1 ∧
        a'.list = a.list.eraseIdx i := by
    rintro ⟨i0, hi0⟩
    rcases args_option_index_spec a option ha with ⟨i, e1, e2, e3⟩ | ⟨_, e2⟩
    · obtain ⟨a', r1, r2, _, r4, _⟩ := args_remove_at_list a i e2.1 e2.2.1 ha
      refine ⟨i, a', ?_, e2, e3, r2, r4⟩
      unfold args_option_bool
      rw [e1]
      simp only
      rw [if_pos (by have := e2.1; omega), r1]
    · exact (e2 i0 hi0).elim
  have hno : (¬ ∃ i, FoundAt a option i) → args_option_bool a option = .ok (false, a) := by
    intro hn
    rcases args_option_index_spec a option ha with ⟨i, _, e2, _⟩ | ⟨e1, _⟩
    · exact (hn ⟨i, e2⟩).elim
    · unfold args_option_bool
      rw [e1]
      rfl
  refine ⟨⟨fun ⟨a', h⟩ => ?_, fun h => ?_⟩, hyes, hno⟩
  · by_contra hn
    rw [hno hn] at h
    simp at h
  · obtain ⟨_, a', h1, _⟩ := hyes h
    exact ⟨a', h1⟩

theorem argv_three (p o t : String) (x : Option String) (rest : List (Option String)) :
    Args.Argv { c := 3, v := some p :: some o :: some t :: x :: rest } := by
  refine ⟨(by decide : (0 : Int) ≤ 3), ?_, fun i hi => ?_⟩
  · show (3 : Int).toNat < (some p :: some o :: some t :: x :: rest).length
    simp only [List.length_cons]
    have : (3 : Int).toNat = 3 := rfl
    omega
  · have hi' : (i : Int) < 3 := hi
    have : i = 0 ∨ i = 1 ∨ i = 2 := by omega
    rcases this with rfl | rfl | rfl
    · exact ⟨p, rfl⟩
    · exact ⟨o, rfl⟩
    · exact ⟨t, rfl⟩

/-- C22 at the example of `args.h`, `foo --verbose x`. -/
theorem args_option_bool_spec_witness :
    ((∃ a', args_option_bool argvVerbose "--verbose" = .ok (true, a')) ↔
      ∃ i, FoundAt argvVerbose "--verbose" i) ∧
    args_option_bool argvVerbose "--verbose" =
      .ok (true, { c := 2, v := [some "foo", some "x", some "", none] }) :=
  ⟨(args_option_bool_spec argvVerbose "--verbose" (argv_three "foo" "--verbose" "x" none [])).1,
    rfl⟩

/-- The loop of `args_remove_at` reads the slot at `args.c`: with an array of
exactly `args.c` slots the read is outside the array. -/
theorem args_remove_at_reads_past :
    args_option_bool { c := 3, v := [some "foo", some "--verbose", some "x"] } "--verbose" =
      .error .bounds :=
  rfl

/-! ## Numbers on the command line -/

theorem digitChar_facts (u : Bool) (d : Nat) (h : d < 16) :
    digitVal (digitChar u d) = some d ∧ isspace (digitChar u d) = false ∧
    digitChar u d ≠ '-' ∧ digitChar u d ≠ '+' ∧ digitChar u d ≠ 'x' ∧
    digitChar u d ≠ 'X' := by
  interval_cases d <;> cases u <;> decide

theorem numeral_chars (u : Bool) (base n : Nat) (hb : 1 < base) :
    ∀ c ∈ numeral u base n, ∃ d, d < base ∧ c = digitChar u d := by
  intro c hc
  unfold numeral at hc
  by_cases hn : n = 0
  · rw [if_pos hn, List.mem_singleton] at hc
    exact ⟨0, by omega, by rw [hc]; cases u <;> rfl⟩
  · rw [if_neg hn, List.mem_map] at hc
    obtain ⟨d, hd, hdc⟩ := hc
    exact ⟨d, Nat.digits_lt_base hb (List.mem_reverse.1 hd), hdc.symm⟩

theorem numeral_ne_nil (u : Bool) (base n : Nat) : numeral u base n ≠ [] := by
  unfold numeral
  by_cases hn : n = 0
  · rw [if_pos hn]; exact List.cons_ne_nil _ _
  · rw [if_neg hn]
    intro hc
    rw [List.map_eq_nil_iff, List.reverse_eq_nil_iff] at hc
    exact hn (Nat.digits_eq_nil_iff_eq_zero.1 hc)

theorem foldr_digits (u : Bool) (base : Nat) (hb : base ≤ 16) (L : List Nat)
    (hL : ∀ d ∈ L, d < base) :
    L.foldr (fun d acc => acc * base + (digitVal (digitChar u d)).getD 0) 0 =
      Nat.ofDigits base L := by
  induction L with
  | nil => rfl
  | cons d L ih =>
    have hd : d < 16 := lt_of_lt_of_le (hL d (List.mem_cons_self _ _)) hb
    rw [List.foldr_cons, ih (fun x hx => hL x (List.mem_cons_of_mem _ hx)),
      (digitChar_facts u d hd).1, Nat.ofDigits_cons]
    simp only [Option.getD_some]
    ring

/-- Reading the digits of `n` gives `n` back. -/
theorem numeral_value (u : Bool) (base n : Nat) (hb : 1 < base) (hb2 : base ≤ 16) :
    (numeral u base n).foldl (fun acc c => acc * base + (digitVal c).getD 0) 0 = n := by
  unfold numeral
  by_cases hn : n = 0
  · rw [if_pos hn, hn]
    have h0 : digitVal '0' = some 0 := by decide
    simp [h0]
  · rw [if_neg hn, List.foldl_map, List.foldl_reverse,
      foldr_digits u base hb2 _ (fun d hd => Nat.digits_lt_base hb hd), Nat.ofDigits_digits]

theorem signLen_none (c : Char) (cs : List Char) (h1 : c ≠ '-') (h2 : c ≠ '+') :
    signLen (c :: cs) = 0 := by
  simp [signLen, h1, h2]

theorem prefixLen_none (base : Nat) (r : List Char) (h : ∀ a ∈ r, a ≠ 'x' ∧ a ≠ 'X') :
    prefixLen base r = 0 := by
  unfold prefixLen
  rw [if_neg]
  rintro ⟨_, _, h1 | h1, _⟩
  · exact (h _ (List.getElem?_mem h1)).1 rfl
  · exact (h _ (List.getElem?_mem h1)).2 rfl

theorem prefixLen_ten (r : List Char) : prefixLen 10 r = 0 := by
  simp [prefixLen]

/-- What `strtoll` makes of a run of digits of the base with nothing in
front and nothing behind. -/
theorem strtoll_digits (ds : List Char) (base : Nat) (hne : ds ≠ [])
    (hall : ∀ c ∈ ds, isDigitOf base c = true ∧ isspace c = false ∧ c ≠ '-' ∧ c ≠ '+' ∧
      c ≠ 'x' ∧ c ≠ 'X')
    (hmax : ((ds.foldl (fun acc c => acc * base + (digitVal c).getD 0) 0 : Nat) : Int) ≤
      LLONG_MAX) :
    strtoll ds base =
      { value := (ds.foldl (fun acc c => acc * base + (digitVal c).getD 0) 0 : Nat),
        stop := ds.length, erange := false } := by
  cases ds with
  | nil => exact (hne rfl).elim
  | cons c cs =>
    obtain ⟨_, hsp, hm, hp, _, _⟩ := hall c (List.mem_cons_self _ _)
    have h1 : (c :: cs).takeWhile isspace = [] := by simp [List.takeWhile, hsp]
    have h2 : (c :: cs).dropWhile isspace = c :: cs := by simp [List.dropWhile, hsp]
    have h3 := signLen_none c cs hm hp
    have h5 := prefixLen_none base (c :: cs)
      (fun a ha => ⟨(hall a ha).2.2.2.2.1, (hall a ha).2.2.2.2.2⟩)
    have h6 : (c :: cs).takeWhile (isDigitOf base) = c :: cs :=
      List.takeWhile_eq_self_iff.2 (fun a ha => (hall a ha).1)
    have h7 : ¬ LLONG_MAX < (((c :: cs).foldl
        (fun acc c => acc * base + (digitVal c).getD 0) 0 : Nat) : Int) := not_lt.2 hmax
    have h8 : ¬ (((c :: cs).foldl
        (fun acc c => acc * base + (digitVal c).getD 0) 0 : Nat) : Int) < LLONG_MIN := by
      have : LLONG_MIN < 0 := by decide
      omega
    have h4 : decide ((c :: cs).head? = some '-') = false := by simp [hm]
    unfold strtoll
    simp only [h1, h2, h3, List.drop_zero, h5, h6, h4]
    unfold strtollOf
    simp only [if_neg (List.cons_ne_nil c cs), Bool.false_eq_true, if_false, if_neg h7,
      if_neg h8, List.length_nil, Nat.zero_add, Nat.add_zero]

/-- What `strtoll` makes of a `-` followed by a run of decimal digits. -/
theorem strtoll_minus (ds : List Char) (hne : ds ≠ [])
    (hall : ∀ c ∈ ds, isDigitOf 10 c = true)
    (hmin : LLONG_MIN ≤
      -((ds.foldl (fun acc c => acc * 10 + (digitVal c).getD 0) 0 : Nat) : Int)) :
    strtoll ('-' :: ds) 10 =
      { value := -((ds.foldl (fun acc c => acc * 10 + (digitVal c).getD 0) 0 : Nat) : Int),
        stop := ds.length + 1, erange := false } := by
  have h1 : ('-' :: ds).takeWhile isspace = [] := by
    have : isspace '-' = false := by decide
    simp [List.takeWhile, this]
  have h2 : ('-' :: ds).dropWhile isspace = '-' :: ds := by
    have : isspace '-' = false := by decide
    simp [List.dropWhile, this]
  have h3 : signLen ('-' :: ds) = 1 := by simp [signLen]
  have h6 : ds.takeWhile (isDigitOf 10) = ds := List.takeWhile_eq_self_iff.2 hall
  have h7 : ¬ LLONG_MAX <
      -((ds.foldl (fun acc c => acc * 10 + (digitVal c).getD 0) 0 : Nat) : Int) := by
    have : 0 < LLONG_MAX := by decide
    omega
  have h4 : decide (('-' :: ds).head? = some '-') = true := by simp
  unfold strtoll
  simp only [h1, h2, h3, List.drop_succ_cons, List.drop_zero, prefixLen_ten, h6, h4]
  unfold strtollOf
  simp only [if_neg hne, if_true, if_neg h7, if_neg (not_lt.2 hmin), List.length_nil,
    Nat.zero_add, Nat.add_zero]
  rw [Nat.add_comm]

theorem numeral_fit (u : Bool) (base n : Nat) (hb : 1 < base) (hb2 : base ≤ 16) :
    ∀ c ∈ numeral u base n, isDigitOf base c = true ∧ isspace c = false ∧ c ≠ '-' ∧
      c ≠ '+' ∧ c ≠ 'x' ∧ c ≠ 'X' := by
  intro c hc
  obtain ⟨d, hd, rfl⟩ := numeral_chars u base n hb c hc
  obtain ⟨f1, f2, f3, f4, f5, f6⟩ := digitChar_facts u d (lt_of_lt_of_le hd hb2)
  refine ⟨?_, f2, f3, f4, f5, f6⟩
  unfold isDigitOf
  rw [f1]
  simpa using hd

theorem no_hex_prefix (l : List Char) (h : ∀ a ∈ l, a ≠ 'x' ∧ a ≠ 'X') :
    (['0', 'x'].isPrefixOf l || ['0', 'X'].isPrefixOf l) = false := by
  cases l with
  | nil => rfl
  | cons c cs =>
    cases cs with
    | nil => simp [List.isPrefixOf]
    | cons c2 cs =>
      have h2 := h c2 (List.mem_cons_of_mem _ (List.mem_cons_self _ _))
      simp only [List.isPrefixOf, Bool.and_true, Bool.or_eq_false_iff, Bool.and_eq_false_imp,
        beq_iff_eq, beq_eq_false_iff_ne, ne_eq]
      exact ⟨fun _ hc => h2.1 hc.symm, fun _ hc => h2.2 hc.symm⟩

/-- The decimal rendering of a 64-bit integer is read back as that
integer. -/
theorem parseInt_decimal (v : Int) (hlo : LLONG_MIN ≤ v) (hhi : v ≤ LLONG_MAX) :
    parseInt (decimal v) = some v := by
  have hfit := numeral_fit false 10 v.natAbs (by decide) (by decide)
  have hval := numeral_value false 10 v.natAbs (by decide) (by decide)
  have hne := numeral_ne_nil false 10 v.natAbs
  unfold parseInt decimal
  by_cases hv : v < 0
  · have hpre : (['0', 'x'].isPrefixOf ('-' :: numeral false 10 v.natAbs) ||
        ['0', 'X'].isPrefixOf ('-' :: numeral false 10 v.natAbs)) = false := by
      simp [List.isPrefixOf]
    have hn : -((v.natAbs : Nat) : Int) = v := by omega
    have hs := strtoll_minus (numeral false 10 v.natAbs) hne (fun c hc => (hfit c hc).1)
      (by rw [hval, hn]; exact hlo)
    rw [hval, hn] at hs
    simp only [if_pos hv, hpre, Bool.false_eq_true, if_false, if_true, hs, List.length_cons,
      true_and, Nat.succ_pos, and_self]
  · have hpre := no_hex_prefix (numeral false 10 v.natAbs)
      (fun a ha => ⟨(hfit a ha).2.2.2.2.1, (hfit a ha).2.2.2.2.2⟩)
    have hn : ((v.natAbs : Nat) : Int) = v := by omega
    have hs := strtoll_digits (numeral false 10 v.natAbs) 10 hne hfit
      (by rw [hval, hn]; exact hhi)
    rw [hval, hn] at hs
    have hlen : 0 < (numeral false 10 v.natAbs).length := List.length_pos.2 hne
    simp only [if_neg hv, hpre, Bool.false_eq_true, if_false, if_true, hs, true_and, hlen,
      and_self]

/-- The hexadecimal rendering of a natural number that fits into 64 bits
with sign is read back as that number. -/
theorem parseInt_hex (bigX upper : Bool) (n : Nat) (hhi : (n : Int) ≤ LLONG_MAX) :
    parseInt (hexText bigX upper n) = some (n : Int) := by
  have hfit := numeral_fit upper 16 n (by decide) (by decide)
  have hval := numeral_value upper 16 n (by decide) (by decide)
  have hne := numeral_ne_nil upper 16 n
  have hs := strtoll_digits (numeral upper 16 n) 16 hne hfit (by rw [hval]; exact hhi)
  rw [hval] at hs
  have hlen : 0 < (numeral upper 16 n).length := List.length_pos.2 hne
  have hpre : (['0', 'x'].isPrefixOf ('0' :: (if bigX = true then 'X' else 'x') ::
        numeral upper 16 n) ||
      ['0', 'X'].isPrefixOf ('0' :: (if bigX = true then 'X' else 'x') ::
        numeral upper 16 n)) = true := by
    cases bigX <;> simp [List.isPrefixOf]
  unfold parseInt hexText
  simp only [hpre, if_true, List.drop_succ_cons, List.drop_zero, hs, true_and, hlen, and_self,
    show ¬ ((16 : Nat) = 10) by decide, if_false]

/-- C21: let the arguments be the program name, an option other than `--`
and a text, in an array that has the slot after them (the closing NULL of
`argv`), and let the text be the decimal rendering of a 64-bit integer `v`
(with `-` in front of a negative one) or, for `v >= 0`, `0x` or `0X` followed
by the hexadecimal digits of `v`. Then `args_option_int` returns true, stores
exactly `v`, and removes the option and the number: `args.c` is 1 and
`args.v[0]` is the program name. -/
theorem args_option_int_number (prog option text : String) (x : Option String)
    (rest : List (Option String)) (value v : Int) (hopt : option ≠ "--")
    (hlo : LLONG_MIN ≤ v) (hhi : v ≤ LLONG_MAX)
    (htext : text = decimal v ∨ (0 ≤ v ∧ ∃ bigX upper, text = hexText bigX upper v.toNat)) :
    args_option_int { c := 3, v := some prog :: some option :: some text :: x :: rest }
        option value =
      .ok (true, v, { c := 1, v := some prog :: some "" :: some "" :: x :: rest }) := by
  have hparse : parseInt text = some v := by
    rcases htext with h | ⟨h0, bigX, upper, h⟩
    · rw [h]; exact parseInt_decimal v hlo hhi
    · have hn : ((v.toNat : Nat) : Int) = v := Int.toNat_of_nonneg h0
      have := parseInt_hex bigX upper v.toNat (by rw [hn]; exact hhi)
      rw [h, this, hn]
  have hidx : args_option_index
      { c := 3, v := some prog :: some option :: some text :: x :: rest } option =
      .ok ((1 : Nat) : Int) := by
    show indexFrom _ option 1 (2 : Nat) = _
    unfold indexFrom
    simp [hopt]
  have hrem : removeTwo
      { c := 3, v := some prog :: some option :: some text :: x :: rest } ((1 : Nat) : Int) =
      .ok { c := 1, v := some prog :: some "" :: some "" :: x :: rest } := by
    have h1 : args_remove_at
        { c := 3, v := some prog :: some option :: some text :: x :: rest } ((1 : Nat) : Int) =
        .ok { c := 2, v := some prog :: some text :: some "" :: x :: rest } := by
      unfold args_remove_at
      simp only [Int.toNat_ofNat]
      have hk : ((3 : Int) - ((1 : Nat) : Int)).toNat = 2 := by decide
      have hk2 : ((3 : Int) - 1).toNat = 2 := by decide
      rw [if_pos (by decide), if_pos (by decide), hk, hk2]
      simp [shiftFrom]
    have h2 : args_remove_at
        { c := 2, v := some prog :: some text :: some "" :: x :: rest } ((1 : Nat) : Int) =
        .ok { c := 1, v := some prog :: some "" :: some "" :: x :: rest } := by
      unfold args_remove_at
      simp only [Int.toNat_ofNat]
      have hk : ((2 : Int) - ((1 : Nat) : Int)).toNat = 1 := by decide
      have hk2 : ((2 : Int) - 1).toNat = 1 := by decide
      rw [if_pos (by decide), if_pos (by decide), hk, hk2]
      simp [shiftFrom]
    unfold removeTwo
    rw [h1]
    exact h2
  unfold args_option_int
  rw [hidx]
  simp only
  rw [if_pos (by decide)]
  have hslot : (some prog :: some option :: some text :: x :: rest)[
      (((1 : Nat) : Int) + 1).toNat]? = some (some text) := by
    have : (((1 : Nat) : Int) + 1).toNat = 2 := by decide
    rw [this]
    rfl
  rw [hslot]
  simp only
  rw [hparse]
  simp only
  rw [hrem]

theorem decimal_example : decimal (-153) = "-153" := by
  have h : Nat.digits 10 153 = [3, 5, 1] := by norm_num
  have h1 : Int.natAbs (-153) = 153 := rfl
  simp only [decimal, numeral, h1, h]
  decide

theorem hexText_example : hexText false true 195948557 = "0xBADF00D" := by
  have h : Nat.digits 16 195948557 = [13, 0, 0, 15, 13, 10, 11] := by norm_num
  simp only [hexText, numeral, h]
  decide

/-- C21 at the examples of `args.h`: `foo --n -153` and
`foo --n 0xBADF00D`. -/
theorem args_option_int_number_witness :
    args_option_int { c := 3, v := some "foo" :: some "--n" :: some "-153" :: none :: [] }
        "--n" 7 =
      .ok (true, -153, { c := 1, v := some "foo" :: some "" :: some "" :: none :: [] }) ∧
    args_option_int { c := 3, v := some "foo" :: some "--n" :: some "0xBADF00D" :: none :: [] }
        "--n" 7 =
      .ok (true, 195948557,
        { c := 1, v := some "foo" :: some "" :: some "" :: none :: [] }) :=
  ⟨args_option_int_number "foo" "--n" "-153" none [] 7 (-153) (by decide) (by decide)
      (by decide) (Or.inl decimal_example.symm),
    args_option_int_number "foo" "--n" "0xBADF00D" none [] 7 195948557 (by decide) (by decide)
      (by decide) (Or.inr ⟨by decide, false, true, hexText_example.symm⟩)⟩

/-! ## The command line: what a failed lookup leaves behind -/

theorem args_option_int_false (a : Args) (option : String) (value v' : Int) (a' : Args)
    (h : args_option_int a option value = .ok (false, v', a')) : v' = value ∧ a' = a := by
  unfold args_option_int at h
  cases hidx : args_option_index a option with
  | error e => rw [hidx] at h; simp at h
  | ok ix =>
    rw [hidx] at h
    simp only at h
    by_cases hc : 0 < ix ∧ ix < a.c - 1
    · rw [if_pos hc] at h
      rcases hs : a.v[(ix + 1).toNat]? with _ | _ | s
      · rw [hs] at h; simp at h
      · rw [hs] at h; simp at h
      · rw [hs] at h
        simp only at h
        cases hp : parseInt s with
        | none =>
          rw [hp] at h
          simp only [Except.ok.injEq, Prod.mk.injEq, true_and] at h
          exact ⟨h.1.symm, h.2.symm⟩
        | some v =>
          rw [hp] at h
          simp only at h
          cases hr : removeTwo a ix with
          | error e => rw [hr] at h; simp at h
          | ok a2 => rw [hr] at h; simp at h
    · rw [if_neg hc] at h
      simp only [Except.ok.injEq, Prod.mk.injEq, true_and] at h
      exact ⟨h.1.symm, h.2.symm⟩

theorem args_option_str_null (a : Args) (option : String) (a' : Args)
    (hstr : ∀ i : Nat, (i : Int) < a.c → ∃ str, a.v[i]? = some (some str))
    (h : args_option_str a option = .ok (none, a')) : a' = a := by
  unfold args_option_str at h
  cases hidx : args_option_index a option with
  | error e => rw [hidx] at h; simp at h
  | ok ix =>
    rw [hidx] at h
    simp only at h
    by_cases hc : 0 < ix ∧ ix < a.c - 1
    · rw [if_pos hc] at h
      obtain ⟨str, hs⟩ := hstr (ix + 1).toNat (by omega)
      rw [hs] at h
      simp only at h
      cases hr : removeTwo a ix with
      | error e => rw [hr] at h; simp at h
      | ok a2 => rw [hr] at h; simp at h
    · rw [if_neg hc] at h
      simp only [Except.ok.injEq, Prod.mk.injEq, true_and] at h
      exact h.symm

theorem removeTwo_ok (a : Args) (i : Nat) (h1 : 1 ≤ i) (h2 : (i : Int) < a.c - 1)
    (ha : a.Argv) :
    ∃ a2, removeTwo a i = .ok a2 ∧ a2.c = a.c - 2 ∧
      a2.list = (a.list.eraseIdx i).eraseIdx i := by
  obtain ⟨a1, r1, r2, _, r4, r5⟩ := args_remove_at_list a i h1 (by omega) ha
  obtain ⟨a2, q1, q2, _, q4, _⟩ := args_remove_at_list a1 i h1 (by omega) r5
  refine ⟨a2, ?_, by omega, by rw [q4, r4]⟩
  unfold removeTwo
  rw [r1]
  exact q1

/-- C26, as the code has it: for arguments as `main` gets them,
`args_option_int` and `args_option_str` change nothing when they fail: a
false result leaves `args` and `*value` as they were, a NULL result leaves
`args` as it was. They fail when the option is not found before `--` and when
it is the last argument. When a text follows the option, `args_option_int`
fails exactly when `strtoll` does not take the whole text, after `0x` or `0X`
if the text starts so, as a number in range; this lets through texts that are
no decimal or hexadecimal numerals, since `strtoll` itself skips white space
and takes a sign and a `0x`. -/
theorem args_option_atomic (a : Args) (option : String) (value : Int) (ha : a.Argv) :
    (∀ v' a', args_option_int a option value = .ok (false, v', a') → v' = value ∧ a' = a) ∧
    (∀ a', args_option_str a option = .ok (none, a') → a' = a) ∧
    ((¬ ∃ i, FoundAt a option i) →
      args_option_int a option value = .ok (false, value, a) ∧
      args_option_str a option = .ok (none, a)) ∧
    (∀ i, FoundAt a option i → (∀ j, j < i → ¬ FoundAt a option j) →
      ((i : Int) = a.c - 1 →
        args_option_int a option value = .ok (false, value, a) ∧
        args_option_str a option = .ok (none, a)) ∧
      (∀ s, a.v[i + 1]? = some (some s) → (i : Int) < a.c - 1 →
        (parseInt s = none → args_option_int a option value = .ok (false, value, a)) ∧
        (∀ v, parseInt s = some v →
          ∃ a2, args_option_int a option value = .ok (true, v, a2) ∧ a2.c = a.c - 2 ∧
            a2.list = (a.list.eraseIdx i).eraseIdx i))) := by
  refine ⟨fun v' a' h => args_option_int_false a option value v' a' h,
    fun a' h => args_option_str_null a option a' ha.2.2 h, fun hn => ?_, fun i hf hmin => ?_⟩
  · rcases args_option_index_spec a option ha with ⟨i, _, e2, _⟩ | ⟨e1, _⟩
    · exact (hn ⟨i, e2⟩).elim
    · unfold args_option_int args_option_str
      rw [e1]
      exact ⟨rfl, rfl⟩
  · have hidx : args_option_index a option = .ok (i : Int) := by
      rcases args_option_index_spec a option ha with ⟨i0, e1, e2, e3⟩ | ⟨_, e2⟩
      · have : i0 = i := by
          rcases Nat.lt_trichotomy i0 i with h | h | h
          · exact (hmin i0 h e2).elim
          · exact h
          · exact (e3 i h hf).elim
        rw [← this]; exact e1
      · exact (e2 i hf).elim
    refine ⟨fun hlast => ?_, fun s hs hlt => ⟨fun hp => ?_, fun v hp => ?_⟩⟩
    · unfold args_option_int args_option_str
      rw [hidx]
      simp only
      rw [if_neg (by omega), if_neg (by omega)]
      exact ⟨rfl, rfl⟩
    · unfold args_option_int
      rw [hidx]
      simp only
      have hk : ((i : Int) + 1).toNat = i + 1 := by omega
      rw [if_pos ⟨by have := hf.1; omega, hlt⟩, hk, hs]
      simp only
      rw [hp]
    · obtain ⟨a2, r1, r2, r3⟩ := removeTwo_ok a i hf.1 hlt ha
      refine ⟨a2, ?_, r2, r3⟩
      unfold args_option_int
      rw [hidx]
      simp only
      have hk : ((i : Int) + 1).toNat = i + 1 := by omega
      rw [if_pos ⟨by have := hf.1; omega, hlt⟩, hk, hs]
      simp only
      rw [hp]
      simp only
      rw [r1]

/-- C26 at `foo --n 12a`: the text is no number, the call fails and changes
nothing. -/
theorem args_option_atomic_witness :
    (∀ v' a', args_option_int (argvNumber "12a") "--n" 7 = .ok (false, v', a') →
      v' = 7 ∧ a' = argvNumber "12a") ∧
    args_option_int (argvNumber "12a") "--n" 7 = .ok (false, 7, argvNumber "12a") :=
  ⟨(args_option_atomic (argvNumber "12a") "--n" 7 (argv_three "foo" "--n" "12a" none [])).1,
    rfl⟩

/-- The texts `0x0x10`, `0x-5` and ` +12` are no decimal and no hexadecimal
numerals, and yet `args_option_int` takes them as 16, -5 and 12, returns true
and removes the option and the text. -/
theorem args_option_int_takes_more :
    args_option_int (argvNumber "0x0x10") "--n" 7 =
      .ok (true, 16, { c := 1, v := [some "foo", some "", some "", none] }) ∧
    args_option_int (argvNumber "0x-5") "--n" 7 =
      .ok (true, -5, { c := 1, v := [some "foo", some "", some "", none] }) ∧
    args_option_int (argvNumber " +12") "--n" 7 =
      .ok (true, 12, { c := 1, v := [some "foo", some "", some "", none] }) :=
  ⟨rfl, rfl, rfl⟩

end Pdpmake
